import Mathlib

/-!
Shallow embedding of the arena-backed treap library (src/src/lib.rs) and a
verification of its specification.

The embedding has two layers:

* an arena layer that mirrors the Rust code literally: a slot table
  (`DirectVecIndex`), integer handles (`Option Nat` for `NodePtr`), the
  `IndexError` taxonomy, and the recursive algorithms written against the
  table.  Recursive traversals over the arena carry an explicit fuel
  argument; `Res.div` models a Rust execution that does not return
  (unbounded recursion on a corrupted arena).  Every public operation
  supplies fuel that is sufficient for any well-formed arena, so the fuel is
  observationally irrelevant on the states the specification talks about.

* an abstract layer of inductive binary trees (`Tree`), related to the arena
  layer by `gatherT`, which reads the tree reachable from a handle out of
  the slot table together with the list of slots it occupies.
-/

set_option linter.unusedVariables false
set_option linter.unusedSectionVars false

namespace Treaplib

/-- Mirrors Rust `enum IndexError { None, Empty(Id), OutOfBounds(Id) }`.
`noHandle` stands for the source's `IndexError::None`. -/
inductive IndexError where
  | noHandle : IndexError
  | empty : Nat → IndexError
  | outOfBounds : Nat → IndexError
deriving Repr, DecidableEq

/-- Mirrors Rust `enum Error { Index(IndexError) }`. -/
inductive Error where
  | index : IndexError → Error
deriving Repr, DecidableEq

/-- Mirrors Rust `struct Node<K,P,V>`; `left`/`right` are `NodePtr = Option<Id>`
with `Id = usize` modelled as `Nat`. -/
structure Node (K P V : Type) where
  key : K
  priority : P
  value : V
  left : Option Nat
  right : Option Nat
deriving Repr, DecidableEq

/-- Mirrors Rust `struct DirectVecIndex<K,P,V>`.  The Rust `reuse: Vec<usize>`
is used as a stack through `push`/`pop` on its tail; it is modelled as a list
whose head is the most recently pushed id. -/
structure DirectVecIndex (K P V : Type) where
  reuse : List Nat
  index : List (Option (Node K P V))
deriving Repr, DecidableEq

/-- Result of a fueled arena computation: `div` models a Rust execution that
never returns (possible only on corrupted arenas, where the recursion has no
termination guarantee), `err` a returned `Err(IndexError)` and `ok` a
returned `Ok` value. -/
inductive Res (α : Type) : Type where
  | div : Res α
  | err : IndexError → Res α
  | ok : α → Res α
deriving Repr

def Res.bind {α β : Type} : Res α → (α → Res β) → Res β
  | .div, _ => .div
  | .err e, _ => .err e
  | .ok a, f => f a

instance : Monad Res where
  pure := Res.ok
  bind := Res.bind

/-- Lifts the error-only result of a non-recursive arena primitive. -/
def ofExcept {α : Type} : Except IndexError α → Res α
  | .error e => .err e
  | .ok a => .ok a

namespace DirectVecIndex

variable {K P V : Type}

/-- Mirrors `DirectVecIndex::new`. -/
def new : DirectVecIndex K P V := ⟨[], []⟩

/-- Mirrors `DirectVecIndex::size`: the Rust code computes
`if i > r { i - r } else { 0 }`, which is exactly truncated `Nat`
subtraction. -/
def size (d : DirectVecIndex K P V) : Nat :=
  d.index.length - d.reuse.length

/-- Mirrors `DirectVecIndex::insert`: pop a freed id off the reuse stack and
overwrite that slot, else append a fresh slot; returns the new state and the
handle (always `some`). -/
def insertNode (d : DirectVecIndex K P V) (node : Node K P V) :
    DirectVecIndex K P V × Option Nat :=
  match d.reuse with
  | id :: rest => (⟨rest, d.index.set id (some node)⟩, some id)
  | [] => (⟨[], d.index ++ [some node]⟩, some d.index.length)

/-- Mirrors `DirectVecIndex::remove`: resolve the handle (error taxonomy
`noHandle` / `outOfBounds` / `empty`), take the node out of its slot and push
the id on the reuse stack. -/
def removeNode (d : DirectVecIndex K P V) (id : Option Nat) :
    Except IndexError (Node K P V × DirectVecIndex K P V) :=
  match id with
  | none => .error .noHandle
  | some i =>
    if i ≥ d.index.length then .error (.outOfBounds i)
    else
      match d.index[i]? with
      | some (some node) => .ok (node, ⟨i :: d.reuse, d.index.set i none⟩)
      | _ => .error (.empty i)

/-- Mirrors `DirectVecIndex::get`. -/
def get (d : DirectVecIndex K P V) (id : Option Nat) :
    Except IndexError (Node K P V) :=
  match id with
  | none => .error .noHandle
  | some i =>
    match d.index[i]? with
    | none => .error (.outOfBounds i)
    | some none => .error (.empty i)
    | some (some node) => .ok node

/-- Mirrors `DirectVecIndex::get_mut`; its Rust body is identical to `get`
apart from mutability of the returned reference. -/
def getMut (d : DirectVecIndex K P V) (id : Option Nat) :
    Except IndexError (Node K P V) :=
  match id with
  | none => .error .noHandle
  | some i =>
    match d.index[i]? with
    | none => .error (.outOfBounds i)
    | some none => .error (.empty i)
    | some (some node) => .ok node

/-- Models the Rust pattern `index.get_mut(&id)?.field = x`: resolve the
handle with `get_mut`'s error taxonomy and overwrite the resolved node with
`f` applied to it. -/
def modifyNode (d : DirectVecIndex K P V) (id : Option Nat)
    (f : Node K P V → Node K P V) :
    Except IndexError (DirectVecIndex K P V) :=
  match id with
  | none => .error .noHandle
  | some i =>
    match d.index[i]? with
    | none => .error (.outOfBounds i)
    | some none => .error (.empty i)
    | some (some node) => .ok ⟨d.reuse, d.index.set i (some (f node))⟩

/-- Models the Rust pattern `index.remove(&id).ok()`: the error is discarded
and (since `remove` mutates nothing on its error paths) the table is left
unchanged. -/
def removeOk (d : DirectVecIndex K P V) (id : Option Nat) :
    DirectVecIndex K P V × Option (Node K P V) :=
  match d.removeNode id with
  | .ok (node, d') => (d', some node)
  | .error _ => (d, none)

end DirectVecIndex

/-- Mirrors Rust `struct Split<K,P,V>`. -/
structure Split (K P V : Type) where
  left : Option Nat
  entry : Option Nat
  right : Option Nat
  index : DirectVecIndex K P V

/-- Mirrors Rust `struct Treap<K,P,V>`. -/
structure Treap (K P V : Type) where
  root : Option Nat
  index : DirectVecIndex K P V
deriving Repr, DecidableEq

namespace Treap

variable {K P V : Type} [LinearOrder K] [LinearOrder P]

/-- Mirrors `Treap::new`. -/
def new : Treap K P V := ⟨none, DirectVecIndex.new⟩

/-- Mirrors `Treap::len`. -/
def len (t : Treap K P V) : Nat := t.index.size

/-- Mirrors the inner `split_nodes` of `Treap::split`, with fuel bounding the
recursion depth.  The source resolves the current handle, detaches an exact
key match in place, and otherwise recurses into the side that can contain the
key, reattaching one returned part as the current node's child. -/
def splitNodes (fuel : Nat) (d : DirectVecIndex K P V) (node : Option Nat)
    (key : K) :
    Res (DirectVecIndex K P V × Option Nat × Option Nat × Option Nat) :=
  match fuel with
  | 0 => .div
  | fuel + 1 =>
    if node.isNone then .ok (d, none, none, none)
    else do
      let entry ← ofExcept (d.get node)
      if entry.key = key then do
        let d ← ofExcept
          (d.modifyNode node fun nd => { nd with left := none, right := none })
        pure (d, entry.left, node, entry.right)
      else if entry.key > key then do
        let (d, l, e, r) ← splitNodes fuel d entry.left key
        let d ← ofExcept (d.modifyNode node fun nd => { nd with left := r })
        pure (d, l, e, node)
      else do
        let (d, l, e, r) ← splitNodes fuel d entry.right key
        let d ← ofExcept (d.modifyNode node fun nd => { nd with right := l })
        pure (d, node, e, r)

/-- Mirrors `Treap::split` (the consuming wrapper building a `Split`).  The
fuel `index.length + 1` exceeds the depth of any tree stored without slot
sharing in the table, so it never runs out on a well-formed treap. -/
def split (t : Treap K P V) (key : K) : Res (Split K P V) := do
  let (d, l, e, r) ← splitNodes (t.index.index.length + 1) t.index t.root key
  pure ⟨l, e, r, d⟩

/-- Mirrors `Treap::merge_nodes`, with fuel bounding the recursion depth.
The strictly greater root priority wins; on ties the right root wins. -/
def mergeNodes (fuel : Nat) (d : DirectVecIndex K P V)
    (left right : Option Nat) : Res (DirectVecIndex K P V × Option Nat) :=
  match fuel with
  | 0 => .div
  | fuel + 1 =>
    if left.isNone then .ok (d, right)
    else if right.isNone then .ok (d, left)
    else do
      let lnode ← ofExcept (d.get left)
      let rnode ← ofExcept (d.get right)
      if lnode.priority > rnode.priority then do
        let (d, m) ← mergeNodes fuel d lnode.right right
        let d ← ofExcept (d.modifyNode left fun nd => { nd with right := m })
        pure (d, left)
      else do
        let (d, m) ← mergeNodes fuel d left rnode.left
        let d ← ofExcept (d.modifyNode right fun nd => { nd with left := m })
        pure (d, right)

/-- Wraps an internal result as the observable outcome of a public method
whose receiver was first swapped with a freshly created empty treap (the
pattern of `insert`, `remove` and `prioritize` in the source): on success the
rebuilt treap is stored back, on failure the receiver keeps the fresh empty
treap because the early return skips the store-back. -/
def publish {α : Type} : Res (Treap K P V × α) →
    Treap K P V × Option (Except Error α)
  | .ok (t, a) => (t, some (.ok a))
  | .err e => (Treap.new, some (.error (.index e)))
  | .div => (Treap.new, none)

/-- Mirrors `Treap::insert`. -/
def insert (t : Treap K P V) (key : K) (priority : P) (value : V) :
    Treap K P V × Option (Except Error (Option (P × V))) :=
  publish do
    let spl ← t.split key
    let newNode : Node K P V :=
      { key := key, priority := priority, value := value,
        left := none, right := none }
    let (d, node) := spl.index.removeOk spl.entry
    let (d, newPtr) := d.insertNode newNode
    let (d, root) ← mergeNodes (d.index.length + 1) d spl.left newPtr
    let (d, root) ← mergeNodes (d.index.length + 1) d root spl.right
    pure (⟨root, d⟩, node.map fun nd => (nd.priority, nd.value))

/-- Mirrors `Treap::remove`. -/
def remove (t : Treap K P V) (key : K) :
    Treap K P V × Option (Except Error (Option (P × V))) :=
  publish do
    let spl ← t.split key
    let (d, node) := spl.index.removeOk spl.entry
    let (d, root) ← mergeNodes (d.index.length + 1) d spl.left spl.right
    pure (⟨root, d⟩, node.map fun nd => (nd.priority, nd.value))

/-- Mirrors `Treap::prioritize`. -/
def prioritize (t : Treap K P V) (key : K) (newP : P) :
    Treap K P V × Option (Except Error (Option P)) :=
  publish do
    let spl ← t.split key
    let (d, node) := spl.index.removeOk spl.entry
    let (oldP, d, newPtr) :=
      match node with
      | some nd =>
        let newNode : Node K P V :=
          { key := nd.key, priority := newP, value := nd.value,
            left := none, right := none }
        let (d, ptr) := d.insertNode newNode
        (some nd.priority, d, ptr)
      | none => (none, d, none)
    let (d, root) ← mergeNodes (d.index.length + 1) d spl.left newPtr
    let (d, root) ← mergeNodes (d.index.length + 1) d root spl.right
    pure (⟨root, d⟩, oldP)

/-- Mirrors `Treap::pop`.  The receiver is mutated in place: `root.take()`
clears the root before the arena calls, so on an error path the observable
root is `none`.  (On the Rust error paths the slot table may additionally
have been partially rewritten by the failed `merge_nodes`; no theorem below
inspects the table of a failed `pop`.) -/
def pop (t : Treap K P V) :
    Treap K P V × Option (Except Error (Option (K × P × V))) :=
  if t.root.isNone then (t, some (.ok none))
  else
    match t.index.removeNode t.root with
    | .error e => ({ t with root := none }, some (.error (.index e)))
    | .ok (node, d) =>
      match mergeNodes (d.index.length + 1) d node.left node.right with
      | .div => (⟨none, d⟩, none)
      | .err e => (⟨none, d⟩, some (.error (.index e)))
      | .ok (d, root) =>
        (⟨root, d⟩, some (.ok (some (node.key, node.priority, node.value))))

/-- Mirrors the inner `drop_node` of `Treap::cut`: remove the whole subtree
from the arena. -/
def dropNode (fuel : Nat) (d : DirectVecIndex K P V) (node : Option Nat) :
    Res (DirectVecIndex K P V) :=
  match fuel with
  | 0 => .div
  | fuel + 1 =>
    if node.isNone then .ok d
    else do
      let (entry, d) ← ofExcept (d.removeNode node)
      let d ← dropNode fuel d entry.left
      dropNode fuel d entry.right

/-- Mirrors the inner `check_node` of `Treap::cut`: returns `true` when the
handed subtree is gone (absent or dropped), `false` when its root survives;
a surviving node clears each child pointer whose subtree reported gone. -/
def checkNode (fuel : Nat) (d : DirectVecIndex K P V) (node : Option Nat)
    (p : P) : Res (DirectVecIndex K P V × Bool) :=
  match fuel with
  | 0 => .div
  | fuel + 1 =>
    if node.isNone then .ok (d, true)
    else do
      let entry ← ofExcept (d.get node)
      if entry.priority < p then do
        let d ← dropNode (fuel + 1) d node
        pure (d, true)
      else do
        let (d, bl) ← checkNode fuel d entry.left p
        let d ← if bl then
            ofExcept (d.modifyNode node fun nd => { nd with left := none })
          else pure d
        let (d, br) ← checkNode fuel d entry.right p
        let d ← if br then
            ofExcept (d.modifyNode node fun nd => { nd with right := none })
          else pure d
        pure (d, false)

/-- Mirrors `Treap::cut`.  (As with `pop`, a failed run may leave the Rust
slot table partially rewritten; the embedding returns the original treap on
the error paths and no theorem below inspects a failed `cut`.) -/
def cut (t : Treap K P V) (p : P) : Treap K P V × Option (Except Error Unit) :=
  match checkNode (t.index.index.length + 1) t.index t.root p with
  | .ok (d, true) => (⟨none, d⟩, some (.ok ()))
  | .ok (d, false) => (⟨t.root, d⟩, some (.ok ()))
  | .err e => (t, some (.error (.index e)))
  | .div => (t, none)

/-- Mirrors the inner `search_node` of `Treap::get`. -/
def searchNode (fuel : Nat) (d : DirectVecIndex K P V) (node : Option Nat)
    (key : K) : Res (Option (P × V)) :=
  match fuel with
  | 0 => .div
  | fuel + 1 =>
    if node.isNone then .ok none
    else do
      let entry ← ofExcept (d.get node)
      if entry.key = key then .ok (some (entry.priority, entry.value))
      else if entry.key > key then searchNode fuel d entry.left key
      else searchNode fuel d entry.right key

/-- Mirrors `Treap::get`.  The container is read-only here, so only the
returned value is modelled. -/
def get (t : Treap K P V) (key : K) :
    Option (Except Error (Option (P × V))) :=
  match searchNode (t.index.index.length + 1) t.index t.root key with
  | .div => none
  | .err e => some (.error (.index e))
  | .ok r => some (.ok r)

/-- Mirrors the `enum Action` local to `Treap::get_mut`. -/
inductive Action where
  | found : Option Nat → Action
  | left : Option Nat → Action
  | right : Option Nat → Action

/-- Mirrors the inner `search_node` of `Treap::get_mut`, including its
two-phase shape: first decide an `Action` under a `get_mut` borrow, then act
on it (re-resolving the handle in the `Found` case). -/
def searchNodeMut (fuel : Nat) (d : DirectVecIndex K P V) (node : Option Nat)
    (key : K) : Res (Option (P × V)) :=
  match fuel with
  | 0 => .div
  | fuel + 1 =>
    if node.isNone then .ok none
    else do
      let entry ← ofExcept (d.getMut node)
      let action :=
        if entry.key = key then Action.found node
        else if entry.key > key then Action.left entry.left
        else Action.right entry.right
      match action with
      | .found nd => do
        let nodeRef ← ofExcept (d.getMut nd)
        pure (some (nodeRef.priority, nodeRef.value))
      | .left l => searchNodeMut fuel d l key
      | .right r => searchNodeMut fuel d r key

/-- Mirrors `Treap::get_mut`.  Resolving the entry hands the Rust caller a
`&mut V`; the call itself performs no structural change, so the embedding
returns the unchanged treap together with the entry the references expose. -/
def getMut (t : Treap K P V) (key : K) :
    Treap K P V × Option (Except Error (Option (P × V))) :=
  match searchNodeMut (t.index.index.length + 1) t.index t.root key with
  | .div => (t, none)
  | .err e => (t, some (.error (.index e)))
  | .ok r => (t, some (.ok r))

/-- Mirrors the inner `nth_priority_node` of `Treap::nth_priority`.  The
candidate vector `pri` of `Reverse<&P>` values sorted ascending is modelled
as a list of priorities sorted strictly descending; on such a
duplicate-free vector, Rust's `binary_search` returns `Ok(i)` exactly when
the probe is present and `Err(i)` otherwise, in both cases with `i` equal to
the number of stored elements greater than the probe. -/
def nthPriorityNode (d : DirectVecIndex K P V) (node : Option Nat) (n : Nat)
    (queue : List (Option Nat)) (pri : List P) :
    Except IndexError (List (Option Nat) × List P) :=
  if node.isNone then .ok (queue, pri)
  else
    match d.get node with
    | .error e => .error e
    | .ok entry =>
      let found := entry.priority ∈ pri
      let i := pri.countP fun x => entry.priority < x
      let pc : Option Nat × Bool :=
        if i < n then ((if found then none else some i), true)
        else (none, false)
      let pri :=
        match pc.1 with
        | some i => pri.insertIdx i entry.priority
        | none => pri
      let queue :=
        if pc.2 then
          (queue ++ (if entry.left.isSome then [entry.left] else []))
            ++ (if entry.right.isSome then [entry.right] else [])
        else queue
      .ok (queue, pri)

/-- Mirrors the `while let Some(node) = queue.pop_front()` loop of
`Treap::nth_priority`, with fuel bounding the number of iterations. -/
def nthLoop (fuel : Nat) (d : DirectVecIndex K P V) (n : Nat)
    (queue : List (Option Nat)) (pri : List P) : Res (List P) :=
  match fuel with
  | 0 => .div
  | fuel + 1 =>
    match queue with
    | [] => .ok pri
    | node :: queue =>
      match nthPriorityNode d node n queue pri with
      | .error e => .err e
      | .ok (queue, pri) => nthLoop fuel d n queue pri

/-- Mirrors `Treap::nth_priority`.  The final Rust expression is
`if pri.len() >= n { Ok(Some(pri[n-1].0)) } else { Ok(None) }`; for `n = 0`
the branch is taken and the `usize` subtraction `n - 1` underflows, so the
indexing panics — a panic, like divergence, is an outcome that is not a
returned `Result` and is modelled as `none`. -/
def nthPriority (t : Treap K P V) (n : Nat) :
    Option (Except Error (Option P)) :=
  match nthPriorityNode t.index t.root n [] [] with
  | .error e => some (.error (.index e))
  | .ok (queue, pri) =>
    match nthLoop (2 * t.index.index.length + 1) t.index n queue pri with
    | .div => none
    | .err e => some (.error (.index e))
    | .ok pri =>
      if pri.length ≥ n then
        if n = 0 then none
        else
          match pri[n - 1]? with
          | some q => some (.ok (some q))
          | none => none
      else some (.ok none)

end Treap

/-! The abstract layer: inductive binary trees and the treap algorithms read
off the same source at the level of trees. -/

/-- Abstract binary tree holding one container entry per node. -/
inductive Tree (K P V : Type) where
  | leaf : Tree K P V
  | node : K → P → V → Tree K P V → Tree K P V → Tree K P V
deriving Repr, DecidableEq

namespace Tree

variable {K P V : Type} [LinearOrder K] [LinearOrder P]

/-- Number of nodes. -/
def size : Tree K P V → Nat
  | .leaf => 0
  | .node _ _ _ l r => l.size + r.size + 1

/-- Height (`0` for a leaf). -/
def height : Tree K P V → Nat
  | .leaf => 0
  | .node _ _ _ l r => max l.height r.height + 1

/-- In-order entry list. -/
def entries : Tree K P V → List (K × P × V)
  | .leaf => []
  | .node k p v l r => l.entries ++ (k, p, v) :: r.entries

/-- In-order key list. -/
def keys : Tree K P V → List K
  | .leaf => []
  | .node k _ _ l r => l.keys ++ k :: r.keys

/-- In-order priority list. -/
def priorities : Tree K P V → List P
  | .leaf => []
  | .node _ p _ l r => l.priorities ++ p :: r.priorities

/-- Binary-search-tree invariant: at every node all keys on the left are
smaller and all keys on the right are greater. -/
def BSTInv : Tree K P V → Prop
  | .leaf => True
  | .node k _ _ l r =>
    (∀ x ∈ l.keys, x < k) ∧ (∀ x ∈ r.keys, k < x) ∧ l.BSTInv ∧ r.BSTInv

/-- Priority at the root, if any. -/
def rootPriority : Tree K P V → Option P
  | .leaf => none
  | .node _ p _ _ _ => some p

/-- Max-heap invariant: every node's priority is at least each direct
child's priority. -/
def HeapInv : Tree K P V → Prop
  | .leaf => True
  | .node _ p _ l r =>
    (∀ q ∈ l.rootPriority, q ≤ p) ∧ (∀ q ∈ r.rootPriority, q ≤ p) ∧
      l.HeapInv ∧ r.HeapInv

instance instDecBSTInv : (t : Tree K P V) → Decidable t.BSTInv
  | .leaf => .isTrue trivial
  | .node k _ _ l r =>
    have dl := instDecBSTInv l
    have dr := instDecBSTInv r
    inferInstanceAs (Decidable (_ ∧ _ ∧ _ ∧ _))

instance instDecHeapInv : (t : Tree K P V) → Decidable t.HeapInv
  | .leaf => .isTrue trivial
  | .node _ p _ l r =>
    have dl := instDecHeapInv l
    have dr := instDecHeapInv r
    inferInstanceAs (Decidable (_ ∧ _ ∧ _ ∧ _))

/-- Tree-level reading of `split_nodes`: same three-way comparison, same
reattachment of the recursive result. -/
def splitT : Tree K P V → K → Tree K P V × Option (K × P × V) × Tree K P V
  | .leaf, _ => (.leaf, none, .leaf)
  | .node k p v l r, key =>
    if k = key then (l, some (k, p, v), r)
    else if k > key then
      let (ll, e, lr) := splitT l key
      (ll, e, .node k p v lr r)
    else
      let (rl, e, rr) := splitT r key
      (.node k p v l rl, e, rr)

/-- Tree-level reading of `merge_nodes`: the strictly greater root priority
wins, the right root wins ties. -/
def mergeT : Tree K P V → Tree K P V → Tree K P V
  | .leaf, r => r
  | .node lk lp lv ll lr, .leaf => .node lk lp lv ll lr
  | .node lk lp lv ll lr, .node rk rp rv rl rr =>
    if lp > rp then
      .node lk lp lv ll (mergeT lr (.node rk rp rv rl rr))
    else
      .node rk rp rv (mergeT (.node lk lp lv ll lr) rl) rr

end Tree

/-! Remaining definitions: the abstraction function, well-formedness, the
tree-level `cut`, reachability, and the reference objects used by the
theorems below. -/

section MoreDefinitions

variable {K P V : Type} [LinearOrder K] [LinearOrder P]

/-- Reads the tree reachable from handle `p` in slot table `a`, with the
preorder list of occupied slot ids; `fuel` bounds the traversal depth. -/
def gatherT (a : List (Option (Node K P V))) :
    Nat → Option Nat → Option (Tree K P V × List Nat)
  | _, none => some (.leaf, [])
  | 0, some _ => none
  | fuel + 1, some i =>
    match a[i]? with
    | some (some nd) =>
      match gatherT a fuel nd.left, gatherT a fuel nd.right with
      | some (lt, ls), some (rt, rs) =>
        some (.node nd.key nd.priority nd.value lt rt, i :: (ls ++ rs))
      | _, _ => none
    | _ => none

/-- Canonical gather of a treap's root, at fuel equal to the table length
(which bounds the height of any tree stored without slot sharing). -/
def gatherRoot (t : Treap K P V) : Option (Tree K P V × List Nat) :=
  gatherT t.index.index t.index.index.length t.root

/-- Fuel-canonical statement that handle `p` in table `a` holds tree `t`
occupying exactly the slots `ids`. -/
def Gathers (a : List (Option (Node K P V))) (p : Option Nat) (t : Tree K P V)
    (ids : List Nat) : Prop :=
  gatherT a t.height p = some (t, ids)

/-- Well-formed configuration: the root gathers to `tr` over slot list `ids`
without slot sharing, the reuse stack holds exactly the free slots (each
once), and every occupied slot is reachable from the root. -/
def WFc (t : Treap K P V) (tr : Tree K P V) (ids : List Nat) : Prop :=
  gatherRoot t = some (tr, ids) ∧ ids.Nodup ∧ t.index.reuse.Nodup ∧
    (∀ i ∈ t.index.reuse, t.index.index[i]? = some none) ∧
    (∀ i < t.index.index.length, t.index.index[i]? = some none →
      i ∈ t.index.reuse) ∧
    (∀ i < t.index.index.length, t.index.index[i]? ≠ some none → i ∈ ids)

namespace Tree

/-- Tree-level reading of the inner `check_node` of `cut`: `none` when the
whole subtree is dropped (its root priority is below the threshold), else the
subtree with both children recursively checked, a dropped child replaced by
an empty subtree. -/
def checkT (p : P) : Tree K P V → Option (Tree K P V)
  | .leaf => none
  | .node k q v l r =>
    if q < p then none
    else some (.node k q v ((checkT p l).getD .leaf) ((checkT p r).getD .leaf))

/-- Tree-level reading of `cut`: the root is cleared when `check_node`
reports the whole tree gone. -/
def cutT (p : P) (t : Tree K P V) : Tree K P V := (checkT p t).getD .leaf

end Tree

/-- Repeatedly pop until the fuel runs out or a pop yields no entry,
returning the collected entries and the final treap. -/
def popSeq : Nat → Treap K P V → List (K × P × V) × Treap K P V
  | 0, t => ([], t)
  | f + 1, t =>
    match t.pop with
    | (t', some (.ok (some e))) => ((e :: (popSeq f t').1), (popSeq f t').2)
    | (t', _) => ([], t')

/-- Insert into a strictly descending list, keeping the order. -/
def insertDesc (x : P) : List P → List P
  | [] => [x]
  | y :: ys => if y < x then x :: y :: ys else y :: insertDesc x ys

/-- Insertion sort into descending order. -/
def sortDesc : List P → List P
  | [] => []
  | x :: xs => insertDesc x (sortDesc xs)

/-- The distinct values of a list, in strictly descending order: the
reference reading of «n-th largest distinct priority». -/
def distinctDesc (l : List P) : List P := sortDesc l.dedup

/-- The treap states reachable from `Treap::new` by successful public
mutating operations. -/
inductive Reachable : Treap K P V → Prop
  | new : Reachable Treap.new
  | insert {t t' : Treap K P V} {k : K} {p : P} {v : V} {r : Option (P × V)} :
      Reachable t → t.insert k p v = (t', some (.ok r)) → Reachable t'
  | remove {t t' : Treap K P V} {k : K} {r : Option (P × V)} :
      Reachable t → t.remove k = (t', some (.ok r)) → Reachable t'
  | prioritize {t t' : Treap K P V} {k : K} {p : P} {r : Option P} :
      Reachable t → t.prioritize k p = (t', some (.ok r)) → Reachable t'
  | pop {t t' : Treap K P V} {r : Option (K × P × V)} :
      Reachable t → t.pop = (t', some (.ok r)) → Reachable t'
  | cut {t t' : Treap K P V} {p : P} :
      Reachable t → t.cut p = (t', some (.ok ())) → Reachable t'

/-- Reachability by successful `insert`/`remove` alone. -/
inductive ReachableIR : Treap K P V → Prop
  | new : ReachableIR Treap.new
  | insert {t t' : Treap K P V} {k : K} {p : P} {v : V} {r : Option (P × V)} :
      ReachableIR t → t.insert k p v = (t', some (.ok r)) → ReachableIR t'
  | remove {t t' : Treap K P V} {k : K} {r : Option (P × V)} :
      ReachableIR t → t.remove k = (t', some (.ok r)) → ReachableIR t'

/-- The container of §8's `nth_priority` example: priorities
`{10,6,8,4,2,7,4,3,3,1,3}` inserted under keys `0..10`. -/
def exampleTreap : Treap Nat Nat Nat :=
  ((((((((((((Treap.new : Treap Nat Nat Nat).insert 0 10 0).1.insert
    1 6 0).1.insert 2 8 0).1.insert 3 4 0).1.insert 4 2 0).1.insert
    5 7 0).1.insert 6 4 0).1.insert 7 3 0).1.insert 8 3 0).1.insert
    9 1 0).1.insert 10 3 0).1

/-- Abstract tree gathered from `exampleTreap`. -/
def exampleTree : Tree Nat Nat Nat :=
  .node 0 10 0 .leaf
    (.node 2 8 0 (.node 1 6 0 .leaf .leaf)
      (.node 5 7 0
        (.node 3 4 0 .leaf (.node 4 2 0 .leaf .leaf))
        (.node 6 4 0 .leaf
          (.node 10 3 0
            (.node 8 3 0 (.node 7 3 0 .leaf .leaf)
              (.node 9 1 0 .leaf .leaf))
            .leaf))))

/-- Slots occupied by `exampleTreap`, in gather order. -/
def exampleIds : List Nat := [0, 2, 1, 5, 3, 4, 6, 10, 8, 7, 9]

end MoreDefinitions

/-! Relating the two layers: `gatherT` reads the tree reachable from a handle
out of the slot table, together with the preorder list of slots it occupies. -/

section Gather

variable {K P V : Type}

@[simp]
theorem gatherT_none (a : List (Option (Node K P V))) (f : Nat) :
    gatherT a f none = some (.leaf, []) := by
  cases f <;> rfl

theorem gatherT_some_inv {a : List (Option (Node K P V))} {f : Nat} {i : Nat}
    {t : Tree K P V} {ids : List Nat}
    (h : gatherT a (f + 1) (some i) = some (t, ids)) :
    ∃ nd lt ls rt rs, a[i]? = some (some nd) ∧
      gatherT a f nd.left = some (lt, ls) ∧
      gatherT a f nd.right = some (rt, rs) ∧
      t = .node nd.key nd.priority nd.value lt rt ∧ ids = i :: (ls ++ rs) := by
  rw [gatherT] at h
  rcases ha : a[i]? with _ | nd
  · simp [ha] at h
  rcases nd with _ | nd
  · simp [ha] at h
  simp only [ha] at h
  rcases hl : gatherT a f nd.left with _ | ⟨lt, ls⟩
  · simp [hl] at h
  rcases hr : gatherT a f nd.right with _ | ⟨rt, rs⟩
  · simp [hl, hr] at h
  simp only [hl, hr, Option.some.injEq, Prod.mk.injEq] at h
  exact ⟨nd, lt, ls, rt, rs, rfl, hl, hr, h.1.symm, h.2.symm⟩

theorem gatherT_node {a : List (Option (Node K P V))} {f : Nat} {i : Nat}
    {nd : Node K P V} {lt rt : Tree K P V} {ls rs : List Nat}
    (ha : a[i]? = some (some nd))
    (hl : gatherT a f nd.left = some (lt, ls))
    (hr : gatherT a f nd.right = some (rt, rs)) :
    gatherT a (f + 1) (some i) =
      some (.node nd.key nd.priority nd.value lt rt, i :: (ls ++ rs)) := by
  rw [gatherT]
  simp [ha, hl, hr]

theorem gatherT_none_inv {a : List (Option (Node K P V))} {f : Nat}
    {t : Tree K P V} {ids : List Nat}
    (h : gatherT a f none = some (t, ids)) : t = .leaf ∧ ids = [] := by
  rw [gatherT_none] at h
  have h' := Option.some.inj h
  exact ⟨(congrArg Prod.fst h').symm, (congrArg Prod.snd h').symm⟩

theorem gatherT_height_le {a : List (Option (Node K P V))} :
    ∀ {f : Nat} {p : Option Nat} {t : Tree K P V} {ids : List Nat},
      gatherT a f p = some (t, ids) → t.height ≤ f := by
  intro f
  induction f with
  | zero =>
    intro p t ids h
    cases p with
    | none => obtain ⟨rfl, rfl⟩ := gatherT_none_inv h; simp [Tree.height]
    | some i => rw [gatherT] at h; exact absurd h (by simp)
  | succ f ih =>
    intro p t ids h
    cases p with
    | none => obtain ⟨rfl, rfl⟩ := gatherT_none_inv h; simp [Tree.height]
    | some i =>
      obtain ⟨nd, lt, ls, rt, rs, ha, hl, hr, ht, hids⟩ := gatherT_some_inv h
      subst ht
      have h1 := ih hl
      have h2 := ih hr
      simp only [Tree.height]
      omega

theorem gatherT_of_height {a : List (Option (Node K P V))} :
    ∀ {f : Nat} {p : Option Nat} {t : Tree K P V} {ids : List Nat} {f' : Nat},
      gatherT a f p = some (t, ids) → t.height ≤ f' →
      gatherT a f' p = some (t, ids) := by
  intro f
  induction f with
  | zero =>
    intro p t ids f' h hh
    cases p with
    | none => obtain ⟨rfl, rfl⟩ := gatherT_none_inv h; exact gatherT_none a f'
    | some i => rw [gatherT] at h; exact absurd h (by simp)
  | succ f ih =>
    intro p t ids f' h hh
    cases p with
    | none => obtain ⟨rfl, rfl⟩ := gatherT_none_inv h; exact gatherT_none a f'
    | some i =>
      obtain ⟨nd, lt, ls, rt, rs, ha, hl, hr, ht, hids⟩ := gatherT_some_inv h
      subst ht
      subst hids
      simp only [Tree.height] at hh
      obtain ⟨f'', rfl⟩ : ∃ f'', f' = f'' + 1 := ⟨f' - 1, by omega⟩
      have h1 : lt.height ≤ f'' := by
        have := gatherT_height_le hl; omega
      have h2 : rt.height ≤ f'' := by
        have := gatherT_height_le hr; omega
      rw [gatherT_node ha (ih hl h1) (ih hr h2)]

theorem gatherT_mono {a : List (Option (Node K P V))} {f f' : Nat}
    {p : Option Nat} {t : Tree K P V} {ids : List Nat}
    (h : gatherT a f p = some (t, ids)) (hf : f ≤ f') :
    gatherT a f' p = some (t, ids) :=
  gatherT_of_height h (le_trans (gatherT_height_le h) hf)

theorem gatherT_live {a : List (Option (Node K P V))} :
    ∀ {f : Nat} {p : Option Nat} {t : Tree K P V} {ids : List Nat},
      gatherT a f p = some (t, ids) →
      ∀ j ∈ ids, ∃ nd, a[j]? = some (some nd) := by
  intro f
  induction f with
  | zero =>
    intro p t ids h j hj
    cases p with
    | none => obtain ⟨rfl, rfl⟩ := gatherT_none_inv h; simp at hj
    | some i => rw [gatherT] at h; exact absurd h (by simp)
  | succ f ih =>
    intro p t ids h j hj
    cases p with
    | none => obtain ⟨rfl, rfl⟩ := gatherT_none_inv h; simp at hj
    | some i =>
      obtain ⟨nd, lt, ls, rt, rs, ha, hl, hr, ht, hids⟩ := gatherT_some_inv h
      subst hids
      rcases List.mem_cons.mp hj with rfl | hj'
      · exact ⟨nd, ha⟩
      rcases List.mem_append.mp hj' with hjl | hjr
      · exact ih hl j hjl
      · exact ih hr j hjr

theorem gatherT_frame {a a' : List (Option (Node K P V))} :
    ∀ {f : Nat} {p : Option Nat} {t : Tree K P V} {ids : List Nat},
      gatherT a f p = some (t, ids) →
      (∀ j ∈ ids, a'[j]? = a[j]?) →
      gatherT a' f p = some (t, ids) := by
  intro f
  induction f with
  | zero =>
    intro p t ids h hfr
    cases p with
    | none => obtain ⟨rfl, rfl⟩ := gatherT_none_inv h; exact gatherT_none a' 0
    | some i => rw [gatherT] at h; exact absurd h (by simp)
  | succ f ih =>
    intro p t ids h hfr
    cases p with
    | none => obtain ⟨rfl, rfl⟩ := gatherT_none_inv h; exact gatherT_none a' (f + 1)
    | some i =>
      obtain ⟨nd, lt, ls, rt, rs, ha, hl, hr, ht, hids⟩ := gatherT_some_inv h
      subst ht; subst hids
      have ha' : a'[i]? = some (some nd) := by
        rw [hfr i (List.mem_cons_self i _)]; exact ha
      have hl' := ih hl fun j hj =>
        hfr j (List.mem_cons_of_mem _ (List.mem_append_left _ hj))
      have hr' := ih hr fun j hj =>
        hfr j (List.mem_cons_of_mem _ (List.mem_append_right _ hj))
      rw [gatherT_node ha' hl' hr']

theorem gatherT_ids_length {a : List (Option (Node K P V))} :
    ∀ {f : Nat} {p : Option Nat} {t : Tree K P V} {ids : List Nat},
      gatherT a f p = some (t, ids) → ids.length = t.size := by
  intro f
  induction f with
  | zero =>
    intro p t ids h
    cases p with
    | none => obtain ⟨rfl, rfl⟩ := gatherT_none_inv h; simp [Tree.size]
    | some i => rw [gatherT] at h; exact absurd h (by simp)
  | succ f ih =>
    intro p t ids h
    cases p with
    | none => obtain ⟨rfl, rfl⟩ := gatherT_none_inv h; simp [Tree.size]
    | some i =>
      obtain ⟨nd, lt, ls, rt, rs, ha, hl, hr, ht, hids⟩ := gatherT_some_inv h
      subst ht; subst hids
      simp [Tree.size, ih hl, ih hr]

end Gather

section WellFormed

variable {K P V : Type}

theorem Gathers.of_gatherT {a : List (Option (Node K P V))} {F : Nat}
    {p : Option Nat} {t : Tree K P V} {ids : List Nat}
    (h : gatherT a F p = some (t, ids)) : Gathers a p t ids :=
  gatherT_of_height h le_rfl

theorem Gathers.to_gatherT {a : List (Option (Node K P V))} {p : Option Nat}
    {t : Tree K P V} {ids : List Nat} (h : Gathers a p t ids) {F : Nat}
    (hF : t.height ≤ F) : gatherT a F p = some (t, ids) :=
  gatherT_of_height h hF

theorem Gathers.live {a : List (Option (Node K P V))} {p : Option Nat}
    {t : Tree K P V} {ids : List Nat} (h : Gathers a p t ids) :
    ∀ j ∈ ids, ∃ nd, a[j]? = some (some nd) :=
  gatherT_live h

theorem Gathers.bounded {a : List (Option (Node K P V))} {p : Option Nat}
    {t : Tree K P V} {ids : List Nat} (h : Gathers a p t ids) :
    ∀ j ∈ ids, j < a.length := by
  intro j hj
  obtain ⟨nd, hnd⟩ := h.live j hj
  by_contra hc
  rw [List.getElem?_eq_none (by omega)] at hnd
  exact absurd hnd (by simp)

theorem Gathers.frame {a a' : List (Option (Node K P V))} {p : Option Nat}
    {t : Tree K P V} {ids : List Nat} (h : Gathers a p t ids)
    (hfr : ∀ j ∈ ids, a'[j]? = a[j]?) : Gathers a' p t ids :=
  gatherT_frame h hfr

theorem Gathers.ids_length {a : List (Option (Node K P V))} {p : Option Nat}
    {t : Tree K P V} {ids : List Nat} (h : Gathers a p t ids) :
    ids.length = t.size :=
  gatherT_ids_length h

theorem Gathers.none_iff_leaf {a : List (Option (Node K P V))}
    {t : Tree K P V} {ids : List Nat} (h : Gathers a none t ids) :
    t = .leaf ∧ ids = [] :=
  gatherT_none_inv h

/-- A duplicate-free list of ids below a bound has length at most the
bound. -/
theorem nodup_length_le {l : List Nat} {n : Nat} (hn : l.Nodup)
    (hb : ∀ x ∈ l, x < n) : l.length ≤ n := by
  classical
  have hsub : l.toFinset ⊆ Finset.range n := by
    intro x hx
    simpa using hb x (List.mem_toFinset.mp hx)
  calc l.length = l.toFinset.card := (List.toFinset_card_of_nodup hn).symm
    _ ≤ (Finset.range n).card := Finset.card_le_card hsub
    _ = n := Finset.card_range n

theorem Tree.height_le_size (t : Tree K P V) : t.height ≤ t.size := by
  induction t with
  | leaf => simp [Tree.height, Tree.size]
  | node k p v l r ihl ihr => simp [Tree.height, Tree.size]; omega

/-- Nodup, in-range gathered data re-fuels to the canonical table-length
fuel. -/
theorem Gathers.to_canonical {a : List (Option (Node K P V))} {p : Option Nat}
    {t : Tree K P V} {ids : List Nat} (h : Gathers a p t ids)
    (hnd : ids.Nodup) : gatherT a a.length p = some (t, ids) := by
  refine h.to_gatherT ?_
  calc t.height ≤ t.size := Tree.height_le_size t
    _ = ids.length := h.ids_length.symm
    _ ≤ a.length := nodup_length_le hnd h.bounded

theorem WFc.gathers {t : Treap K P V} {tr : Tree K P V} {ids : List Nat}
    (h : WFc t tr ids) : Gathers t.index.index t.root tr ids :=
  Gathers.of_gatherT h.1

/-- Rebuilds a `WFc` from gathered data and the slot bookkeeping facts. -/
theorem WFc.mk' {t : Treap K P V} {tr : Tree K P V} {ids : List Nat}
    (hg : Gathers t.index.index t.root tr ids) (hnd : ids.Nodup)
    (hrnd : t.index.reuse.Nodup)
    (hfree : ∀ i ∈ t.index.reuse, t.index.index[i]? = some none)
    (hfree' : ∀ i < t.index.index.length,
      t.index.index[i]? = some none → i ∈ t.index.reuse)
    (hlive : ∀ i < t.index.index.length,
      t.index.index[i]? ≠ some none → i ∈ ids) : WFc t tr ids :=
  ⟨hg.to_canonical hnd, hnd, hrnd, hfree, hfree', hlive⟩

/-- Slot accounting: under `WFc` the reuse stack and the reachable slots
partition the table. -/
theorem WFc.length_eq {t : Treap K P V} {tr : Tree K P V} {ids : List Nat}
    (h : WFc t tr ids) :
    t.index.reuse.length + ids.length = t.index.index.length := by
  classical
  obtain ⟨hg, hnd, hrnd, hfree, hfree', hlive⟩ := h
  have hg' := Gathers.of_gatherT hg
  set a := t.index.index with ha
  have hreuse : t.index.reuse.Perm
      ((List.range a.length).filter fun i => decide (a[i]? = some none)) := by
    refine List.perm_of_nodup_nodup_toFinset_eq hrnd (List.Nodup.filter _ (List.nodup_range _)) ?_
    ext i
    simp only [List.mem_toFinset, List.mem_filter, List.mem_range,
      decide_eq_true_eq]
    constructor
    · intro hi
      have hfr := hfree i hi
      refine ⟨?_, hfr⟩
      by_contra hc
      rw [List.getElem?_eq_none (by omega)] at hfr
      exact absurd hfr (by simp)
    · intro ⟨hi, hfr⟩
      exact hfree' i hi hfr
  have hids : ids.Perm
      ((List.range a.length).filter fun i => !decide (a[i]? = some none)) := by
    refine List.perm_of_nodup_nodup_toFinset_eq hnd (List.Nodup.filter _ (List.nodup_range _)) ?_
    ext i
    simp only [List.mem_toFinset, List.mem_filter, List.mem_range,
      Bool.not_eq_true', decide_eq_false_iff_not]
    constructor
    · intro hi
      obtain ⟨nd, hnd'⟩ := hg'.live i hi
      exact ⟨hg'.bounded i hi, by rw [hnd']; simp⟩
    · intro ⟨hi, hfr⟩
      exact hlive i hi hfr
  rw [hreuse.length_eq, hids.length_eq]
  have := @List.length_eq_length_filter_add _ (List.range a.length)
    (fun i => decide (a[i]? = some none))
  simp only [List.length_range] at this
  omega

/-- Under `WFc`, `len` counts exactly the nodes of the gathered tree. -/
theorem WFc.len_eq {t : Treap K P V} {tr : Tree K P V} {ids : List Nat}
    (h : WFc t tr ids) : t.len = tr.size := by
  have hlen := h.length_eq
  have hsz := (h.gathers).ids_length
  simp only [Treap.len, DirectVecIndex.size]
  omega

end WellFormed

/-! Rewriting support for the `Res` monad and the arena primitives. -/

section ResLemmas

variable {K P V : Type} {α β : Type}

@[simp] theorem Res.bind_div (f : α → Res β) :
    Res.bind (Res.div : Res α) f = .div := rfl

@[simp] theorem Res.bind_err (e : IndexError) (f : α → Res β) :
    Res.bind (Res.err e : Res α) f = .err e := rfl

@[simp] theorem Res.bind_ok (a : α) (f : α → Res β) :
    Res.bind (Res.ok a : Res α) f = f a := rfl

@[simp] theorem Res.bind_eq (m : Res α) (f : α → Res β) :
    m >>= f = Res.bind m f := rfl

@[simp] theorem Res.pure_eq (a : α) : (pure a : Res α) = .ok a := rfl

@[simp] theorem ofExcept_ok (a : α) :
    (ofExcept (.ok a : Except IndexError α)) = .ok a := rfl

@[simp] theorem ofExcept_error (e : IndexError) :
    (ofExcept (.error e : Except IndexError α)) = .err e := rfl

@[simp] theorem DirectVecIndex.get_none (d : DirectVecIndex K P V) :
    d.get none = .error .noHandle := rfl

theorem DirectVecIndex.get_eq_ok {d : DirectVecIndex K P V} {i : Nat}
    {nd : Node K P V} (h : d.index[i]? = some (some nd)) :
    d.get (some i) = .ok nd := by
  simp [DirectVecIndex.get, h]

theorem DirectVecIndex.getMut_eq_get (d : DirectVecIndex K P V)
    (id : Option Nat) : d.getMut id = d.get id := rfl

theorem DirectVecIndex.modifyNode_eq_ok {d : DirectVecIndex K P V} {i : Nat}
    {nd : Node K P V} (h : d.index[i]? = some (some nd))
    (f : Node K P V → Node K P V) :
    d.modifyNode (some i) f = .ok ⟨d.reuse, d.index.set i (some (f nd))⟩ := by
  simp [DirectVecIndex.modifyNode, h]

theorem DirectVecIndex.removeNode_eq_ok {d : DirectVecIndex K P V} {i : Nat}
    {nd : Node K P V} (h : d.index[i]? = some (some nd)) :
    d.removeNode (some i) = .ok (nd, ⟨i :: d.reuse, d.index.set i none⟩) := by
  have hlen : i < d.index.length := by
    by_contra hc
    rw [List.getElem?_eq_none (by omega)] at h
    exact absurd h (by simp)
  simp [DirectVecIndex.removeNode, h, Nat.not_le.mpr hlen]

@[simp] theorem DirectVecIndex.removeOk_none (d : DirectVecIndex K P V) :
    d.removeOk none = (d, none) := rfl

theorem DirectVecIndex.removeOk_some {d : DirectVecIndex K P V} {i : Nat}
    {nd : Node K P V} (h : d.index[i]? = some (some nd)) :
    d.removeOk (some i) = (⟨i :: d.reuse, d.index.set i none⟩, some nd) := by
  simp [DirectVecIndex.removeOk, DirectVecIndex.removeNode_eq_ok h]

theorem getElem?_lt {l : List α} {i : Nat} {x : α} (h : l[i]? = some x) :
    i < l.length := by
  by_contra hc
  rw [List.getElem?_eq_none (by omega)] at h
  exact absurd h (by simp)

end ResLemmas

/-! Pure treap theory at the tree level. -/

namespace Tree

variable {K P V : Type} [LinearOrder K] [LinearOrder P]

@[simp] theorem entries_leaf : (Tree.leaf : Tree K P V).entries = [] := rfl

@[simp] theorem entries_node (k : K) (p : P) (v : V) (l r : Tree K P V) :
    (Tree.node k p v l r).entries = l.entries ++ (k, p, v) :: r.entries := rfl

@[simp] theorem keys_leaf : (Tree.leaf : Tree K P V).keys = [] := rfl

@[simp] theorem keys_node (k : K) (p : P) (v : V) (l r : Tree K P V) :
    (Tree.node k p v l r).keys = l.keys ++ k :: r.keys := rfl

@[simp] theorem priorities_leaf : (Tree.leaf : Tree K P V).priorities = [] := rfl

@[simp] theorem priorities_node (k : K) (p : P) (v : V) (l r : Tree K P V) :
    (Tree.node k p v l r).priorities = l.priorities ++ p :: r.priorities := rfl

@[simp] theorem size_leaf : (Tree.leaf : Tree K P V).size = 0 := rfl

@[simp] theorem size_node (k : K) (p : P) (v : V) (l r : Tree K P V) :
    (Tree.node k p v l r).size = l.size + r.size + 1 := rfl

@[simp] theorem height_leaf : (Tree.leaf : Tree K P V).height = 0 := rfl

@[simp] theorem height_node (k : K) (p : P) (v : V) (l r : Tree K P V) :
    (Tree.node k p v l r).height = max l.height r.height + 1 := rfl

@[simp] theorem rootPriority_leaf :
    (Tree.leaf : Tree K P V).rootPriority = none := rfl

@[simp] theorem rootPriority_node (k : K) (p : P) (v : V) (l r : Tree K P V) :
    (Tree.node k p v l r).rootPriority = some p := rfl

@[simp] theorem HeapInv_leaf : (Tree.leaf : Tree K P V).HeapInv := trivial

@[simp] theorem BSTInv_leaf : (Tree.leaf : Tree K P V).BSTInv := trivial

theorem keys_eq_map (t : Tree K P V) : t.keys = t.entries.map fun e => e.1 := by
  induction t with
  | leaf => rfl
  | node k p v l r ihl ihr => simp [Tree.keys, Tree.entries, ihl, ihr]

theorem priorities_eq_map (t : Tree K P V) :
    t.priorities = t.entries.map fun e => e.2.1 := by
  induction t with
  | leaf => rfl
  | node k p v l r ihl ihr => simp [Tree.priorities, Tree.entries, ihl, ihr]

theorem mem_keys_of_mem_entries {t : Tree K P V} {e : K × P × V}
    (h : e ∈ t.entries) : e.1 ∈ t.keys := by
  rw [keys_eq_map]; exact List.mem_map_of_mem _ h

theorem mem_priorities_of_mem_entries {t : Tree K P V} {e : K × P × V}
    (h : e ∈ t.entries) : e.2.1 ∈ t.priorities := by
  rw [priorities_eq_map]; exact List.mem_map_of_mem _ h

theorem entries_length (t : Tree K P V) : t.entries.length = t.size := by
  induction t with
  | leaf => rfl
  | node k p v l r ihl ihr =>
    simp [Tree.entries, Tree.size, ihl, ihr]; omega

/-- All priorities of a heap-invariant node are bounded by its root
priority. -/
theorem HeapInv.priorities_le {t : Tree K P V} (hh : t.HeapInv) :
    ∀ q ∈ t.priorities, ∀ p ∈ t.rootPriority, q ≤ p := by
  induction t with
  | leaf => simp [Tree.priorities]
  | node k p v l r ihl ihr =>
    obtain ⟨hl, hr, hhl, hhr⟩ := hh
    intro q hq p' hp'
    simp only [Tree.rootPriority, Option.mem_def, Option.some.injEq] at hp'
    subst hp'
    simp only [Tree.priorities, List.mem_append, List.mem_cons] at hq
    rcases hq with hq | rfl | hq
    · cases l with
      | leaf => simp [Tree.priorities] at hq
      | node lk lp lv ll lr =>
        have h1 : q ≤ lp := ihl hhl q hq lp (by simp [Tree.rootPriority])
        have h2 : lp ≤ p := hl lp (by simp [Tree.rootPriority])
        exact le_trans h1 h2
    · exact le_rfl
    · cases r with
      | leaf => simp [Tree.priorities] at hq
      | node rk rp rv rl rr =>
        have h1 : q ≤ rp := ihr hhr q hq rp (by simp [Tree.rootPriority])
        have h2 : rp ≤ p := hr rp (by simp [Tree.rootPriority])
        exact le_trans h1 h2

/-- The in-order key list of a BST is strictly sorted. -/
theorem BSTInv.keys_sorted {t : Tree K P V} (hb : t.BSTInv) :
    t.keys.Sorted (· < ·) := by
  induction t with
  | leaf => simp [Tree.keys]
  | node k p v l r ihl ihr =>
    obtain ⟨hl, hr, hbl, hbr⟩ := hb
    simp only [Tree.keys, List.Sorted, List.pairwise_append, List.pairwise_cons]
    refine ⟨ihl hbl, ⟨fun y hy => hr y hy, ihr hbr⟩, ?_⟩
    intro x hx y hy
    rcases List.mem_cons.mp hy with rfl | hy'
    · exact hl x hx
    · exact lt_trans (hl x hx) (hr y hy')

theorem BSTInv.keys_nodup {t : Tree K P V} (hb : t.BSTInv) : t.keys.Nodup :=
  hb.keys_sorted.nodup

/-- Split decomposes the in-order entry list exactly. -/
theorem splitT_entries (t : Tree K P V) (key : K) :
    (t.splitT key).1.entries ++
      ((t.splitT key).2.1.toList ++ (t.splitT key).2.2.entries) = t.entries := by
  induction t with
  | leaf => simp [Tree.splitT, Tree.entries]
  | node k p v l r ihl ihr =>
    by_cases hk : k = key
    · simp [Tree.splitT, hk, Tree.entries]
    by_cases hk2 : k > key
    · rcases hsl : l.splitT key with ⟨ll, e, lr⟩
      rw [hsl] at ihl
      simp only [Tree.splitT, hk, hk2, if_false, if_true, hsl, Tree.entries]
      simp only [] at ihl ⊢
      rw [← ihl]
      simp
    · rcases hsr : r.splitT key with ⟨rl, e, rr⟩
      rw [hsr] at ihr
      simp only [Tree.splitT, hk, hk2, if_false, hsr, Tree.entries]
      simp only [] at ihr ⊢
      rw [← ihr]
      simp

/-- The detached entry, when present, carries exactly the split key. -/
theorem splitT_entry_key (t : Tree K P V) (key : K) :
    ∀ e ∈ (t.splitT key).2.1, e.1 = key := by
  induction t with
  | leaf => simp [Tree.splitT]
  | node k p v l r ihl ihr =>
    by_cases hk : k = key
    · simp [Tree.splitT, hk]
    by_cases hk2 : k > key
    · rcases hsl : l.splitT key with ⟨ll, e, lr⟩
      rw [hsl] at ihl
      simp only [Tree.splitT, hk, hk2, if_false, if_true, hsl]
      exact ihl
    · rcases hsr : r.splitT key with ⟨rl, e, rr⟩
      rw [hsr] at ihr
      simp only [Tree.splitT, hk, hk2, if_false, hsr]
      exact ihr

/-- Keys of the three split parts, under the BST invariant: left keys are
below the split key and right keys above, and the parts remain BSTs. -/
theorem splitT_bst (t : Tree K P V) (key : K) (hb : t.BSTInv) :
    (∀ x ∈ (t.splitT key).1.keys, x < key) ∧
    (∀ x ∈ (t.splitT key).2.2.keys, key < x) ∧
    (t.splitT key).1.BSTInv ∧ (t.splitT key).2.2.BSTInv := by
  induction t with
  | leaf => simp [Tree.splitT, Tree.keys, Tree.BSTInv]
  | node k p v l r ihl ihr =>
    obtain ⟨hl, hr, hbl, hbr⟩ := hb
    by_cases hk : k = key
    · subst hk
      simp only [Tree.splitT, if_true]
      exact ⟨hl, hr, hbl, hbr⟩
    by_cases hk2 : k > key
    · rcases hsl : l.splitT key with ⟨ll, e, lr⟩
      obtain ⟨ih1, ih2, ih3, ih4⟩ := (hsl ▸ ihl) hbl
      simp only [Tree.splitT, hk, hk2, if_false, if_true, hsl]
      refine ⟨ih1, ?_, ih3, ?_⟩
      · intro x hx
        simp only [Tree.keys, List.mem_append, List.mem_cons] at hx
        rcases hx with hx | rfl | hx
        · exact ih2 x hx
        · exact hk2
        · exact lt_trans hk2 (hr x hx)
      · have hlrsub : ∀ x ∈ lr.keys, x ∈ l.keys := by
          intro x hx
          have he := splitT_entries l key
          rw [hsl] at he
          rw [keys_eq_map, ← he]
          rw [keys_eq_map] at hx
          simp only [List.map_append, List.mem_append]
          right; right; exact hx
        refine ⟨?_, hr, ih4, hbr⟩
        intro x hx
        exact hl x (hlrsub x hx)
    · rcases hsr : r.splitT key with ⟨rl, e, rr⟩
      obtain ⟨ih1, ih2, ih3, ih4⟩ := (hsr ▸ ihr) hbr
      simp only [Tree.splitT, hk, hk2, if_false, hsr]
      have hkey : k < key := by
        rcases lt_trichotomy k key with h | h | h
        · exact h
        · exact absurd h hk
        · exact absurd h hk2
      refine ⟨?_, ih2, ?_, ih4⟩
      · intro x hx
        simp only [Tree.keys, List.mem_append, List.mem_cons] at hx
        rcases hx with hx | rfl | hx
        · exact lt_trans (hl x hx) hkey
        · exact hkey
        · exact ih1 x hx
      · have hrlsub : ∀ x ∈ rl.keys, x ∈ r.keys := by
          intro x hx
          have he := splitT_entries r key
          rw [hsr] at he
          rw [keys_eq_map, ← he]
          rw [keys_eq_map] at hx
          simp only [List.map_append, List.mem_append]
          left; exact hx
        refine ⟨hl, ?_, hbl, ih3⟩
        intro x hx
        exact hr x (hrlsub x hx)

/-- Split preserves the heap invariant on both parts, and the parts' root
priorities stay below the input's root priority. -/
theorem splitT_heap (t : Tree K P V) (key : K) (hh : t.HeapInv) :
    (t.splitT key).1.HeapInv ∧ (t.splitT key).2.2.HeapInv ∧
    (∀ q ∈ (t.splitT key).1.rootPriority, ∀ q0 ∈ t.rootPriority, q ≤ q0) ∧
    (∀ q ∈ (t.splitT key).2.2.rootPriority, ∀ q0 ∈ t.rootPriority, q ≤ q0) := by
  induction t with
  | leaf => simp [Tree.splitT, Tree.HeapInv, Tree.rootPriority]
  | node k p v l r ihl ihr =>
    obtain ⟨hl, hr, hhl, hhr⟩ := hh
    by_cases hk : k = key
    · subst hk
      simp only [Tree.splitT, if_true]
      refine ⟨hhl, hhr, ?_, ?_⟩
      · intro q hq q0 hq0
        simp only [Tree.rootPriority, Option.mem_def, Option.some.injEq] at hq0
        subst hq0
        exact hl q hq
      · intro q hq q0 hq0
        simp only [Tree.rootPriority, Option.mem_def, Option.some.injEq] at hq0
        subst hq0
        exact hr q hq
    by_cases hk2 : k > key
    · rcases hsl : l.splitT key with ⟨ll, e, lr⟩
      obtain ⟨ih1, ih2, ih3, ih4⟩ := (hsl ▸ ihl) hhl
      simp only [Tree.splitT, hk, hk2, if_false, if_true, hsl]
      refine ⟨ih1, ⟨?_, hr, ih2, hhr⟩, ?_, ?_⟩
      · intro q hq
        cases hlt : l with
        | leaf =>
          rw [hlt] at hsl
          simp [Tree.splitT] at hsl
          rw [← hsl.2.2] at hq
          simp [Tree.rootPriority] at hq
        | node lk lp lv lll llr =>
          have h1 := ih4 q hq lp (by rw [hlt]; simp [Tree.rootPriority])
          have h2 := hl lp (by rw [hlt]; simp [Tree.rootPriority])
          exact le_trans h1 h2
      · intro q hq q0 hq0
        simp only [Tree.rootPriority, Option.mem_def, Option.some.injEq] at hq0
        subst hq0
        cases hlt : l with
        | leaf =>
          rw [hlt] at hsl
          simp [Tree.splitT] at hsl
          rw [← hsl.1] at hq
          simp [Tree.rootPriority] at hq
        | node lk lp lv lll llr =>
          have h1 := ih3 q hq lp (by rw [hlt]; simp [Tree.rootPriority])
          have h2 := hl lp (by rw [hlt]; simp [Tree.rootPriority])
          exact le_trans h1 h2
      · intro q hq q0 hq0
        simp only [Tree.rootPriority, Option.mem_def, Option.some.injEq] at hq0
        subst hq0
        simp only [Tree.rootPriority, Option.mem_def, Option.some.injEq] at hq
        subst hq
        exact le_rfl
    · rcases hsr : r.splitT key with ⟨rl, e, rr⟩
      obtain ⟨ih1, ih2, ih3, ih4⟩ := (hsr ▸ ihr) hhr
      simp only [Tree.splitT, hk, hk2, if_false, hsr]
      refine ⟨⟨hl, ?_, hhl, ih1⟩, ih2, ?_, ?_⟩
      · intro q hq
        cases hrt : r with
        | leaf =>
          rw [hrt] at hsr
          simp [Tree.splitT] at hsr
          rw [← hsr.1] at hq
          simp [Tree.rootPriority] at hq
        | node rk rp rv rrl rrr =>
          have h1 := ih3 q hq rp (by rw [hrt]; simp [Tree.rootPriority])
          have h2 := hr rp (by rw [hrt]; simp [Tree.rootPriority])
          exact le_trans h1 h2
      · intro q hq q0 hq0
        simp only [Tree.rootPriority, Option.mem_def, Option.some.injEq] at hq0
        subst hq0
        simp only [Tree.rootPriority, Option.mem_def, Option.some.injEq] at hq
        subst hq
        exact le_rfl
      · intro q hq q0 hq0
        simp only [Tree.rootPriority, Option.mem_def, Option.some.injEq] at hq0
        subst hq0
        cases hrt : r with
        | leaf =>
          rw [hrt] at hsr
          simp [Tree.splitT] at hsr
          rw [← hsr.2.2] at hq
          simp [Tree.rootPriority] at hq
        | node rk rp rv rrl rrr =>
          have h1 := ih4 q hq rp (by rw [hrt]; simp [Tree.rootPriority])
          have h2 := hr rp (by rw [hrt]; simp [Tree.rootPriority])
          exact le_trans h1 h2

@[simp]
theorem mergeT_leaf_left (r : Tree K P V) : Tree.mergeT .leaf r = r := by
  cases r <;> rw [Tree.mergeT]

@[simp]
theorem mergeT_leaf_right (l : Tree K P V) : Tree.mergeT l .leaf = l := by
  cases l <;> rw [Tree.mergeT]

theorem mergeT_node_node (lk : K) (lp : P) (lv : V) (ll lr : Tree K P V)
    (rk : K) (rp : P) (rv : V) (rl rr : Tree K P V) :
    Tree.mergeT (.node lk lp lv ll lr) (.node rk rp rv rl rr) =
      if lp > rp then
        .node lk lp lv ll (Tree.mergeT lr (.node rk rp rv rl rr))
      else
        .node rk rp rv (Tree.mergeT (.node lk lp lv ll lr) rl) rr := by
  rw [Tree.mergeT]

theorem mergeT_entries_aux :
    ∀ (n : Nat) (l r : Tree K P V), l.size + r.size ≤ n →
      (l.mergeT r).entries = l.entries ++ r.entries := by
  intro n
  induction n with
  | zero =>
    intro l r h
    cases l with
    | leaf => simp
    | node lk lp lv ll lr => simp [Tree.size] at h
  | succ n ih =>
    intro l r h
    cases l with
    | leaf => simp
    | node lk lp lv ll lr =>
      cases r with
      | leaf => simp
      | node rk rp rv rl rr =>
        rw [mergeT_node_node]
        by_cases hp : lp > rp
        · rw [if_pos hp]
          simp only [Tree.entries]
          rw [ih lr (.node rk rp rv rl rr) (by simp [Tree.size] at h ⊢; omega)]
          simp [Tree.entries]
        · rw [if_neg hp]
          simp only [Tree.entries]
          rw [ih (.node lk lp lv ll lr) rl (by simp [Tree.size] at h ⊢; omega)]
          simp [Tree.entries]

/-- Merge concatenates the in-order entry lists. -/
theorem mergeT_entries (l r : Tree K P V) :
    (l.mergeT r).entries = l.entries ++ r.entries :=
  mergeT_entries_aux (l.size + r.size) l r le_rfl

theorem mergeT_keys (l r : Tree K P V) :
    (l.mergeT r).keys = l.keys ++ r.keys := by
  rw [keys_eq_map, mergeT_entries, keys_eq_map, keys_eq_map, List.map_append]

theorem mergeT_priorities (l r : Tree K P V) :
    (l.mergeT r).priorities = l.priorities ++ r.priorities := by
  rw [priorities_eq_map, mergeT_entries, priorities_eq_map, priorities_eq_map,
    List.map_append]

theorem mergeT_size (l r : Tree K P V) :
    (l.mergeT r).size = l.size + r.size := by
  rw [← entries_length, mergeT_entries, List.length_append, entries_length,
    entries_length]

/-- The merged root is one of the two input roots. -/
theorem mergeT_root (l r : Tree K P V) :
    ∀ q ∈ (l.mergeT r).rootPriority,
      q ∈ l.rootPriority ∨ q ∈ r.rootPriority := by
  cases l with
  | leaf => intro q hq; right; simpa using hq
  | node lk lp lv ll lr =>
    cases r with
    | leaf => intro q hq; left; simpa using hq
    | node rk rp rv rl rr =>
      rw [mergeT_node_node]
      by_cases hp : lp > rp
      · rw [if_pos hp]; intro q hq; left; simpa [Tree.rootPriority] using hq
      · rw [if_neg hp]; intro q hq; right; simpa [Tree.rootPriority] using hq

theorem mergeT_heap_aux :
    ∀ (n : Nat) (l r : Tree K P V), l.size + r.size ≤ n →
      l.HeapInv → r.HeapInv → (l.mergeT r).HeapInv := by
  intro n
  induction n with
  | zero =>
    intro l r h hl hr
    cases l with
    | leaf => simpa
    | node lk lp lv ll lr => simp [Tree.size] at h
  | succ n ih =>
    intro l r h hl hr
    cases l with
    | leaf => simpa
    | node lk lp lv ll lr =>
      cases r with
      | leaf => simpa
      | node rk rp rv rl rr =>
        obtain ⟨hl1, hl2, hl3, hl4⟩ := hl
        obtain ⟨hr1, hr2, hr3, hr4⟩ := hr
        rw [mergeT_node_node]
        by_cases hp : lp > rp
        · rw [if_pos hp]
          have hih := ih lr (.node rk rp rv rl rr)
            (by simp [Tree.size] at h ⊢; omega) hl4 ⟨hr1, hr2, hr3, hr4⟩
          refine ⟨hl1, ?_, hl3, hih⟩
          intro q hq
          rcases mergeT_root lr (.node rk rp rv rl rr) q hq with hq' | hq'
          · exact hl2 q hq'
          · simp only [Tree.rootPriority, Option.mem_def,
              Option.some.injEq] at hq'
            subst hq'
            exact le_of_lt hp
        · rw [if_neg hp]
          have hih := ih (.node lk lp lv ll lr) rl
            (by simp [Tree.size] at h ⊢; omega) ⟨hl1, hl2, hl3, hl4⟩ hr3
          refine ⟨?_, hr2, hih, hr4⟩
          intro q hq
          rcases mergeT_root (.node lk lp lv ll lr) rl q hq with hq' | hq'
          · simp only [Tree.rootPriority, Option.mem_def,
              Option.some.injEq] at hq'
            subst hq'
            exact le_of_not_lt hp
          · exact hr1 q hq'

/-- Merge preserves the heap invariant. -/
theorem mergeT_heap {l r : Tree K P V} (hl : l.HeapInv) (hr : r.HeapInv) :
    (l.mergeT r).HeapInv :=
  mergeT_heap_aux (l.size + r.size) l r le_rfl hl hr

theorem mergeT_bst_aux :
    ∀ (n : Nat) (l r : Tree K P V), l.size + r.size ≤ n →
      l.BSTInv → r.BSTInv → (∀ x ∈ l.keys, ∀ y ∈ r.keys, x < y) →
      (l.mergeT r).BSTInv := by
  intro n
  induction n with
  | zero =>
    intro l r h hl hr hc
    cases l with
    | leaf => simpa
    | node lk lp lv ll lr => simp [Tree.size] at h
  | succ n ih =>
    intro l r h hl hr hc
    cases l with
    | leaf => simpa
    | node lk lp lv ll lr =>
      cases r with
      | leaf => simpa
      | node rk rp rv rl rr =>
        obtain ⟨hl1, hl2, hl3, hl4⟩ := hl
        obtain ⟨hr1, hr2, hr3, hr4⟩ := hr
        rw [mergeT_node_node]
        by_cases hp : lp > rp
        · rw [if_pos hp]
          have hih := ih lr (.node rk rp rv rl rr)
            (by simp [Tree.size] at h ⊢; omega) hl4 ⟨hr1, hr2, hr3, hr4⟩
            (fun x hx y hy => hc x (by simp [Tree.keys]; right; right; exact hx) y hy)
          refine ⟨hl1, ?_, hl3, hih⟩
          intro x hx
          rw [mergeT_keys] at hx
          rcases List.mem_append.mp hx with hx' | hx'
          · exact hl2 x hx'
          · exact hc lk (by simp [Tree.keys]) x hx'
        · rw [if_neg hp]
          have hih := ih (.node lk lp lv ll lr) rl
            (by simp [Tree.size] at h ⊢; omega) ⟨hl1, hl2, hl3, hl4⟩ hr3
            (fun x hx y hy => hc x hx y (by simp [Tree.keys]; left; exact hy))
          refine ⟨?_, hr2, hih, hr4⟩
          intro x hx
          rw [mergeT_keys] at hx
          rcases List.mem_append.mp hx with hx' | hx'
          · exact hc x hx' rk (by simp [Tree.keys])
          · exact hr1 x hx'

/-- Merge preserves the BST invariant when all left keys precede all right
keys. -/
theorem mergeT_bst {l r : Tree K P V} (hl : l.BSTInv) (hr : r.BSTInv)
    (hc : ∀ x ∈ l.keys, ∀ y ∈ r.keys, x < y) : (l.mergeT r).BSTInv :=
  mergeT_bst_aux (l.size + r.size) l r le_rfl hl hr hc

end Tree

/-! Simulation of the arena algorithms by the tree-level algorithms. -/

section Sim

variable {K P V : Type} [LinearOrder K] [LinearOrder P]

theorem Gathers_leaf_inv {a : List (Option (Node K P V))} {p : Option Nat}
    {ids : List Nat} (h : Gathers a p .leaf ids) : p = none ∧ ids = [] := by
  cases p with
  | none => exact ⟨rfl, (gatherT_none_inv h).2⟩
  | some i =>
    have h' : gatherT a 0 (some i) = some (Tree.leaf, ids) := h
    rw [gatherT] at h'
    exact absurd h' (by simp)

theorem Gathers_node_inv {a : List (Option (Node K P V))} {p : Option Nat}
    {k : K} {pr : P} {v : V} {lt rt : Tree K P V} {ids : List Nat}
    (h : Gathers a p (.node k pr v lt rt) ids) :
    ∃ i nd ls rs, p = some i ∧ a[i]? = some (some nd) ∧
      nd.key = k ∧ nd.priority = pr ∧ nd.value = v ∧
      Gathers a nd.left lt ls ∧ Gathers a nd.right rt rs ∧
      ids = i :: (ls ++ rs) := by
  cases p with
  | none => exact absurd (gatherT_none_inv h).1 (by simp)
  | some i =>
    have h' : gatherT a (max lt.height rt.height + 1) (some i) =
        some (.node k pr v lt rt, ids) := h
    obtain ⟨nd, lt', ls, rt', rs, ha, hl, hr, ht, hids⟩ := gatherT_some_inv h'
    injection ht with hk hp hv hlt hrt
    subst hlt; subst hrt
    exact ⟨i, nd, ls, rs, rfl, ha, hk.symm, hp.symm, hv.symm,
      Gathers.of_gatherT hl, Gathers.of_gatherT hr, hids⟩

theorem Gathers.node' {a : List (Option (Node K P V))} {i : Nat}
    {nd : Node K P V} {lt rt : Tree K P V} {ls rs : List Nat}
    (ha : a[i]? = some (some nd))
    (hl : Gathers a nd.left lt ls) (hr : Gathers a nd.right rt rs) :
    Gathers a (some i) (.node nd.key nd.priority nd.value lt rt)
      (i :: (ls ++ rs)) :=
  Gathers.of_gatherT (gatherT_node ha
    (hl.to_gatherT (le_max_left _ _))
    (hr.to_gatherT (le_max_right _ _)))

theorem Gathers_none {a : List (Option (Node K P V))} :
    Gathers a none (.leaf : Tree K P V) [] :=
  gatherT_none a 0

/-- Simulation of `split_nodes` by `Tree.splitT`: on a gathered, slot-sharing
free subtree and sufficient fuel, the arena recursion succeeds, touches only
the subtree's slots, keeps every one of them occupied, and its three results
gather to the three parts of the tree-level split, with the detached entry
(if any) cleared in place. -/
theorem splitNodes_sim (key : K) {t : Tree K P V} :
    ∀ {d : DirectVecIndex K P V} {p : Option Nat} {ids : List Nat} {fuel : Nat},
      Gathers d.index p t ids → ids.Nodup → t.height < fuel →
      ∃ d' lp ep rp lids rids,
        Treap.splitNodes fuel d p key = .ok (d', lp, ep, rp) ∧
        d'.reuse = d.reuse ∧
        d'.index.length = d.index.length ∧
        (∀ j, j ∉ ids → d'.index[j]? = d.index[j]?) ∧
        Gathers d'.index lp (t.splitT key).1 lids ∧
        Gathers d'.index rp (t.splitT key).2.2 rids ∧
        (∀ j ∈ ids, ∃ nd, d'.index[j]? = some (some nd)) ∧
        (((t.splitT key).2.1 = none ∧ ep = none ∧
            List.Perm (lids ++ rids) ids) ∨
          (∃ e j, (t.splitT key).2.1 = some e ∧ ep = some j ∧
            d'.index[j]? = some (some ⟨e.1, e.2.1, e.2.2, none, none⟩) ∧
            List.Perm (lids ++ j :: rids) ids)) := by
  induction t with
  | leaf =>
    intro d p ids fuel hg hnd hf
    obtain ⟨rfl, rfl⟩ := Gathers_leaf_inv hg
    obtain ⟨f, rfl⟩ : ∃ f, fuel = f + 1 := ⟨fuel - 1, by omega⟩
    refine ⟨d, none, none, none, [], [], ?_, rfl, rfl, fun j _ => rfl,
      Gathers_none, Gathers_none, by simp, Or.inl ⟨rfl, rfl, by simp⟩⟩
    rw [Treap.splitNodes]
    simp
  | node k pr v lt rt ihl ihr =>
    intro d p ids fuel hg hnd hf
    obtain ⟨i, nd, ls, rs, rfl, ha, hk, hp, hv, hgl, hgr, rfl⟩ :=
      Gathers_node_inv hg
    have hi_lsrs : i ∉ ls ++ rs := (List.nodup_cons.mp hnd).1
    have hi_ls : i ∉ ls := fun h => hi_lsrs (List.mem_append_left _ h)
    have hi_rs : i ∉ rs := fun h => hi_lsrs (List.mem_append_right _ h)
    have hlsrs := (List.nodup_cons.mp hnd).2
    have hls : ls.Nodup := (List.nodup_append.mp hlsrs).1
    have hrs : rs.Nodup := (List.nodup_append.mp hlsrs).2.1
    have hdisj : ls.Disjoint rs := (List.nodup_append.mp hlsrs).2.2
    obtain ⟨f, rfl⟩ : ∃ f, fuel = f + 1 := ⟨fuel - 1, by omega⟩
    have hflt : lt.height < f := by simp at hf; omega
    have hfrt : rt.height < f := by simp at hf; omega
    have hilen : i < d.index.length := getElem?_lt ha
    by_cases hkey : k = key
    · -- exact key match: detach this node in place
      subst hkey
      have hnd' := DirectVecIndex.modifyNode_eq_ok ha
        (fun nd => { nd with left := none, right := none })
      refine ⟨⟨d.reuse, d.index.set i (some { nd with left := none, right := none })⟩,
        nd.left, some i, nd.right, ls, rs, ?_, rfl, by simp, ?_, ?_, ?_, ?_, ?_⟩
      · rw [Treap.splitNodes]
        simp only [Option.isNone_some, Bool.false_eq_true, if_false,
          DirectVecIndex.get_eq_ok ha, ofExcept_ok, Res.bind_eq, Res.bind_ok]
        rw [if_pos hk]
        simp only [hnd', ofExcept_ok, Res.bind_ok, Res.pure_eq]
      · intro j hj
        have hji : i ≠ j := fun h => hj (by simp [h])
        exact List.getElem?_set_ne hji
      · simp only [Tree.splitT, if_pos rfl]
        exact hgl.frame fun j hj =>
          List.getElem?_set_ne (fun h => hi_ls (by rw [h]; exact hj))
      · simp only [Tree.splitT, if_pos rfl]
        exact hgr.frame fun j hj =>
          List.getElem?_set_ne (fun h => hi_rs (by rw [h]; exact hj))
      · intro j hj
        rcases List.mem_cons.mp hj with rfl | hj'
        · exact ⟨{ nd with left := none, right := none },
            List.getElem?_set_self (by simpa using hilen)⟩
        rcases List.mem_append.mp hj' with hjl | hjr
        · obtain ⟨nd0, hnd0⟩ := hgl.live j hjl
          refine ⟨nd0, ?_⟩
          rw [List.getElem?_set_ne (fun h => hi_ls (by rw [h]; exact hjl))]
          exact hnd0
        · obtain ⟨nd0, hnd0⟩ := hgr.live j hjr
          refine ⟨nd0, ?_⟩
          rw [List.getElem?_set_ne (fun h => hi_rs (by rw [h]; exact hjr))]
          exact hnd0
      · refine Or.inr ⟨(k, pr, v), i, by simp [Tree.splitT], rfl, ?_, ?_⟩
        · rw [List.getElem?_set_self (by simpa using hilen)]
          cases nd
          simp_all
        · exact List.perm_middle
    · by_cases hkey2 : k > key
      · -- recurse left, reattach the recursion's right part as our left child
        obtain ⟨d1, lp, ep, rp1, llids, lrids, hrun, hreuse1, hlen1, hfr1,
          hglt', hglr', hlive1, hcase1⟩ := ihl hgl hls hflt
        have hd1i : d1.index[i]? = some (some nd) := by
          rw [hfr1 i hi_ls]; exact ha
        have hnd' := DirectVecIndex.modifyNode_eq_ok hd1i
          (fun nd => { nd with left := rp1 })
        have hsubl : ∀ j ∈ llids, j ∈ ls := by
          intro j hj
          rcases hcase1 with ⟨_, _, hperm⟩ | ⟨e, jj, _, _, _, hperm⟩
          · exact hperm.mem_iff.mp (List.mem_append_left _ hj)
          · exact hperm.mem_iff.mp (List.mem_append_left _ hj)
        have hsubr : ∀ j ∈ lrids, j ∈ ls := by
          intro j hj
          rcases hcase1 with ⟨_, _, hperm⟩ | ⟨e, jj, _, _, _, hperm⟩
          · exact hperm.mem_iff.mp (List.mem_append_right _ hj)
          · exact hperm.mem_iff.mp
              (List.mem_append_right _ (List.mem_cons_of_mem _ hj))
        rcases hslt : lt.splitT key with ⟨sll, se, slr⟩
        have hi1len : i < d1.index.length := by rw [hlen1]; exact hilen
        set d2 : DirectVecIndex K P V :=
          ⟨d1.reuse, d1.index.set i (some { nd with left := rp1 })⟩ with hd2
        have hd2i : d2.index[i]? = some (some { nd with left := rp1 }) := by
          simp only [hd2]
          exact List.getElem?_set_self (by simpa using hi1len)
        have hg2r : Gathers d2.index nd.right rt rs := by
          have h1 : Gathers d1.index nd.right rt rs :=
            hgr.frame fun j hj => hfr1 j (fun h => hdisj h hj)
          exact h1.frame fun j hj =>
            List.getElem?_set_ne (fun h => hi_rs (by rw [h]; exact hj))
        have hg2slr : Gathers d2.index rp1 slr lrids := by
          have : Gathers d1.index rp1 slr lrids := by
            have := hglr'; rw [hslt] at this; exact this
          exact this.frame fun j hj =>
            List.getElem?_set_ne (fun h => hi_ls (by rw [h]; exact hsubr j hj))
        have hgnode : Gathers d2.index (some i)
            (.node k pr v slr rt) (i :: (lrids ++ rs)) := by
          have h0 := Gathers.node' hd2i hg2slr hg2r
          have he : Tree.node
              nd.key nd.priority nd.value slr rt = Tree.node k pr v slr rt := by
            rw [hk, hp, hv]
          rw [← he]
          exact h0
        refine ⟨d2, lp, ep, some i, llids, i :: (lrids ++ rs), ?_, hreuse1, ?_,
          ?_, ?_, ?_, ?_, ?_⟩
        · rw [Treap.splitNodes]
          simp only [Option.isNone_some, Bool.false_eq_true, if_false,
            DirectVecIndex.get_eq_ok ha, ofExcept_ok, Res.bind_eq, Res.bind_ok]
          rw [if_neg (by rw [hk]; exact hkey), if_pos (by rw [hk]; exact hkey2)]
          rw [hrun]
          simp only [Res.bind_eq, Res.bind_ok, hnd', ofExcept_ok, Res.pure_eq]
        · show (d1.index.set i (some { nd with left := rp1 })).length =
            d.index.length
          simp [hlen1]
        · intro j hj
          have hji : j ≠ i := fun h => hj (by simp [h])
          have hjls : j ∉ ls := fun h =>
            hj (List.mem_cons_of_mem _ (List.mem_append_left _ h))
          show (d1.index.set i (some { nd with left := rp1 }))[j]? = d.index[j]?
          rw [List.getElem?_set_ne (fun h => hji h.symm)]
          exact hfr1 j hjls
        · simp only [Tree.splitT, if_neg hkey, if_pos hkey2, hslt]
          have : Gathers d1.index lp sll llids := by
            have := hglt'; rw [hslt] at this; exact this
          exact this.frame fun j hj =>
            List.getElem?_set_ne (fun h => hi_ls (by rw [h]; exact hsubl j hj))
        · simp only [Tree.splitT, if_neg hkey, if_pos hkey2, hslt]
          exact hgnode
        · intro j hj
          rcases List.mem_cons.mp hj with rfl | hj'
          · exact ⟨_, hd2i⟩
          rcases List.mem_append.mp hj' with hjl | hjr
          · obtain ⟨nd0, hnd0⟩ := hlive1 j hjl
            refine ⟨nd0, ?_⟩
            show (d1.index.set i (some { nd with left := rp1 }))[j]? =
              some (some nd0)
            rw [List.getElem?_set_ne (fun h => hi_ls (by rw [h]; exact hjl))]
            exact hnd0
          · exact hg2r.live j hjr
        · rw [hslt] at hcase1
          simp only [Tree.splitT, if_neg hkey, if_pos hkey2, hslt]
          rcases hcase1 with ⟨hse, hep, hperm⟩ | ⟨e, jj, hse, hep, hslot, hperm⟩
          · refine Or.inl ⟨hse, hep, ?_⟩
            rw [List.perm_iff_count]
            intro x
            have hc := hperm.count_eq x
            simp only [List.count_append, List.count_cons] at hc ⊢
            omega
          · have hjjls : jj ∈ ls := by
              refine hperm.mem_iff.mp ?_
              exact List.mem_append_right _ (List.mem_cons_self jj _)
            refine Or.inr ⟨e, jj, hse, hep, ?_, ?_⟩
            · show (d1.index.set i (some { nd with left := rp1 }))[jj]? =
                some (some (⟨e.1, e.2.1, e.2.2, none, none⟩ : Node K P V))
              rw [List.getElem?_set_ne (fun h => hi_ls (by rw [h]; exact hjjls))]
              exact hslot
            · rw [List.perm_iff_count]
              intro x
              have hc := hperm.count_eq x
              simp only [List.count_append, List.count_cons] at hc ⊢
              omega
      · -- recurse right, reattach the recursion's left part as our right child
        have hkey3 : k < key := by
          rcases lt_trichotomy k key with h | h | h
          · exact h
          · exact absurd h hkey
          · exact absurd h hkey2
        obtain ⟨d1, lp1, ep, rp1, rlids, rrids, hrun, hreuse1, hlen1, hfr1,
          hglt', hglr', hlive1, hcase1⟩ := ihr hgr hrs hfrt
        have hd1i : d1.index[i]? = some (some nd) := by
          rw [hfr1 i hi_rs]; exact ha
        have hnd' := DirectVecIndex.modifyNode_eq_ok hd1i
          (fun nd => { nd with right := lp1 })
        have hsubl : ∀ j ∈ rlids, j ∈ rs := by
          intro j hj
          rcases hcase1 with ⟨_, _, hperm⟩ | ⟨e, jj, _, _, _, hperm⟩
          · exact hperm.mem_iff.mp (List.mem_append_left _ hj)
          · exact hperm.mem_iff.mp (List.mem_append_left _ hj)
        have hsubr : ∀ j ∈ rrids, j ∈ rs := by
          intro j hj
          rcases hcase1 with ⟨_, _, hperm⟩ | ⟨e, jj, _, _, _, hperm⟩
          · exact hperm.mem_iff.mp (List.mem_append_right _ hj)
          · exact hperm.mem_iff.mp
              (List.mem_append_right _ (List.mem_cons_of_mem _ hj))
        rcases hsrt : rt.splitT key with ⟨srl, se, srr⟩
        have hi1len : i < d1.index.length := by rw [hlen1]; exact hilen
        set d2 : DirectVecIndex K P V :=
          ⟨d1.reuse, d1.index.set i (some { nd with right := lp1 })⟩ with hd2
        have hd2i : d2.index[i]? = some (some { nd with right := lp1 }) := by
          simp only [hd2]
          exact List.getElem?_set_self (by simpa using hi1len)
        have hg2l : Gathers d2.index nd.left lt ls := by
          have h1 : Gathers d1.index nd.left lt ls :=
            hgl.frame fun j hj => hfr1 j (fun h => hdisj hj h)
          exact h1.frame fun j hj =>
            List.getElem?_set_ne (fun h => hi_ls (by rw [h]; exact hj))
        have hg2srl : Gathers d2.index lp1 srl rlids := by
          have : Gathers d1.index lp1 srl rlids := by
            have := hglt'; rw [hsrt] at this; exact this
          exact this.frame fun j hj =>
            List.getElem?_set_ne (fun h => hi_rs (by rw [h]; exact hsubl j hj))
        have hgnode : Gathers d2.index (some i)
            (.node k pr v lt srl) (i :: (ls ++ rlids)) := by
          have h0 := Gathers.node' hd2i hg2l hg2srl
          have he : Tree.node
              nd.key nd.priority nd.value lt srl = Tree.node k pr v lt srl := by
            rw [hk, hp, hv]
          rw [← he]
          exact h0
        refine ⟨d2, some i, ep, rp1, i :: (ls ++ rlids), rrids, ?_, hreuse1, ?_,
          ?_, ?_, ?_, ?_, ?_⟩
        · rw [Treap.splitNodes]
          simp only [Option.isNone_some, Bool.false_eq_true, if_false,
            DirectVecIndex.get_eq_ok ha, ofExcept_ok, Res.bind_eq, Res.bind_ok]
          rw [if_neg (by rw [hk]; exact hkey), if_neg (by rw [hk]; exact hkey2)]
          rw [hrun]
          simp only [Res.bind_eq, Res.bind_ok, hnd', ofExcept_ok, Res.pure_eq]
        · show (d1.index.set i (some { nd with right := lp1 })).length =
            d.index.length
          simp [hlen1]
        · intro j hj
          have hji : j ≠ i := fun h => hj (by simp [h])
          have hjrs : j ∉ rs := fun h =>
            hj (List.mem_cons_of_mem _ (List.mem_append_right _ h))
          show (d1.index.set i (some { nd with right := lp1 }))[j]? = d.index[j]?
          rw [List.getElem?_set_ne (fun h => hji h.symm)]
          exact hfr1 j hjrs
        · simp only [Tree.splitT, if_neg hkey, if_neg hkey2, hsrt]
          exact hgnode
        · simp only [Tree.splitT, if_neg hkey, if_neg hkey2, hsrt]
          have : Gathers d1.index rp1 srr rrids := by
            have := hglr'; rw [hsrt] at this; exact this
          exact this.frame fun j hj =>
            List.getElem?_set_ne (fun h => hi_rs (by rw [h]; exact hsubr j hj))
        · intro j hj
          rcases List.mem_cons.mp hj with rfl | hj'
          · exact ⟨_, hd2i⟩
          rcases List.mem_append.mp hj' with hjl | hjr
          · exact hg2l.live j hjl
          · obtain ⟨nd0, hnd0⟩ := hlive1 j hjr
            refine ⟨nd0, ?_⟩
            show (d1.index.set i (some { nd with right := lp1 }))[j]? =
              some (some nd0)
            rw [List.getElem?_set_ne (fun h => hi_rs (by rw [h]; exact hjr))]
            exact hnd0
        · rw [hsrt] at hcase1
          simp only [Tree.splitT, if_neg hkey, if_neg hkey2, hsrt]
          rcases hcase1 with ⟨hse, hep, hperm⟩ | ⟨e, jj, hse, hep, hslot, hperm⟩
          · refine Or.inl ⟨hse, hep, ?_⟩
            rw [List.perm_iff_count]
            intro x
            have hc := hperm.count_eq x
            simp only [List.count_append, List.count_cons] at hc ⊢
            omega
          · have hjjrs : jj ∈ rs := by
              refine hperm.mem_iff.mp ?_
              exact List.mem_append_right _ (List.mem_cons_self jj _)
            refine Or.inr ⟨e, jj, hse, hep, ?_, ?_⟩
            · show (d1.index.set i (some { nd with right := lp1 }))[jj]? =
                some (some (⟨e.1, e.2.1, e.2.2, none, none⟩ : Node K P V))
              rw [List.getElem?_set_ne (fun h => hi_rs (by rw [h]; exact hjjrs))]
              exact hslot
            · rw [List.perm_iff_count]
              intro x
              have hc := hperm.count_eq x
              simp only [List.count_append, List.count_cons] at hc ⊢
              omega

theorem mergeNodes_sim_aux :
    ∀ (n : Nat) {lt rt : Tree K P V} {d : DirectVecIndex K P V}
      {lp rp : Option Nat} {ls rs : List Nat} {fuel : Nat},
      lt.size + rt.size ≤ n →
      Gathers d.index lp lt ls → Gathers d.index rp rt rs →
      (ls ++ rs).Nodup → lt.size + rt.size < fuel →
      ∃ d' rootp ids,
        Treap.mergeNodes fuel d lp rp = .ok (d', rootp) ∧
        d'.reuse = d.reuse ∧
        d'.index.length = d.index.length ∧
        (∀ j, j ∉ ls → j ∉ rs → d'.index[j]? = d.index[j]?) ∧
        Gathers d'.index rootp (lt.mergeT rt) ids ∧
        List.Perm ids (ls ++ rs) := by
  intro n
  induction n with
  | zero =>
    intro lt rt d lp rp ls rs fuel hn hgl hgr hnd hf
    obtain ⟨f, rfl⟩ : ∃ f, fuel = f + 1 := ⟨fuel - 1, by omega⟩
    have hlt : lt = .leaf := by
      cases lt with
      | leaf => rfl
      | node k p v l r => simp at hn
    subst hlt
    obtain ⟨rfl, rfl⟩ := Gathers_leaf_inv hgl
    refine ⟨d, rp, rs, ?_, rfl, rfl, fun j _ _ => rfl, by simpa using hgr,
      by simp⟩
    rw [Treap.mergeNodes]
    simp
  | succ n ih =>
    intro lt rt d lp rp ls rs fuel hn hgl hgr hnd hf
    obtain ⟨f, rfl⟩ : ∃ f, fuel = f + 1 := ⟨fuel - 1, by omega⟩
    cases lt with
    | leaf =>
      obtain ⟨rfl, rfl⟩ := Gathers_leaf_inv hgl
      refine ⟨d, rp, rs, ?_, rfl, rfl, fun j _ _ => rfl, by simpa using hgr,
        by simp⟩
      rw [Treap.mergeNodes]
      simp
    | node lk lpri lv ll lr =>
      cases rt with
      | leaf =>
        obtain ⟨rfl, rfl⟩ := Gathers_leaf_inv hgr
        obtain ⟨li, ndl, lls, lrs, rfl, hal, hklv, hplv, hvlv, hgll, hglr, rfl⟩ :=
          Gathers_node_inv hgl
        refine ⟨d, some li, li :: (lls ++ lrs), ?_, rfl, rfl,
          fun j _ _ => rfl, by simpa using hgl, by simp⟩
        rw [Treap.mergeNodes]
        simp
      | node rk rpri rv rl rr =>
        obtain ⟨li, ndl, lls, lrs, rfl, hal, hkl, hpl, hvl, hgll, hglr, rfl⟩ :=
          Gathers_node_inv hgl
        obtain ⟨ri, ndr, rls, rrs, rfl, har, hkr, hpr, hvr, hgrl, hgrr, rfl⟩ :=
          Gathers_node_inv hgr
        have hlnd : (li :: (lls ++ lrs)).Nodup := (List.nodup_append.mp hnd).1
        have hrnd : (ri :: (rls ++ rrs)).Nodup := (List.nodup_append.mp hnd).2.1
        have hdisj : (li :: (lls ++ lrs)).Disjoint (ri :: (rls ++ rrs)) :=
          (List.nodup_append.mp hnd).2.2
        have hli_ne_ri : li ≠ ri := fun h =>
          hdisj (List.mem_cons_self li _) (by rw [h]; simp)
        have hli_nin : li ∉ lls ++ lrs := (List.nodup_cons.mp hlnd).1
        have hri_nin : ri ∉ rls ++ rrs := (List.nodup_cons.mp hrnd).1
        have hllsnd : lls.Nodup :=
          (List.nodup_append.mp (List.nodup_cons.mp hlnd).2).1
        have hlrsnd : lrs.Nodup :=
          (List.nodup_append.mp (List.nodup_cons.mp hlnd).2).2.1
        have hlldisj : lls.Disjoint lrs :=
          (List.nodup_append.mp (List.nodup_cons.mp hlnd).2).2.2
        have hrlsnd : rls.Nodup :=
          (List.nodup_append.mp (List.nodup_cons.mp hrnd).2).1
        have hrrsnd : rrs.Nodup :=
          (List.nodup_append.mp (List.nodup_cons.mp hrnd).2).2.1
        have hrldisj : rls.Disjoint rrs :=
          (List.nodup_append.mp (List.nodup_cons.mp hrnd).2).2.2
        have hli_lls : li ∉ lls := fun h => hli_nin (List.mem_append_left _ h)
        have hli_lrs : li ∉ lrs := fun h => hli_nin (List.mem_append_right _ h)
        have hri_rls : ri ∉ rls := fun h => hri_nin (List.mem_append_left _ h)
        have hri_rrs : ri ∉ rrs := fun h => hri_nin (List.mem_append_right _ h)
        have hli_rs : li ∉ ri :: (rls ++ rrs) := fun h =>
          hdisj (List.mem_cons_self li _) h
        have hri_ls : ri ∉ li :: (lls ++ lrs) := fun h =>
          hdisj h (List.mem_cons_self ri _)
        by_cases hcmp : ndl.priority > ndr.priority
        · -- left root wins: recurse on (left.right, right)
          have hndlr : (lrs ++ ri :: (rls ++ rrs)).Nodup := by
            refine List.nodup_append.mpr ⟨hlrsnd, hrnd, ?_⟩
            intro x hx hx'
            exact hdisj (List.mem_cons_of_mem _ (List.mem_append_right _ hx)) hx'
          obtain ⟨d1, mroot, mids, hrun, hreuse1, hlen1, hfr1, hgm, hperm⟩ :=
            ih (show lr.size + (Tree.node rk rpri rv rl rr).size ≤ n by
                simp only [Tree.size_node] at hn ⊢; omega) hglr hgr hndlr
              (show lr.size + (Tree.node rk rpri rv rl rr).size < f by
                simp only [Tree.size_node] at hf ⊢; omega)
          have hd1li : d1.index[li]? = some (some ndl) := by
            rw [hfr1 li hli_lrs hli_rs]; exact hal
          have hnd' := DirectVecIndex.modifyNode_eq_ok hd1li
            (fun nd => { nd with right := mroot })
          have hli_mids : li ∉ mids := fun h => by
            rcases List.mem_append.mp (hperm.mem_iff.mp h) with h' | h'
            · exact hli_lrs h'
            · exact hli_rs h'
          have hg2ll : Gathers
              (d1.index.set li (some { ndl with right := mroot })) ndl.left
              ll lls := by
            have h1 : Gathers d1.index ndl.left ll lls :=
              hgll.frame fun j hj =>
                hfr1 j (fun h => hlldisj hj h)
                  (fun h => hdisj
                    (List.mem_cons_of_mem _ (List.mem_append_left _ hj)) h)
            exact h1.frame fun j hj =>
              List.getElem?_set_ne (fun h => hli_lls (by rw [h]; exact hj))
          have hg2m : Gathers
              (d1.index.set li (some { ndl with right := mroot })) mroot
              (lr.mergeT (.node rk rpri rv rl rr)) mids :=
            hgm.frame fun j hj =>
              List.getElem?_set_ne (fun h => hli_mids (by rw [h]; exact hj))
          have hd2li : (d1.index.set li
              (some { ndl with right := mroot }))[li]? =
              some (some { ndl with right := mroot }) :=
            List.getElem?_set_self (by
              rw [hlen1]; exact getElem?_lt hal)
          have hgnode := Gathers.node'
            hd2li hg2ll hg2m
          refine ⟨⟨d1.reuse, d1.index.set li (some { ndl with right := mroot })⟩,
            some li, li :: (lls ++ mids), ?_, hreuse1, by simp [hlen1], ?_, ?_, ?_⟩
          · rw [Treap.mergeNodes]
            simp only [Option.isNone_some, Bool.false_eq_true, if_false,
              DirectVecIndex.get_eq_ok hal, DirectVecIndex.get_eq_ok har,
              ofExcept_ok, Res.bind_eq, Res.bind_ok]
            rw [if_pos hcmp, hrun]
            simp only [Res.bind_eq, Res.bind_ok, hnd', ofExcept_ok, Res.pure_eq]
          · intro j hjl hjr
            have hji : j ≠ li := fun h => hjl (by rw [h]; simp)
            show (d1.index.set li (some { ndl with right := mroot }))[j]? =
              d.index[j]?
            rw [List.getElem?_set_ne (fun h => hji h.symm)]
            exact hfr1 j (fun h =>
              hjl (List.mem_cons_of_mem _ (List.mem_append_right _ h))) hjr
          · rw [Tree.mergeT_node_node, if_pos (by rw [← hpl, ← hpr]; exact hcmp)]
            have he : Tree.node
                ndl.key ndl.priority ndl.value ll
                  (lr.mergeT (.node rk rpri rv rl rr)) =
                Tree.node lk lpri lv ll
                  (lr.mergeT (.node rk rpri rv rl rr)) := by
              rw [hkl, hpl, hvl]
            rw [← he]
            exact hgnode
          · rw [List.perm_iff_count]
            intro x
            have hc := hperm.count_eq x
            simp only [List.count_append, List.count_cons] at hc ⊢
            omega
        · -- right root wins (ties included): recurse on (left, right.left)
          have hndlr : ((li :: (lls ++ lrs)) ++ rls).Nodup := by
            refine List.nodup_append.mpr ⟨hlnd, hrlsnd, ?_⟩
            intro x hx hx'
            exact hdisj hx (List.mem_cons_of_mem _ (List.mem_append_left _ hx'))
          obtain ⟨d1, mroot, mids, hrun, hreuse1, hlen1, hfr1, hgm, hperm⟩ :=
            ih (show (Tree.node lk lpri lv ll lr).size + rl.size ≤ n by
                simp only [Tree.size_node] at hn ⊢; omega) hgl hgrl hndlr
              (show (Tree.node lk lpri lv ll lr).size + rl.size < f by
                simp only [Tree.size_node] at hf ⊢; omega)
          have hd1ri : d1.index[ri]? = some (some ndr) := by
            rw [hfr1 ri hri_ls hri_rls]; exact har
          have hnd' := DirectVecIndex.modifyNode_eq_ok hd1ri
            (fun nd => { nd with left := mroot })
          have hri_mids : ri ∉ mids := fun h => by
            rcases List.mem_append.mp (hperm.mem_iff.mp h) with h' | h'
            · exact hri_ls h'
            · exact hri_rls h'
          have hg2rr : Gathers
              (d1.index.set ri (some { ndr with left := mroot })) ndr.right
              rr rrs := by
            have h1 : Gathers d1.index ndr.right rr rrs :=
              hgrr.frame fun j hj =>
                hfr1 j (fun h => hdisj h
                    (List.mem_cons_of_mem _ (List.mem_append_right _ hj)))
                  (fun h => hrldisj h hj)
            exact h1.frame fun j hj =>
              List.getElem?_set_ne (fun h => hri_rrs (by rw [h]; exact hj))
          have hg2m : Gathers
              (d1.index.set ri (some { ndr with left := mroot })) mroot
              ((Tree.node lk lpri lv ll lr).mergeT rl) mids :=
            hgm.frame fun j hj =>
              List.getElem?_set_ne (fun h => hri_mids (by rw [h]; exact hj))
          have hd2ri : (d1.index.set ri
              (some { ndr with left := mroot }))[ri]? =
              some (some { ndr with left := mroot }) :=
            List.getElem?_set_self (by
              rw [hlen1]; exact getElem?_lt har)
          have hgnode := Gathers.node'
            hd2ri hg2m hg2rr
          refine ⟨⟨d1.reuse, d1.index.set ri (some { ndr with left := mroot })⟩,
            some ri, ri :: (mids ++ rrs), ?_, hreuse1, by simp [hlen1], ?_, ?_, ?_⟩
          · rw [Treap.mergeNodes]
            simp only [Option.isNone_some, Bool.false_eq_true, if_false,
              DirectVecIndex.get_eq_ok hal, DirectVecIndex.get_eq_ok har,
              ofExcept_ok, Res.bind_eq, Res.bind_ok]
            rw [if_neg hcmp, hrun]
            simp only [Res.bind_eq, Res.bind_ok, hnd', ofExcept_ok, Res.pure_eq]
          · intro j hjl hjr
            have hji : j ≠ ri := fun h => hjr (by rw [h]; simp)
            show (d1.index.set ri (some { ndr with left := mroot }))[j]? =
              d.index[j]?
            rw [List.getElem?_set_ne (fun h => hji h.symm)]
            exact hfr1 j hjl (fun h =>
              hjr (List.mem_cons_of_mem _ (List.mem_append_left _ h)))
          · rw [Tree.mergeT_node_node, if_neg (by rw [← hpl, ← hpr]; exact hcmp)]
            have he : Tree.node
                ndr.key ndr.priority ndr.value
                  ((Tree.node lk lpri lv ll lr).mergeT rl) rr =
                Tree.node rk rpri rv
                  ((Tree.node lk lpri lv ll lr).mergeT rl) rr := by
              rw [hkr, hpr, hvr]
            rw [← he]
            exact hgnode
          · rw [List.perm_iff_count]
            intro x
            have hc := hperm.count_eq x
            simp only [List.count_append, List.count_cons] at hc ⊢
            omega

theorem mergeNodes_sim {lt rt : Tree K P V} {d : DirectVecIndex K P V}
    {lp rp : Option Nat} {ls rs : List Nat} {fuel : Nat}
    (hgl : Gathers d.index lp lt ls) (hgr : Gathers d.index rp rt rs)
    (hnd : (ls ++ rs).Nodup) (hf : lt.size + rt.size < fuel) :
    ∃ d' rootp ids,
      Treap.mergeNodes fuel d lp rp = .ok (d', rootp) ∧
      d'.reuse = d.reuse ∧
      d'.index.length = d.index.length ∧
      (∀ j, j ∉ ls → j ∉ rs → d'.index[j]? = d.index[j]?) ∧
      Gathers d'.index rootp (lt.mergeT rt) ids ∧
      List.Perm ids (ls ++ rs) :=
  mergeNodes_sim_aux (lt.size + rt.size) le_rfl hgl hgr hnd hf

theorem getElem?_append_left' {α : Type} {l : List α} (x : α) {j : Nat}
    (h : j < l.length) : (l ++ [x])[j]? = l[j]? := by
  rw [List.getElem?_append]
  simp [h]

theorem Gathers_single {a : List (Option (Node K P V))} {i : Nat}
    {nd : Node K P V} (ha : a[i]? = some (some nd))
    (hl : nd.left = none) (hr : nd.right = none) :
    Gathers a (some i) (.node nd.key nd.priority nd.value .leaf .leaf) [i] := by
  have h1 : Gathers a nd.left Tree.leaf [] := by rw [hl]; exact Gathers_none
  have h2 : Gathers a nd.right Tree.leaf [] := by rw [hr]; exact Gathers_none
  exact Gathers.node' ha h1 h2

theorem Gathers_single' {a : List (Option (Node K P V))} {i : Nat}
    {k : K} {p : P} {v : V}
    (ha : a[i]? = some (some ⟨k, p, v, none, none⟩)) :
    Gathers a (some i) (.node k p v .leaf .leaf) [i] :=
  Gathers_single ha rfl rfl

/-- Packaged simulation of the `Treap::split` wrapper on a well-formed
treap. -/
theorem split_spec {t : Treap K P V} {tr : Tree K P V} {ids : List Nat}
    (h : WFc t tr ids) (key : K) :
    ∃ (spl : Split K P V) (lids rids : List Nat),
      t.split key = .ok spl ∧
      spl.index.reuse = t.index.reuse ∧
      spl.index.index.length = t.index.index.length ∧
      (∀ j, j ∉ ids → spl.index.index[j]? = t.index.index[j]?) ∧
      Gathers spl.index.index spl.left (tr.splitT key).1 lids ∧
      Gathers spl.index.index spl.right (tr.splitT key).2.2 rids ∧
      (∀ j ∈ ids, ∃ nd, spl.index.index[j]? = some (some nd)) ∧
      (((tr.splitT key).2.1 = none ∧ spl.entry = none ∧
          List.Perm (lids ++ rids) ids) ∨
        (∃ e j, (tr.splitT key).2.1 = some e ∧ spl.entry = some j ∧
          spl.index.index[j]? =
            some (some ⟨e.1, e.2.1, e.2.2, none, none⟩) ∧
          List.Perm (lids ++ j :: rids) ids)) := by
  have hg := h.gathers
  have hnd : ids.Nodup := h.2.1
  have hf : tr.height < t.index.index.length + 1 := by
    have h1 : tr.height ≤ tr.size := Tree.height_le_size tr
    have h2 : ids.length = tr.size := hg.ids_length
    have h3 : ids.length ≤ t.index.index.length :=
      nodup_length_le hnd hg.bounded
    omega
  obtain ⟨d', lp, ep, rp, lids, rids, hrun, hreuse, hlen, hfr, hgl, hgr,
    hlive, hcase⟩ := splitNodes_sim key hg hnd hf
  refine ⟨⟨lp, ep, rp, d'⟩, lids, rids, ?_, hreuse, hlen, hfr, hgl, hgr,
    hlive, hcase⟩
  rw [Treap.split, hrun]
  simp only [Res.bind_eq, Res.bind_ok, Res.pure_eq]

/-- Packaged simulation of the two consecutive merges that rebuild a treap
from split parts and an optional middle subtree. -/
theorem merge2_stage {d : DirectVecIndex K P V} {lp np rp : Option Nat}
    {sl nt sr : Tree K P V} {lids nids rids : List Nat}
    (hgl : Gathers d.index lp sl lids) (hgn : Gathers d.index np nt nids)
    (hgr : Gathers d.index rp sr rids)
    (hnd : (lids ++ nids ++ rids).Nodup) :
    ∃ d1 r1 d2 r2 fids,
      Treap.mergeNodes (d.index.length + 1) d lp np = .ok (d1, r1) ∧
      Treap.mergeNodes (d1.index.length + 1) d1 r1 rp = .ok (d2, r2) ∧
      d2.reuse = d.reuse ∧
      d2.index.length = d.index.length ∧
      (∀ j, j ∉ lids ++ nids ++ rids → d2.index[j]? = d.index[j]?) ∧
      Gathers d2.index r2 ((sl.mergeT nt).mergeT sr) fids ∧
      List.Perm fids (lids ++ nids ++ rids) := by
  have hA := List.nodup_append.mp hnd
  have hB := List.nodup_append.mp hA.1
  have hnd1 : (lids ++ nids).Nodup := hA.1
  have hsz1 : sl.size + nt.size < d.index.length + 1 := by
    have h1 : (lids ++ nids).length ≤ d.index.length := by
      refine nodup_length_le hnd1 ?_
      intro x hx
      rcases List.mem_append.mp hx with hx | hx
      · exact hgl.bounded x hx
      · exact hgn.bounded x hx
    have h2 := hgl.ids_length
    have h3 := hgn.ids_length
    simp only [List.length_append] at h1
    omega
  obtain ⟨d1, r1, mids1, hrun1, hreuse1, hlen1, hfr1, hgm1, hperm1⟩ :=
    mergeNodes_sim hgl hgn hnd1 hsz1
  have hgr1 : Gathers d1.index rp sr rids := by
    refine hgr.frame fun j hj => ?_
    refine hfr1 j (fun h => ?_) (fun h => ?_)
    · exact hA.2.2 (List.mem_append_left _ h) hj
    · exact hA.2.2 (List.mem_append_right _ h) hj
  have hnd2 : (mids1 ++ rids).Nodup := by
    refine List.nodup_append.mpr ⟨hperm1.nodup_iff.mpr hnd1, hA.2.1, ?_⟩
    intro x hx hx'
    exact hA.2.2 (hperm1.mem_iff.mp hx) hx'
  have hsz2 : (sl.mergeT nt).size + sr.size < d1.index.length + 1 := by
    have h1 : (mids1 ++ rids).length ≤ d1.index.length := by
      refine nodup_length_le hnd2 ?_
      intro x hx
      rcases List.mem_append.mp hx with hx | hx
      · exact hgm1.bounded x hx
      · rw [hlen1]; exact hgr.bounded x hx
    have h2 := hgm1.ids_length
    have h3 := hgr.ids_length
    simp only [List.length_append] at h1
    omega
  obtain ⟨d2, r2, fids, hrun2, hreuse2, hlen2, hfr2, hgm2, hperm2⟩ :=
    mergeNodes_sim hgm1 hgr1 hnd2 hsz2
  refine ⟨d1, r1, d2, r2, fids, hrun1, hrun2, by rw [hreuse2, hreuse1],
    by rw [hlen2, hlen1], ?_, hgm2, ?_⟩
  · intro j hj
    have hjl : j ∉ lids := fun h =>
      hj (List.mem_append_left _ (List.mem_append_left _ h))
    have hjn : j ∉ nids := fun h =>
      hj (List.mem_append_left _ (List.mem_append_right _ h))
    have hjr : j ∉ rids := fun h => hj (List.mem_append_right _ h)
    have hjm : j ∉ mids1 := fun h => by
      rcases List.mem_append.mp (hperm1.mem_iff.mp h) with h' | h'
      · exact hjl h'
      · exact hjn h'
    rw [hfr2 j hjm hjr]
    exact hfr1 j hjl hjn
  · rw [List.perm_iff_count]
    intro x
    have hc1 := hperm1.count_eq x
    have hc2 := hperm2.count_eq x
    simp only [List.count_append] at hc1 hc2 ⊢
    omega

end Sim

section Pipelines

variable {K P V : Type} [LinearOrder K] [LinearOrder P]

@[simp] theorem DirectVecIndex.reuse_mk (r : List Nat)
    (a : List (Option (Node K P V))) :
    (DirectVecIndex.mk r a).reuse = r := rfl

@[simp] theorem DirectVecIndex.index_mk (r : List Nat)
    (a : List (Option (Node K P V))) :
    (DirectVecIndex.mk r a).index = a := rfl

/-- Slots reachable from the root of a well-formed treap are occupied, so
they are disjoint from the reuse stack. -/
theorem WFc.ids_not_reuse {t : Treap K P V} {tr : Tree K P V} {ids : List Nat}
    (h : WFc t tr ids) : ∀ i ∈ ids, i ∉ t.index.reuse := by
  intro i hi hir
  obtain ⟨nd, hnd⟩ := h.gathers.live i hi
  rw [h.2.2.2.1 i hir] at hnd
  exact absurd hnd (by simp)

theorem WFc.reuse_not_ids {t : Treap K P V} {tr : Tree K P V} {ids : List Nat}
    (h : WFc t tr ids) : ∀ i ∈ t.index.reuse, i ∉ ids := fun i hi hids =>
  h.ids_not_reuse i hids hi

/-- Middle stage shared by `insert` and `prioritize` when the split detached
the entry at slot `j`: `remove(..).ok()` frees `j` and the subsequent arena
`insert` reuses exactly that slot for the replacement node; the two merges
then rebuild a well-formed treap around it. -/
theorem replace_pipeline {t : Treap K P V} {tr : Tree K P V} {ids : List Nat}
    (h : WFc t tr ids) {spl : Split K P V} {lids rids : List Nat}
    {sl sr : Tree K P V} {e : K × P × V} {j : Nat}
    (hsreuse : spl.index.reuse = t.index.reuse)
    (hslen : spl.index.index.length = t.index.index.length)
    (hsfr : ∀ i, i ∉ ids → spl.index.index[i]? = t.index.index[i]?)
    (hgl : Gathers spl.index.index spl.left sl lids)
    (hgr : Gathers spl.index.index spl.right sr rids)
    (hep : spl.entry = some j)
    (hslot : spl.index.index[j]? = some (some ⟨e.1, e.2.1, e.2.2, none, none⟩))
    (hperm : List.Perm (lids ++ j :: rids) ids)
    (nn : Node K P V) (hnl : nn.left = none) (hnr : nn.right = none) :
    ∃ d3 d4 r1 d5 r2 fids,
      spl.index.removeOk spl.entry =
        (⟨j :: spl.index.reuse, spl.index.index.set j none⟩,
          some ⟨e.1, e.2.1, e.2.2, none, none⟩) ∧
      DirectVecIndex.insertNode
        ⟨j :: spl.index.reuse, spl.index.index.set j none⟩ nn =
        (d3, some j) ∧
      d3 = ⟨spl.index.reuse, spl.index.index.set j (some nn)⟩ ∧
      Treap.mergeNodes (d3.index.length + 1) d3 spl.left (some j) =
        .ok (d4, r1) ∧
      Treap.mergeNodes (d4.index.length + 1) d4 r1 spl.right =
        .ok (d5, r2) ∧
      WFc ⟨r2, d5⟩
        ((sl.mergeT (.node nn.key nn.priority nn.value .leaf .leaf)).mergeT sr)
        fids := by
  have hjids : j ∈ ids := hperm.mem_iff.mp
    (List.mem_append_right _ (List.mem_cons_self j _))
  have hjlen : j < spl.index.index.length := getElem?_lt hslot
  have hnd3' : (lids ++ j :: rids).Nodup := hperm.nodup_iff.mpr h.2.1
  have hjlids : j ∉ lids := fun hj =>
    (List.nodup_append.mp hnd3').2.2 hj (List.mem_cons_self j _)
  have hjrids : j ∉ rids :=
    (List.nodup_cons.mp (List.nodup_append.mp hnd3').2.1).1
  -- the arena after remove-then-insert
  have he1 : spl.index.removeOk spl.entry =
      (⟨j :: spl.index.reuse, spl.index.index.set j none⟩,
        some ⟨e.1, e.2.1, e.2.2, none, none⟩) := by
    rw [hep, DirectVecIndex.removeOk_some hslot]
  have he2 : DirectVecIndex.insertNode
      ⟨j :: spl.index.reuse, spl.index.index.set j none⟩ nn =
      (⟨spl.index.reuse, (spl.index.index.set j none).set j (some nn)⟩,
        some j) := rfl
  have hsetset : (spl.index.index.set j none).set j (some nn) =
      spl.index.index.set j (some nn) := by rw [List.set_set]
  set d3 : DirectVecIndex K P V :=
    ⟨spl.index.reuse, spl.index.index.set j (some nn)⟩ with hd3
  have hd3j : d3.index[j]? = some (some nn) := by
    rw [hd3]
    exact List.getElem?_set_self (by simpa using hjlen)
  have hg3l : Gathers d3.index spl.left sl lids :=
    hgl.frame fun i hi =>
      List.getElem?_set_ne (fun hji => hjlids (by rw [hji]; exact hi))
  have hg3r : Gathers d3.index spl.right sr rids :=
    hgr.frame fun i hi =>
      List.getElem?_set_ne (fun hji => hjrids (by rw [hji]; exact hi))
  have hg3n : Gathers d3.index (some j)
      (.node nn.key nn.priority nn.value .leaf .leaf) [j] :=
    Gathers_single hd3j hnl hnr
  have hnd3 : (lids ++ [j] ++ rids).Nodup := by
    have : List.Perm (lids ++ [j] ++ rids) (lids ++ j :: rids) := by
      rw [List.perm_iff_count]
      intro x
      simp only [List.count_append, List.count_cons, List.count_nil]
      omega
    exact this.nodup_iff.mpr hnd3'
  obtain ⟨d4, r1, d5, r2, fids, hrun1, hrun2, hreuse5, hlen5, hfr5, hgm5,
    hperm5⟩ := merge2_stage hg3l hg3n hg3r hnd3
  have hfidset : ∀ x : Nat, x ∈ fids ↔ x ∈ ids := by
    intro x
    rw [hperm5.mem_iff, ← hperm.mem_iff]
    simp only [List.mem_append, List.mem_cons, List.mem_singleton]
    tauto
  refine ⟨d3, d4, r1, d5, r2, fids, he1, ?_, rfl, hrun1, hrun2, ?_⟩
  · rw [he2, hsetset, hd3]
  have hlen5' : d5.index.length = t.index.index.length := by
    rw [hlen5, hd3]; simpa using hslen
  have hfrout : ∀ i, i ∉ ids → d5.index[i]? = t.index.index[i]? := by
    intro i hi
    have hifids : i ∉ fids := fun hf => hi ((hfidset i).mp hf)
    rw [hfr5 i (by
      intro hmem
      exact hifids (hperm5.mem_iff.mpr hmem))]
    rw [hd3]
    simp only [DirectVecIndex.index_mk]
    rw [List.getElem?_set_ne (fun hji => hi (by rw [hji] at hjids; exact hjids))]
    exact hsfr i hi
  refine WFc.mk' hgm5 (hperm5.nodup_iff.mpr hnd3)
    (by rw [hreuse5, hd3]; simpa [hsreuse] using h.2.2.1) ?_ ?_ ?_
  · -- every reuse slot is still free
    intro i hi
    rw [hreuse5, hd3] at hi
    simp only [DirectVecIndex.reuse_mk, hsreuse] at hi
    have hini : i ∉ ids := h.reuse_not_ids i hi
    show d5.index[i]? = some none
    rw [hfrout i hini]
    exact h.2.2.2.1 i hi
  · -- every free slot is on the reuse stack
    intro i hilen hfree
    have hifids : i ∉ fids := by
      intro hf
      obtain ⟨nd, hnd⟩ := hgm5.live i hf
      rw [hnd] at hfree
      exact absurd hfree (by simp)
    have hini : i ∉ ids := fun hin => hifids ((hfidset i).mpr hin)
    rw [hfrout i hini] at hfree
    rw [hreuse5, hd3]
    simp only [DirectVecIndex.reuse_mk, hsreuse]
    exact h.2.2.2.2.1 i (by rw [hlen5'] at hilen; exact hilen) hfree
  · -- every occupied slot is reachable
    intro i hilen hocc
    by_contra hnin
    have hini : i ∉ ids := fun hin => hnin ((hfidset i).mpr hin)
    rw [hfrout i hini] at hocc
    exact hnin ((hfidset i).mpr
      (h.2.2.2.2.2 i (by rw [hlen5'] at hilen; exact hilen) hocc))

/-- Middle stage of `insert` when the key was absent: nothing is removed and
the arena `insert` lands the new node in a reused free slot or a fresh
appended slot; the two merges then rebuild a well-formed treap. -/
theorem fresh_pipeline {t : Treap K P V} {tr : Tree K P V} {ids : List Nat}
    (h : WFc t tr ids) {spl : Split K P V} {lids rids : List Nat}
    {sl sr : Tree K P V}
    (hsreuse : spl.index.reuse = t.index.reuse)
    (hslen : spl.index.index.length = t.index.index.length)
    (hsfr : ∀ i, i ∉ ids → spl.index.index[i]? = t.index.index[i]?)
    (hgl : Gathers spl.index.index spl.left sl lids)
    (hgr : Gathers spl.index.index spl.right sr rids)
    (hep : spl.entry = none)
    (hperm : List.Perm (lids ++ rids) ids)
    (nn : Node K P V) (hnl : nn.left = none) (hnr : nn.right = none) :
    ∃ d3 nid d4 r1 d5 r2 fids,
      spl.index.removeOk spl.entry = (spl.index, none) ∧
      spl.index.insertNode nn = (d3, some nid) ∧
      Treap.mergeNodes (d3.index.length + 1) d3 spl.left (some nid) =
        .ok (d4, r1) ∧
      Treap.mergeNodes (d4.index.length + 1) d4 r1 spl.right =
        .ok (d5, r2) ∧
      WFc ⟨r2, d5⟩
        ((sl.mergeT (.node nn.key nn.priority nn.value .leaf .leaf)).mergeT sr)
        fids := by
  have he1 : spl.index.removeOk spl.entry = (spl.index, none) := by
    rw [hep]; rfl
  have hndlr : (lids ++ rids).Nodup := hperm.nodup_iff.mpr h.2.1
  -- facts shared by both allocation paths, abstracted over the landing slot
  have main : ∀ (d3 : DirectVecIndex K P V) (nid : Nat),
      spl.index.insertNode nn = (d3, some nid) →
      d3.index[nid]? = some (some nn) →
      (∀ i ∈ lids, d3.index[i]? = spl.index.index[i]?) →
      (∀ i ∈ rids, d3.index[i]? = spl.index.index[i]?) →
      nid ∉ ids →
      d3.index.length = t.index.index.length ∨
        d3.index.length = t.index.index.length + 1 →
      d3.reuse.Nodup →
      (∀ i ∈ d3.reuse, i ∈ t.index.reuse ∧ i ≠ nid) →
      (∀ i, i < t.index.index.length → i ∉ ids → i ≠ nid →
        d3.index[i]? = t.index.index[i]?) →
      (∀ i, i < d3.index.length → i ∉ ids → i ≠ nid →
        d3.index[i]? = some none → i ∈ d3.reuse) →
      (∀ i, i < d3.index.length → t.index.index.length ≤ i → i = nid) →
      ∃ d3' nid' d4 r1 d5 r2 fids,
        spl.index.removeOk spl.entry = (spl.index, none) ∧
        spl.index.insertNode nn = (d3', some nid') ∧
        Treap.mergeNodes (d3'.index.length + 1) d3' spl.left (some nid') =
          .ok (d4, r1) ∧
        Treap.mergeNodes (d4.index.length + 1) d4 r1 spl.right =
          .ok (d5, r2) ∧
        WFc ⟨r2, d5⟩
          ((sl.mergeT (.node nn.key nn.priority nn.value .leaf .leaf)).mergeT
            sr) fids := by
    intro d3 nid hins hd3nid hfrl hfrr hnidids hlen3 hrnd3 hrsub hfr3 hfree3
      hlenid
    have hg3l : Gathers d3.index spl.left sl lids := hgl.frame hfrl
    have hg3r : Gathers d3.index spl.right sr rids := hgr.frame hfrr
    have hg3n : Gathers d3.index (some nid)
        (.node nn.key nn.priority nn.value .leaf .leaf) [nid] :=
      Gathers_single hd3nid hnl hnr
    have hnidl : nid ∉ lids := fun hx =>
      hnidids (hperm.mem_iff.mp (List.mem_append_left _ hx))
    have hnidr : nid ∉ rids := fun hx =>
      hnidids (hperm.mem_iff.mp (List.mem_append_right _ hx))
    have hnd3 : (lids ++ [nid] ++ rids).Nodup := by
      have hA := List.nodup_append.mp hndlr
      refine List.nodup_append.mpr ⟨List.nodup_append.mpr
        ⟨hA.1, List.nodup_singleton nid, ?_⟩, hA.2.1, ?_⟩
      · intro x hx hx'
        rw [List.mem_singleton] at hx'
        exact hnidl (hx' ▸ hx)
      · intro x hx hx'
        rcases List.mem_append.mp hx with hx | hx
        · exact hA.2.2 hx hx'
        · rw [List.mem_singleton] at hx
          exact hnidr (hx ▸ hx')
    obtain ⟨d4, r1, d5, r2, fids, hrun1, hrun2, hreuse5, hlen5, hfr5, hgm5,
      hperm5⟩ := merge2_stage hg3l hg3n hg3r hnd3
    have hfidset : ∀ x : Nat, x ∈ fids ↔ x ∈ ids ∨ x = nid := by
      intro x
      rw [hperm5.mem_iff, ← hperm.mem_iff]
      simp only [List.mem_append, List.mem_singleton]
      tauto
    refine ⟨d3, nid, d4, r1, d5, r2, fids, he1, hins, hrun1, hrun2, ?_⟩
    have hfrout : ∀ i, i ∉ ids → i ≠ nid → i < t.index.index.length →
        d5.index[i]? = t.index.index[i]? := by
      intro i hi hin hil
      have hifids : i ∉ fids := fun hf => by
        rcases (hfidset i).mp hf with hf | hf
        · exact hi hf
        · exact hin hf
      rw [hfr5 i (fun hmem => hifids (hperm5.mem_iff.mpr hmem))]
      exact hfr3 i hil hi hin
    refine WFc.mk' hgm5 (hperm5.nodup_iff.mpr hnd3)
      (by rw [hreuse5]; exact hrnd3) ?_ ?_ ?_
    · intro i hi
      rw [hreuse5] at hi
      obtain ⟨hit, hinid⟩ := hrsub i hi
      have hini : i ∉ ids := h.reuse_not_ids i hit
      show d5.index[i]? = some none
      have hil : i < t.index.index.length := by
        have := h.2.2.2.1 i hit
        have := getElem?_lt this
        exact this
      rw [hfrout i hini hinid hil]
      exact h.2.2.2.1 i hit
    · intro i hilen hfree
      have hifids : i ∉ fids := by
        intro hf
        obtain ⟨nd, hnd⟩ := hgm5.live i hf
        rw [hnd] at hfree
        exact absurd hfree (by simp)
      have hini : i ∉ ids := fun hin => hifids ((hfidset i).mpr (Or.inl hin))
      have hinid : i ≠ nid := fun hin => hifids ((hfidset i).mpr (Or.inr hin))
      rw [hreuse5]
      refine hfree3 i (by rw [← hlen5]; exact hilen) hini hinid ?_
      rw [← hfr5 i (fun hmem => hifids (hperm5.mem_iff.mpr hmem))]
      exact hfree
    · intro i hilen hocc
      by_contra hnin
      have hini : i ∉ ids := fun hin => hnin ((hfidset i).mpr (Or.inl hin))
      have hinid : i ≠ nid := fun hin => hnin ((hfidset i).mpr (Or.inr hin))
      have hil : i < t.index.index.length := by
        by_contra hc
        exact hinid (hlenid i (by rw [← hlen5]; exact hilen) (by omega))
      rw [hfrout i hini hinid hil] at hocc
      exact hnin ((hfidset i).mpr
        (Or.inl (h.2.2.2.2.2 i hil hocc)))
  rcases hrt : t.index.reuse with _ | ⟨jj, rest⟩
  · -- no free slot queued: append a fresh slot
    have hre : spl.index.reuse = [] := by rw [hsreuse, hrt]
    have hins : spl.index.insertNode nn =
        (⟨[], spl.index.index ++ [some nn]⟩, some spl.index.index.length) := by
      simp only [DirectVecIndex.insertNode, hre]
    have hboundt : ∀ i ∈ ids, i < t.index.index.length := h.gathers.bounded
    refine main ⟨[], spl.index.index ++ [some nn]⟩ spl.index.index.length hins
      (by simp) ?_ ?_ ?_ ?_ ?_ ?_ ?_ ?_ ?_
    · intro i hi
      have hb : i < t.index.index.length :=
        hboundt i (hperm.mem_iff.mp (List.mem_append_left _ hi))
      exact getElem?_append_left' _ (by rw [hslen]; exact hb)
    · intro i hi
      have hb : i < t.index.index.length :=
        hboundt i (hperm.mem_iff.mp (List.mem_append_right _ hi))
      exact getElem?_append_left' _ (by rw [hslen]; exact hb)
    · intro hmem
      have := hboundt _ hmem
      omega
    · right
      simp [hslen]
    · simp
    · simp
    · intro i hil hi hin
      show (spl.index.index ++ [some nn])[i]? = t.index.index[i]?
      rw [getElem?_append_left' _ (by rw [hslen]; exact hil)]
      exact hsfr i hi
    · intro i hil hi hin hfree
      exfalso
      simp only [DirectVecIndex.index_mk, List.length_append,
        List.length_singleton] at hil hfree
      have hil' : i < t.index.index.length := by
        rcases Nat.lt_succ_iff_lt_or_eq.mp hil with h2 | h2
        · rw [← hslen]; exact h2
        · exact absurd h2 hin
      rw [getElem?_append_left' _ (by rw [hslen]; exact hil'),
        hsfr i hi] at hfree
      have := h.2.2.2.2.1 i hil' hfree
      rw [hrt] at this
      exact absurd this (by simp)
    · intro i hil hge
      simp only [DirectVecIndex.index_mk, List.length_append,
        List.length_singleton] at hil
      rw [← hslen] at hge
      omega
  · -- reuse the most recently freed slot
    have hre : spl.index.reuse = jj :: rest := by rw [hsreuse, hrt]
    have hjjfree : t.index.index[jj]? = some none :=
      h.2.2.2.1 jj (by rw [hrt]; simp)
    have hjjlen : jj < t.index.index.length := getElem?_lt hjjfree
    have hjjids : jj ∉ ids :=
      h.reuse_not_ids jj (by rw [hrt]; simp)
    have hspljj : spl.index.index[jj]? = some none := by
      rw [hsfr jj hjjids]; exact hjjfree
    have hins : spl.index.insertNode nn =
        (⟨rest, spl.index.index.set jj (some nn)⟩, some jj) := by
      simp only [DirectVecIndex.insertNode, hre]
    have hrtnd : (jj :: rest).Nodup := by rw [← hrt]; exact h.2.2.1
    refine main ⟨rest, spl.index.index.set jj (some nn)⟩ jj hins
      (List.getElem?_set_self (by rw [hslen]; exact hjjlen)) ?_ ?_ hjjids
      (Or.inl (by simp [hslen])) (List.nodup_cons.mp hrtnd).2 ?_ ?_ ?_ ?_
    · intro i hi
      refine List.getElem?_set_ne fun hji => ?_
      rw [← hji] at hi
      exact hjjids (hperm.mem_iff.mp (List.mem_append_left _ hi))
    · intro i hi
      refine List.getElem?_set_ne fun hji => ?_
      rw [← hji] at hi
      exact hjjids (hperm.mem_iff.mp (List.mem_append_right _ hi))
    · intro i hi
      refine ⟨by rw [hrt]; exact List.mem_cons_of_mem _ hi, fun hij => ?_⟩
      rw [hij] at hi
      exact (List.nodup_cons.mp hrtnd).1 hi
    · intro i hil hi hin
      show (spl.index.index.set jj (some nn))[i]? = t.index.index[i]?
      rw [List.getElem?_set_ne (fun hji => hin hji.symm)]
      exact hsfr i hi
    · intro i hil hi hin hfree
      simp only [DirectVecIndex.index_mk, List.length_set] at hil hfree
      rw [List.getElem?_set_ne (fun hji => hin hji.symm), hsfr i hi] at hfree
      have hil' : i < t.index.index.length := by rw [← hslen]; exact hil
      have := h.2.2.2.2.1 i hil' hfree
      rw [hrt] at this
      rcases List.mem_cons.mp this with h2 | h2
      · exact absurd h2 hin
      · exact h2
    · intro i hil hge
      simp only [DirectVecIndex.index_mk, List.length_set] at hil
      rw [hslen] at hil
      omega

/-- Full behaviour of `Treap::insert` on a well-formed treap: the result is
again well formed, its tree is the two merges around the fresh node, and the
returned value is the payload of the entry the split detached. -/
theorem insert_spec {t : Treap K P V} {tr : Tree K P V} {ids : List Nat}
    (h : WFc t tr ids) (key : K) (p : P) (v : V) :
    ∃ tr' ids',
      WFc (t.insert key p v).1 tr' ids' ∧
      tr' = ((tr.splitT key).1.mergeT (.node key p v .leaf .leaf)).mergeT
        (tr.splitT key).2.2 ∧
      (t.insert key p v).2 =
        some (.ok ((tr.splitT key).2.1.map fun e => (e.2.1, e.2.2))) := by
  obtain ⟨spl, lids, rids, hsplit, hsreuse, hslen, hsfr, hgl, hgr, hlive,
    hcase⟩ := split_spec h key
  rcases hcase with ⟨hse, hep, hperm⟩ | ⟨e, j, hse, hep, hslot, hperm⟩
  · obtain ⟨d3, nid, d4, r1, d5, r2, fids, he1, he2, hm1, hm2, hwf⟩ :=
      fresh_pipeline h hsreuse hslen hsfr hgl hgr hep hperm
        ⟨key, p, v, none, none⟩ rfl rfl
    have hres : t.insert key p v = (⟨r2, d5⟩, some (.ok none)) := by
      simp only [Treap.insert, hsplit, Res.bind_eq, Res.bind_ok, he1, he2,
        hm1, hm2, Res.pure_eq, Treap.publish, Option.map_none']
    refine ⟨_, fids, ?_, rfl, ?_⟩
    · rw [hres]
      exact hwf
    · rw [hres, hse]
      rfl
  · obtain ⟨d3, d4, r1, d5, r2, fids, he1, he2, hd3eq, hm1, hm2, hwf⟩ :=
      replace_pipeline h hsreuse hslen hsfr hgl hgr hep hslot hperm
        ⟨key, p, v, none, none⟩ rfl rfl
    have hres : t.insert key p v =
        (⟨r2, d5⟩, some (.ok (some (e.2.1, e.2.2)))) := by
      simp only [Treap.insert, hsplit, Res.bind_eq, Res.bind_ok, he1, he2,
        hm1, hm2, Res.pure_eq, Treap.publish, Option.map_some']
    refine ⟨_, fids, ?_, rfl, ?_⟩
    · rw [hres]
      exact hwf
    · rw [hres, hse]
      rfl

/-- Stage shared by `remove` and `pop`: slot `j` (holding the detached
entry) is freed and pushed on the reuse stack, then the two remaining parts
are merged into a well-formed treap. -/
theorem free_merge_stage {t : Treap K P V} {tr : Tree K P V} {ids : List Nat}
    (h : WFc t tr ids) {d1 : DirectVecIndex K P V}
    {lp rp : Option Nat} {sl sr : Tree K P V} {lids rids : List Nat} {j : Nat}
    (h1reuse : d1.reuse = t.index.reuse)
    (h1len : d1.index.length = t.index.index.length)
    (h1fr : ∀ i, i ∉ ids → d1.index[i]? = t.index.index[i]?)
    (hgl : Gathers d1.index lp sl lids)
    (hgr : Gathers d1.index rp sr rids)
    (hperm : List.Perm (lids ++ j :: rids) ids) :
    ∃ d5 r2 fids,
      Treap.mergeNodes ((d1.index.set j none).length + 1)
        ⟨j :: d1.reuse, d1.index.set j none⟩ lp rp = .ok (d5, r2) ∧
      WFc ⟨r2, d5⟩ (sl.mergeT sr) fids := by
  have hjids : j ∈ ids := hperm.mem_iff.mp
    (List.mem_append_right _ (List.mem_cons_self j _))
  have hnd' : (lids ++ j :: rids).Nodup := hperm.nodup_iff.mpr h.2.1
  have hjlids : j ∉ lids := fun hj =>
    (List.nodup_append.mp hnd').2.2 hj (List.mem_cons_self j _)
  have hjrids : j ∉ rids :=
    (List.nodup_cons.mp (List.nodup_append.mp hnd').2.1).1
  have hndlr : (lids ++ rids).Nodup := by
    have h2 : (j :: (lids ++ rids)).Nodup :=
      (List.perm_middle.nodup_iff).mp hnd'
    exact (List.nodup_cons.mp h2).2
  have hjlen : j < t.index.index.length := h.gathers.bounded j hjids
  set d2 : DirectVecIndex K P V := ⟨j :: d1.reuse, d1.index.set j none⟩
    with hd2
  have hg2l : Gathers d2.index lp sl lids :=
    hgl.frame fun i hi =>
      List.getElem?_set_ne (fun hji => hjlids (by rw [hji]; exact hi))
  have hg2r : Gathers d2.index rp sr rids :=
    hgr.frame fun i hi =>
      List.getElem?_set_ne (fun hji => hjrids (by rw [hji]; exact hi))
  have hsz : sl.size + sr.size < d2.index.length + 1 := by
    have h1 : (lids ++ j :: rids).length ≤ t.index.index.length :=
      nodup_length_le hnd' (fun x hx =>
        h.gathers.bounded x (hperm.mem_iff.mp hx))
    have h2 := hgl.ids_length
    have h3 := hgr.ids_length
    have h4 : d2.index.length = t.index.index.length := by
      rw [hd2]; simpa using h1len
    simp only [List.length_append, List.length_cons] at h1
    omega
  obtain ⟨d5, r2, fids, hrun, hreuse5, hlen5, hfr5, hgm, hperm5⟩ :=
    mergeNodes_sim hg2l hg2r hndlr hsz
  have hlen5' : d5.index.length = t.index.index.length := by
    rw [hlen5, hd2]; simpa using h1len
  have hfidset : ∀ x : Nat, x ∈ fids ↔ x ∈ lids ∨ x ∈ rids := by
    intro x
    rw [hperm5.mem_iff]
    simp [List.mem_append]
  have hidset : ∀ x : Nat, x ∈ ids ↔ x ∈ lids ∨ x = j ∨ x ∈ rids := by
    intro x
    rw [← hperm.mem_iff]
    simp [List.mem_append, List.mem_cons]
  refine ⟨d5, r2, fids, ?_, ?_⟩
  · exact hrun
  refine WFc.mk' hgm (hperm5.nodup_iff.mpr hndlr) ?_ ?_ ?_ ?_
  · show d5.reuse.Nodup
    rw [hreuse5, hd2]
    simp only [DirectVecIndex.reuse_mk, h1reuse]
    exact List.nodup_cons.mpr ⟨h.ids_not_reuse j hjids, h.2.2.1⟩
  · intro i hi
    rw [hreuse5, hd2] at hi
    simp only [DirectVecIndex.reuse_mk, h1reuse] at hi
    have hifids : i ∉ fids := by
      intro hf
      rcases (hfidset i).mp hf with hf | hf
      · rcases List.mem_cons.mp hi with rfl | hi'
        · exact hjlids hf
        · exact h.ids_not_reuse i ((hidset i).mpr (Or.inl hf)) hi'
      · rcases List.mem_cons.mp hi with rfl | hi'
        · exact hjrids hf
        · exact h.ids_not_reuse i ((hidset i).mpr (Or.inr (Or.inr hf))) hi'
    have hfr5' := hfr5 i
      (fun hm => hifids ((hfidset i).mpr (Or.inl hm)))
      (fun hm => hifids ((hfidset i).mpr (Or.inr hm)))
    show d5.index[i]? = some none
    rw [hfr5', hd2]
    simp only [DirectVecIndex.index_mk]
    rcases List.mem_cons.mp hi with rfl | hi'
    · exact List.getElem?_set_self (by rw [h1len]; exact hjlen)
    · have hini : i ∉ ids := h.reuse_not_ids i hi'
      have hij : i ≠ j := fun hij => hini (by rw [hij]; exact hjids)
      rw [List.getElem?_set_ne (fun hji => hij hji.symm), h1fr i hini]
      exact h.2.2.2.1 i hi'
  · intro i hilen hfree
    have hifids : i ∉ fids := by
      intro hf
      obtain ⟨nd, hnd⟩ := hgm.live i hf
      rw [hnd] at hfree
      exact absurd hfree (by simp)
    rw [hreuse5, hd2]
    simp only [DirectVecIndex.reuse_mk, h1reuse]
    by_cases hij : i = j
    · rw [hij]; exact List.mem_cons_self j _
    have hini : i ∉ ids := by
      intro hin
      rcases (hidset i).mp hin with hf | hf | hf
      · exact hifids ((hfidset i).mpr (Or.inl hf))
      · exact hij hf
      · exact hifids ((hfidset i).mpr (Or.inr hf))
    rw [hfr5 i (fun hm => hifids ((hfidset i).mpr (Or.inl hm)))
      (fun hm => hifids ((hfidset i).mpr (Or.inr hm))), hd2] at hfree
    simp only [DirectVecIndex.index_mk] at hfree
    rw [List.getElem?_set_ne (fun hji => hij hji.symm), h1fr i hini] at hfree
    exact List.mem_cons_of_mem _
      (h.2.2.2.2.1 i (by rw [hlen5'] at hilen; exact hilen) hfree)
  · intro i hilen hocc
    by_contra hnin
    have hij : i ≠ j := by
      intro hij
      have hfr5' := hfr5 i
        (fun hm => hnin ((hfidset i).mpr (Or.inl hm)))
        (fun hm => hnin ((hfidset i).mpr (Or.inr hm)))
      rw [hfr5', hd2] at hocc
      simp only [DirectVecIndex.index_mk] at hocc
      rw [hij, List.getElem?_set_self (by rw [h1len]; exact hjlen)] at hocc
      exact hocc rfl
    have hini : i ∉ ids := by
      intro hin
      rcases (hidset i).mp hin with hf | hf | hf
      · exact hnin ((hfidset i).mpr (Or.inl hf))
      · exact hij hf
      · exact hnin ((hfidset i).mpr (Or.inr hf))
    have hfr5' := hfr5 i
      (fun hm => hnin ((hfidset i).mpr (Or.inl hm)))
      (fun hm => hnin ((hfidset i).mpr (Or.inr hm)))
    rw [hfr5', hd2] at hocc
    simp only [DirectVecIndex.index_mk] at hocc
    rw [List.getElem?_set_ne (fun hji => hij hji.symm), h1fr i hini] at hocc
    exact hini (h.2.2.2.2.2 i (by rw [hlen5'] at hilen; exact hilen) hocc)

/-- Merging with an empty right side returns the left handle unchanged. -/
theorem mergeNodes_none_right (fuel : Nat) (d : DirectVecIndex K P V)
    (lp : Option Nat) (hf : 0 < fuel) :
    Treap.mergeNodes fuel d lp none = .ok (d, lp) := by
  obtain ⟨f, rfl⟩ : ∃ f, fuel = f + 1 := ⟨fuel - 1, by omega⟩
  rw [Treap.mergeNodes]
  cases lp <;> simp

/-- Stage shared by the no-entry paths of `remove` and `prioritize`: merge
the two split parts back into a well-formed treap, nothing freed or
allocated. -/
theorem merge_stage {t : Treap K P V} {tr : Tree K P V} {ids : List Nat}
    (h : WFc t tr ids) {d1 : DirectVecIndex K P V}
    {lp rp : Option Nat} {sl sr : Tree K P V} {lids rids : List Nat}
    (h1reuse : d1.reuse = t.index.reuse)
    (h1len : d1.index.length = t.index.index.length)
    (h1fr : ∀ i, i ∉ ids → d1.index[i]? = t.index.index[i]?)
    (hgl : Gathers d1.index lp sl lids)
    (hgr : Gathers d1.index rp sr rids)
    (hperm : List.Perm (lids ++ rids) ids) :
    ∃ d5 r2 fids,
      Treap.mergeNodes (d1.index.length + 1) d1 lp rp = .ok (d5, r2) ∧
      WFc ⟨r2, d5⟩ (sl.mergeT sr) fids := by
  have hndlr : (lids ++ rids).Nodup := hperm.nodup_iff.mpr h.2.1
  have hsz : sl.size + sr.size < d1.index.length + 1 := by
    have h1 : (lids ++ rids).length ≤ t.index.index.length :=
      nodup_length_le hndlr (fun x hx =>
        h.gathers.bounded x (hperm.mem_iff.mp hx))
    have h2 := hgl.ids_length
    have h3 := hgr.ids_length
    simp only [List.length_append] at h1
    omega
  obtain ⟨d5, r2, fids, hrun, hreuse5, hlen5, hfr5, hgm, hperm5⟩ :=
    mergeNodes_sim hgl hgr hndlr hsz
  have hlen5' : d5.index.length = t.index.index.length := by
    rw [hlen5]; exact h1len
  have hfidset : ∀ x : Nat, x ∈ fids ↔ x ∈ ids := by
    intro x
    rw [hperm5.mem_iff, ← hperm.mem_iff]
  have hfrout : ∀ i, i ∉ ids → d5.index[i]? = t.index.index[i]? := by
    intro i hi
    have h1 : i ∉ lids := fun hm =>
      hi (hperm.mem_iff.mp (List.mem_append_left _ hm))
    have h2 : i ∉ rids := fun hm =>
      hi (hperm.mem_iff.mp (List.mem_append_right _ hm))
    rw [hfr5 i h1 h2]
    exact h1fr i hi
  refine ⟨d5, r2, fids, hrun, ?_⟩
  refine WFc.mk' hgm (hperm5.nodup_iff.mpr hndlr)
    (by rw [hreuse5, h1reuse]; exact h.2.2.1) ?_ ?_ ?_
  · intro i hi
    rw [hreuse5, h1reuse] at hi
    have hini : i ∉ ids := h.reuse_not_ids i hi
    show d5.index[i]? = some none
    rw [hfrout i hini]
    exact h.2.2.2.1 i hi
  · intro i hilen hfree
    have hifids : i ∉ fids := by
      intro hf
      obtain ⟨nd, hnd⟩ := hgm.live i hf
      rw [hnd] at hfree
      exact absurd hfree (by simp)
    have hini : i ∉ ids := fun hin => hifids ((hfidset i).mpr hin)
    rw [hfrout i hini] at hfree
    rw [hreuse5, h1reuse]
    exact h.2.2.2.2.1 i (by rw [hlen5'] at hilen; exact hilen) hfree
  · intro i hilen hocc
    by_contra hnin
    have hini : i ∉ ids := fun hin => hnin ((hfidset i).mpr hin)
    rw [hfrout i hini] at hocc
    exact hnin ((hfidset i).mpr
      (h.2.2.2.2.2 i (by rw [hlen5'] at hilen; exact hilen) hocc))

/-- Full behaviour of `Treap::remove` on a well-formed treap. -/
theorem remove_spec {t : Treap K P V} {tr : Tree K P V} {ids : List Nat}
    (h : WFc t tr ids) (key : K) :
    ∃ tr' ids',
      WFc (t.remove key).1 tr' ids' ∧
      tr' = (tr.splitT key).1.mergeT (tr.splitT key).2.2 ∧
      (t.remove key).2 =
        some (.ok ((tr.splitT key).2.1.map fun e => (e.2.1, e.2.2))) := by
  obtain ⟨spl, lids, rids, hsplit, hsreuse, hslen, hsfr, hgl, hgr, hlive,
    hcase⟩ := split_spec h key
  rcases hcase with ⟨hse, hep, hperm⟩ | ⟨e, j, hse, hep, hslot, hperm⟩
  · obtain ⟨d5, r2, fids, hrun, hwf⟩ :=
      merge_stage h hsreuse hslen hsfr hgl hgr hperm
    have he1 : spl.index.removeOk spl.entry = (spl.index, none) := by
      rw [hep]; rfl
    have hres : t.remove key = (⟨r2, d5⟩, some (.ok none)) := by
      simp only [Treap.remove, hsplit, Res.bind_eq, Res.bind_ok, he1, hrun,
        Res.pure_eq, Treap.publish, Option.map_none']
    exact ⟨_, fids, by rw [hres]; exact hwf, rfl, by rw [hres, hse]; rfl⟩
  · have he1 : spl.index.removeOk spl.entry =
        (⟨j :: spl.index.reuse, spl.index.index.set j none⟩,
          some ⟨e.1, e.2.1, e.2.2, none, none⟩) := by
      rw [hep, DirectVecIndex.removeOk_some hslot]
    obtain ⟨d5, r2, fids, hrun, hwf⟩ :=
      free_merge_stage h hsreuse hslen hsfr hgl hgr hperm
    have hres : t.remove key =
        (⟨r2, d5⟩, some (.ok (some (e.2.1, e.2.2)))) := by
      simp only [Treap.remove, hsplit, Res.bind_eq, Res.bind_ok, he1,
        DirectVecIndex.index_mk, DirectVecIndex.reuse_mk, hrun,
        Res.pure_eq, Treap.publish, Option.map_some']
    exact ⟨_, fids, by rw [hres]; exact hwf, rfl, by rw [hres, hse]; rfl⟩

/-- Full behaviour of `Treap::prioritize` on a well-formed treap. -/
theorem prioritize_spec {t : Treap K P V} {tr : Tree K P V} {ids : List Nat}
    (h : WFc t tr ids) (key : K) (newP : P) :
    ∃ tr' ids',
      WFc (t.prioritize key newP).1 tr' ids' ∧
      tr' = (match (tr.splitT key).2.1 with
        | some e => ((tr.splitT key).1.mergeT
            (.node e.1 newP e.2.2 .leaf .leaf)).mergeT (tr.splitT key).2.2
        | none => (tr.splitT key).1.mergeT (tr.splitT key).2.2) ∧
      (t.prioritize key newP).2 =
        some (.ok ((tr.splitT key).2.1.map fun e => e.2.1)) := by
  obtain ⟨spl, lids, rids, hsplit, hsreuse, hslen, hsfr, hgl, hgr, hlive,
    hcase⟩ := split_spec h key
  rcases hcase with ⟨hse, hep, hperm⟩ | ⟨e, j, hse, hep, hslot, hperm⟩
  · obtain ⟨d5, r2, fids, hrun, hwf⟩ :=
      merge_stage h hsreuse hslen hsfr hgl hgr hperm
    have he1 : spl.index.removeOk spl.entry = (spl.index, none) := by
      rw [hep]; rfl
    have hnone := mergeNodes_none_right (spl.index.index.length + 1)
      spl.index spl.left (by omega)
    have hres : t.prioritize key newP = (⟨r2, d5⟩, some (.ok none)) := by
      simp only [Treap.prioritize, hsplit, Res.bind_eq, Res.bind_ok, he1,
        hnone, hrun, Res.pure_eq, Treap.publish]
    refine ⟨_, fids, by rw [hres]; exact hwf, by rw [hse], by rw [hres, hse]; rfl⟩
  · have he1 : spl.index.removeOk spl.entry =
        (⟨j :: spl.index.reuse, spl.index.index.set j none⟩,
          some ⟨e.1, e.2.1, e.2.2, none, none⟩) := by
      rw [hep, DirectVecIndex.removeOk_some hslot]
    obtain ⟨d3, d4, r1, d5, r2, fids, he1', he2, hd3eq, hm1, hm2, hwf⟩ :=
      replace_pipeline h hsreuse hslen hsfr hgl hgr hep hslot hperm
        ⟨e.1, newP, e.2.2, none, none⟩ rfl rfl
    have hres : t.prioritize key newP =
        (⟨r2, d5⟩, some (.ok (some e.2.1))) := by
      simp only [Treap.prioritize, hsplit, Res.bind_eq, Res.bind_ok, he1,
        he2, hm1, hm2, Res.pure_eq, Treap.publish]
    refine ⟨_, fids, by rw [hres]; exact hwf, by rw [hse], by rw [hres, hse]; rfl⟩

/-- Full behaviour of `Treap::pop` on a well-formed treap. -/
theorem pop_spec {t : Treap K P V} {tr : Tree K P V} {ids : List Nat}
    (h : WFc t tr ids) :
    (tr = .leaf → t.pop = (t, some (.ok none))) ∧
    (∀ k pr v lt rt, tr = .node k pr v lt rt →
      ∃ tr' ids', WFc (t.pop).1 tr' ids' ∧ tr' = lt.mergeT rt ∧
        (t.pop).2 = some (.ok (some (k, pr, v)))) := by
  constructor
  · intro hleaf
    subst hleaf
    obtain ⟨hroot, -⟩ := Gathers_leaf_inv h.gathers
    rw [Treap.pop, hroot]
    simp
  · intro k pr v lt rt hnode
    subst hnode
    obtain ⟨i, nd, ls, rs, hroot, ha, hk, hp, hv, hglt, hgrt, hids⟩ :=
      Gathers_node_inv h.gathers
    have hremove := DirectVecIndex.removeNode_eq_ok ha
    have hpermids : List.Perm (ls ++ i :: rs) ids := by
      rw [hids]
      exact List.perm_middle
    obtain ⟨d5, r2, fids, hrun, hwf⟩ :=
      free_merge_stage h (rfl : t.index.reuse = t.index.reuse)
      (rfl : t.index.index.length = t.index.index.length) (fun _ _ => rfl)
        hglt hgrt hpermids
    refine ⟨lt.mergeT rt, fids, ?_, rfl, ?_⟩
    · have : (t.pop).1 = ⟨r2, d5⟩ := by
        rw [Treap.pop, hroot]
        simp only [Option.isNone_some, Bool.false_eq_true, if_false,
          hremove, DirectVecIndex.index_mk, DirectVecIndex.reuse_mk, hrun]
      rw [this]
      exact hwf
    · rw [Treap.pop, hroot]
      simp only [Option.isNone_some, Bool.false_eq_true, if_false,
        hremove, DirectVecIndex.index_mk, DirectVecIndex.reuse_mk, hrun]
      rw [hk, hp, hv]

end Pipelines

/-! Tree-level reading of `cut`. -/

namespace Tree

variable {K P V : Type} [LinearOrder K] [LinearOrder P]

@[simp] theorem checkT_leaf (p : P) : checkT p (.leaf : Tree K P V) = none :=
  rfl

theorem cutT_entries (p : P) {t : Tree K P V} (hh : t.HeapInv) :
    (cutT p t).entries = t.entries.filter fun e => !decide (e.2.1 < p) := by
  induction t with
  | leaf => simp [cutT, checkT]
  | node k q v l r ihl ihr =>
    obtain ⟨hl, hr, hhl, hhr⟩ := hh
    by_cases hq : q < p
    · have hall : ∀ e ∈ (Tree.node k q v l r).entries, e.2.1 < p := by
        intro e he
        have h1 : e.2.1 ∈ (Tree.node k q v l r).priorities :=
          mem_priorities_of_mem_entries he
        have hhh : (Tree.node k q v l r).HeapInv := ⟨hl, hr, hhl, hhr⟩
        have h2 : e.2.1 ≤ q :=
          HeapInv.priorities_le hhh e.2.1 h1 q (by simp)
        exact lt_of_le_of_lt h2 hq
      rw [cutT, checkT, if_pos hq]
      simp only [Option.getD_none, entries_leaf]
      symm
      rw [List.filter_eq_nil_iff]
      intro e he
      simp [hall e he]
    · rw [cutT, checkT, if_neg hq]
      simp only [Option.getD_some, entries_node, List.filter_append]
      rw [show ((checkT p l).getD .leaf : Tree K P V) = cutT p l from rfl,
        show ((checkT p r).getD .leaf : Tree K P V) = cutT p r from rfl,
        ihl hhl, ihr hhr]
      simp [hq]

theorem cutT_keys_sub (p : P) (t : Tree K P V) :
    ∀ x ∈ (cutT p t).keys, x ∈ t.keys := by
  induction t with
  | leaf => simp [cutT, checkT]
  | node k q v l r ihl ihr =>
    by_cases hq : q < p
    · rw [cutT, checkT, if_pos hq]
      simp
    · rw [cutT, checkT, if_neg hq]
      intro x hx
      simp only [Option.getD_some, keys_node, List.mem_append,
        List.mem_cons] at hx ⊢
      rcases hx with hx | rfl | hx
      · exact Or.inl (ihl x (by rw [cutT]; exact hx))
      · exact Or.inr (Or.inl rfl)
      · exact Or.inr (Or.inr (ihr x (by rw [cutT]; exact hx)))

theorem cutT_bst (p : P) {t : Tree K P V} (hb : t.BSTInv) :
    (cutT p t).BSTInv := by
  induction t with
  | leaf => simp [cutT, checkT]
  | node k q v l r ihl ihr =>
    obtain ⟨hl, hr, hbl, hbr⟩ := hb
    by_cases hq : q < p
    · rw [cutT, checkT, if_pos hq]
      simp
    · rw [cutT, checkT, if_neg hq]
      refine ⟨?_, ?_, ?_, ?_⟩
      · intro x hx
        exact hl x (cutT_keys_sub p l x (by rw [cutT]; exact hx))
      · intro x hx
        exact hr x (cutT_keys_sub p r x (by rw [cutT]; exact hx))
      · exact ihl hbl
      · exact ihr hbr

theorem cutT_root (p : P) (t : Tree K P V) :
    ∀ q ∈ (cutT p t).rootPriority, q ∈ t.rootPriority := by
  cases t with
  | leaf => simp [cutT, checkT]
  | node k q v l r =>
    by_cases hq : q < p
    · rw [cutT, checkT, if_pos hq]
      simp
    · rw [cutT, checkT, if_neg hq]
      simp

theorem cutT_heap (p : P) {t : Tree K P V} (hh : t.HeapInv) :
    (cutT p t).HeapInv := by
  induction t with
  | leaf => simp [cutT, checkT]
  | node k q v l r ihl ihr =>
    obtain ⟨hl, hr, hhl, hhr⟩ := hh
    by_cases hq : q < p
    · rw [cutT, checkT, if_pos hq]
      simp
    · rw [cutT, checkT, if_neg hq]
      refine ⟨?_, ?_, ihl hhl, ihr hhr⟩
      · intro x hx
        exact hl x (cutT_root p l x (by rw [cutT]; exact hx))
      · intro x hx
        exact hr x (cutT_root p r x (by rw [cutT]; exact hx))

end Tree

section CutSim

variable {K P V : Type} [LinearOrder K] [LinearOrder P]

theorem dropNode_sim {st : Tree K P V} :
    ∀ {d : DirectVecIndex K P V} {ptr : Option Nat} {sids : List Nat}
      {fuel : Nat},
      Gathers d.index ptr st sids → sids.Nodup → st.height < fuel →
      ∃ d' fr,
        Treap.dropNode fuel d ptr = .ok d' ∧
        d'.index.length = d.index.length ∧
        d'.reuse = fr ++ d.reuse ∧
        List.Perm fr sids ∧
        (∀ j, j ∉ sids → d'.index[j]? = d.index[j]?) ∧
        (∀ j ∈ sids, d'.index[j]? = some none) := by
  induction st with
  | leaf =>
    intro d ptr sids fuel hg hnd hf
    obtain ⟨rfl, rfl⟩ := Gathers_leaf_inv hg
    obtain ⟨f, rfl⟩ : ∃ f, fuel = f + 1 := ⟨fuel - 1, by omega⟩
    refine ⟨d, [], ?_, rfl, rfl, by simp, fun j _ => rfl, by simp⟩
    rw [Treap.dropNode]
    simp
  | node k q v l r ihl ihr =>
    intro d ptr sids fuel hg hnd hf
    obtain ⟨i, nd, ls, rs, rfl, ha, hk, hp, hv, hgl, hgr, rfl⟩ :=
      Gathers_node_inv hg
    have hi_lsrs : i ∉ ls ++ rs := (List.nodup_cons.mp hnd).1
    have hi_ls : i ∉ ls := fun h => hi_lsrs (List.mem_append_left _ h)
    have hi_rs : i ∉ rs := fun h => hi_lsrs (List.mem_append_right _ h)
    have hlsrs := (List.nodup_cons.mp hnd).2
    have hls : ls.Nodup := (List.nodup_append.mp hlsrs).1
    have hrs : rs.Nodup := (List.nodup_append.mp hlsrs).2.1
    have hdisj : ls.Disjoint rs := (List.nodup_append.mp hlsrs).2.2
    obtain ⟨f, rfl⟩ : ∃ f, fuel = f + 1 := ⟨fuel - 1, by omega⟩
    have hfl : l.height < f := by simp at hf; omega
    have hfr : r.height < f := by simp at hf; omega
    have hremove := DirectVecIndex.removeNode_eq_ok ha
    have hilen : i < d.index.length := getElem?_lt ha
    have hg2l : Gathers (DirectVecIndex.mk (i :: d.reuse)
        (d.index.set i none) : DirectVecIndex K P V).index nd.left l ls :=
      hgl.frame fun j hj =>
        List.getElem?_set_ne (fun hji => hi_ls (by rw [hji]; exact hj))
    obtain ⟨d3, frl, hrunl, hlen3, hreuse3, hperml, hfr3, hfree3⟩ :=
      ihl hg2l hls hfl
    have hg3r : Gathers d3.index nd.right r rs := by
      have h1 : Gathers (d.index.set i none) nd.right r rs :=
        hgr.frame fun j hj =>
          List.getElem?_set_ne (fun hji => hi_rs (by rw [hji]; exact hj))
      exact h1.frame fun j hj => hfr3 j (fun hm => hdisj hm hj)
    obtain ⟨d4, frr, hrunr, hlen4, hreuse4, hpermr, hfr4, hfree4⟩ :=
      ihr hg3r hrs hfr
    refine ⟨d4, frr ++ frl ++ [i], ?_, ?_, ?_, ?_, ?_, ?_⟩
    · rw [Treap.dropNode]
      simp only [Option.isNone_some, Bool.false_eq_true, if_false,
        hremove, ofExcept_ok, Res.bind_eq, Res.bind_ok]
      rw [hrunl]
      simp only [Res.bind_eq, Res.bind_ok]
      exact hrunr
    · rw [hlen4, hlen3]
      simp
    · rw [hreuse4, hreuse3]
      simp
    · rw [List.perm_iff_count]
      intro x
      have hc1 := hperml.count_eq x
      have hc2 := hpermr.count_eq x
      simp only [List.count_append, List.count_cons, List.count_singleton,
        List.count_nil] at hc1 hc2 ⊢
      omega
    · intro j hj
      have hji : j ≠ i := fun h => hj (by rw [h]; simp)
      have hjls : j ∉ ls := fun h =>
        hj (List.mem_cons_of_mem _ (List.mem_append_left _ h))
      have hjrs : j ∉ rs := fun h =>
        hj (List.mem_cons_of_mem _ (List.mem_append_right _ h))
      rw [hfr4 j hjrs, hfr3 j hjls]
      simp only [DirectVecIndex.index_mk]
      exact List.getElem?_set_ne (fun hij => hji hij.symm)
    · intro j hj
      rcases List.mem_cons.mp hj with rfl | hj'
      · rw [hfr4 j hi_rs, hfr3 j hi_ls]
        simp only [DirectVecIndex.index_mk]
        exact List.getElem?_set_self (by simpa using hilen)
      rcases List.mem_append.mp hj' with hjl | hjr
      · rw [hfr4 j (fun hm => hdisj hjl hm)]
        exact hfree3 j hjl
      · exact hfree4 j hjr

theorem checkNode_sim {p : P} {st : Tree K P V} :
    ∀ {d : DirectVecIndex K P V} {ptr : Option Nat} {sids : List Nat}
      {fuel : Nat},
      Gathers d.index ptr st sids → sids.Nodup → st.height < fuel →
      ∃ d' fr kids,
        Treap.checkNode fuel d ptr p = .ok (d', (Tree.checkT p st).isNone) ∧
        d'.index.length = d.index.length ∧
        d'.reuse = fr ++ d.reuse ∧
        (∀ j, j ∉ sids → d'.index[j]? = d.index[j]?) ∧
        (∀ j ∈ fr, d'.index[j]? = some none) ∧
        List.Perm (fr ++ kids) sids ∧
        (match Tree.checkT p st with
          | none => kids = []
          | some t' => Gathers d'.index ptr t' kids) := by
  induction st with
  | leaf =>
    intro d ptr sids fuel hg hnd hf
    obtain ⟨rfl, rfl⟩ := Gathers_leaf_inv hg
    obtain ⟨f, rfl⟩ : ∃ f, fuel = f + 1 := ⟨fuel - 1, by omega⟩
    refine ⟨d, [], [], ?_, rfl, rfl, fun j _ => rfl, by simp, by simp, rfl⟩
    rw [Treap.checkNode]
    simp [Tree.checkT]
  | node k q v l r ihl ihr =>
    intro d ptr sids fuel hg hnd hf
    obtain ⟨i, nd, ls, rs, rfl, ha, hk, hp, hv, hgl, hgr, rfl⟩ :=
      Gathers_node_inv hg
    have hi_lsrs : i ∉ ls ++ rs := (List.nodup_cons.mp hnd).1
    have hi_ls : i ∉ ls := fun h => hi_lsrs (List.mem_append_left _ h)
    have hi_rs : i ∉ rs := fun h => hi_lsrs (List.mem_append_right _ h)
    have hlsrs := (List.nodup_cons.mp hnd).2
    have hls : ls.Nodup := (List.nodup_append.mp hlsrs).1
    have hrs : rs.Nodup := (List.nodup_append.mp hlsrs).2.1
    have hdisj : ls.Disjoint rs := (List.nodup_append.mp hlsrs).2.2
    obtain ⟨f, rfl⟩ : ∃ f, fuel = f + 1 := ⟨fuel - 1, by omega⟩
    have hfl : l.height < f := by simp at hf; omega
    have hfrh : r.height < f := by simp at hf; omega
    have hilen : i < d.index.length := getElem?_lt ha
    by_cases hq : nd.priority < p
    · -- the whole subtree is below the threshold and gets dropped
      have hq' : q < p := by rw [← hp]; exact hq
      obtain ⟨d', fr, hrun, hlen', hreuse', hperm', hfr', hfree'⟩ :=
        dropNode_sim hg hnd hf
      refine ⟨d', fr, [], ?_, hlen', hreuse', hfr',
        (fun j hj => hfree' j (hperm'.mem_iff.mp hj)),
        by simpa using hperm', by simp [Tree.checkT, hq']⟩
      rw [Treap.checkNode]
      simp only [Option.isNone_some, Bool.false_eq_true, if_false,
        DirectVecIndex.get_eq_ok ha, ofExcept_ok, Res.bind_eq, Res.bind_ok]
      rw [if_pos hq, hrun]
      simp [Tree.checkT, hq']
    · have hq' : ¬ q < p := by rw [← hp]; exact hq
      obtain ⟨d1, fr1, kl, hrun1, hlen1, hreuse1, hfr1, hfree1, hperm1,
        hmatch1⟩ := ihl hgl hls hfl
      have hd1i : d1.index[i]? = some (some nd) := by
        rw [hfr1 i hi_ls]; exact ha
    -- after the left check the slot of this node holds `nd` with its left
    -- pointer possibly cleared; we handle the two cases uniformly below
      rcases hcl : Tree.checkT p l with _ | tl' <;>
        rw [hcl] at hrun1 hmatch1
      · -- left child dropped, its pointer is cleared
        subst hmatch1
        have hmod1 := DirectVecIndex.modifyNode_eq_ok hd1i
          (fun nd => { nd with left := none })
        have hfr1' : ∀ j, j ∉ ls → j ≠ i →
            (d1.index.set i (some { nd with left := none }))[j]? =
            d.index[j]? := by
          intro j hj hji
          rw [List.getElem?_set_ne (fun h => hji h.symm)]
          exact hfr1 j hj
        have hg2r : Gathers (DirectVecIndex.mk d1.reuse
            (d1.index.set i (some { nd with left := none }))
            : DirectVecIndex K P V).index nd.right r rs := by
          refine hgr.frame fun j hj => hfr1' j (fun hm => hdisj hm hj)
            (fun hm => hi_rs (hm ▸ hj))
        obtain ⟨d3, fr3, kr, hrun3, hlen3, hreuse3, hfr3, hfree3, hperm3,
          hmatch3⟩ := ihr hg2r hrs hfrh
        have hd3i : d3.index[i]? = some (some { nd with left := none }) := by
          rw [hfr3 i hi_rs]
          simp only [DirectVecIndex.index_mk]
          exact List.getElem?_set_self (by rw [hlen1]; simpa using hilen)
        rcases hcr : Tree.checkT p r with _ | tr' <;>
          rw [hcr] at hrun3 hmatch3
        · -- right child dropped as well
          subst hmatch3
          have hmod2 := DirectVecIndex.modifyNode_eq_ok hd3i
            (fun nd => { nd with right := none })
          have hval : ({ nd with left := none } : Node K P V).right = nd.right :=
            rfl
          refine ⟨⟨d3.reuse, d3.index.set i
              (some { nd with left := none, right := none })⟩,
            fr3 ++ fr1, [i], ?_, ?_, ?_, ?_, ?_, ?_, ?_⟩
          · rw [Treap.checkNode]
            simp only [Option.isNone_some, Bool.false_eq_true, if_false,
              DirectVecIndex.get_eq_ok ha, ofExcept_ok, Res.bind_eq,
              Res.bind_ok]
            rw [if_neg hq, hrun1]
            simp only [Res.bind_eq, Res.bind_ok, Option.isNone_none,
              if_true, hmod1, ofExcept_ok]
            rw [hrun3]
            simp only [Res.bind_eq, Res.bind_ok, if_true, hmod2, ofExcept_ok,
              Res.pure_eq, Tree.checkT, if_neg hq']
            rfl
          · simp only [DirectVecIndex.index_mk, List.length_set]
            rw [hlen3]
            simp only [DirectVecIndex.index_mk, List.length_set]
            exact hlen1
          · simp only [DirectVecIndex.reuse_mk]
            rw [hreuse3]
            simp only [DirectVecIndex.reuse_mk]
            rw [hreuse1, List.append_assoc]
          · intro j hj
            have hji : j ≠ i := fun h => hj (by rw [h]; simp)
            have hjls : j ∉ ls := fun h =>
              hj (List.mem_cons_of_mem _ (List.mem_append_left _ h))
            have hjrs : j ∉ rs := fun h =>
              hj (List.mem_cons_of_mem _ (List.mem_append_right _ h))
            simp only [DirectVecIndex.index_mk]
            rw [List.getElem?_set_ne (fun h => hji h.symm), hfr3 j hjrs]
            exact hfr1' j hjls hji
          · intro j hj
            have hji : j ≠ i := by
              intro hji
              subst hji
              rcases List.mem_append.mp hj with hm | hm
              · exact hi_rs (hperm3.mem_iff.mp (List.mem_append_left _ hm))
              · exact hi_ls (hperm1.mem_iff.mp (List.mem_append_left _ hm))
            simp only [DirectVecIndex.index_mk]
            rw [List.getElem?_set_ne (fun h => hji h.symm)]
            rcases List.mem_append.mp hj with hm | hm
            · exact hfree3 j hm
            · have hjls : j ∈ ls :=
                hperm1.mem_iff.mp (List.mem_append_left _ hm)
              rw [hfr3 j (fun h2 => hdisj hjls h2)]
              simp only [DirectVecIndex.index_mk]
              rw [List.getElem?_set_ne (fun h => hji h.symm)]
              exact hfree1 j hm
          · rw [List.perm_iff_count]
            intro x
            have hc1 := hperm1.count_eq x
            have hc3 := hperm3.count_eq x
            simp only [List.count_append, List.count_cons, List.count_nil,
              List.count_singleton] at hc1 hc3 ⊢
            omega
          · simp only [Tree.checkT, if_neg hq', hcl, hcr, Option.getD_none]
            have hslot' : ((d3.index.set i
                (some { nd with left := none, right := none })))[i]? =
                some (some (⟨nd.key, nd.priority, nd.value, none, none⟩ :
                  Node K P V)) :=
              List.getElem?_set_self (by
                rw [hlen3]
                simp only [DirectVecIndex.index_mk, List.length_set]
                rw [hlen1]; simpa using hilen)
            have hsingle := Gathers_single' hslot'
            have he : Tree.node
                nd.key nd.priority nd.value .leaf .leaf =
                Tree.node k q v .leaf .leaf := by rw [hk, hp, hv]
            rw [← he]
            exact hsingle
        · -- right child kept
          refine ⟨d3, fr3 ++ fr1, i :: kr, ?_, ?_, ?_, ?_, ?_, ?_, ?_⟩
          · rw [Treap.checkNode]
            simp only [Option.isNone_some, Bool.false_eq_true, if_false,
              DirectVecIndex.get_eq_ok ha, ofExcept_ok, Res.bind_eq,
              Res.bind_ok]
            rw [if_neg hq, hrun1]
            simp only [Res.bind_eq, Res.bind_ok, Option.isNone_none,
              if_true, hmod1, ofExcept_ok]
            rw [hrun3]
            simp only [Res.bind_eq, Res.bind_ok, Option.isNone_some,
              Bool.false_eq_true, if_false, Res.pure_eq, Tree.checkT,
              if_neg hq']
          · rw [hlen3]
            simp only [DirectVecIndex.index_mk, List.length_set]
            exact hlen1
          · rw [hreuse3]
            simp only [DirectVecIndex.reuse_mk]
            rw [hreuse1, List.append_assoc]
          · intro j hj
            have hji : j ≠ i := fun h => hj (by rw [h]; simp)
            have hjls : j ∉ ls := fun h =>
              hj (List.mem_cons_of_mem _ (List.mem_append_left _ h))
            have hjrs : j ∉ rs := fun h =>
              hj (List.mem_cons_of_mem _ (List.mem_append_right _ h))
            rw [hfr3 j hjrs]
            exact hfr1' j hjls hji
          · intro j hj
            rcases List.mem_append.mp hj with hm | hm
            · exact hfree3 j hm
            · have hjls : j ∈ ls :=
                hperm1.mem_iff.mp (List.mem_append_left _ hm)
              have hji : j ≠ i := fun h => hi_ls (h ▸ hjls)
              rw [hfr3 j (fun h2 => hdisj hjls h2)]
              simp only [DirectVecIndex.index_mk]
              rw [List.getElem?_set_ne (fun h => hji h.symm)]
              exact hfree1 j hm
          · rw [List.perm_iff_count]
            intro x
            have hc1 := hperm1.count_eq x
            have hc3 := hperm3.count_eq x
            simp only [List.count_append, List.count_cons, List.count_nil,
              List.count_singleton] at hc1 hc3 ⊢
            omega
          · simp only [Tree.checkT, if_neg hq', hcl, hcr, Option.getD_none,
              Option.getD_some]
            have hgr' : Gathers d3.index
                ({ nd with left := none } : Node K P V).right tr' kr :=
              hmatch3
            have hgl' : Gathers d3.index
                ({ nd with left := none } : Node K P V).left Tree.leaf [] :=
              Gathers_none
            have := Gathers.node'
              hd3i hgl' hgr'
            have he : Tree.node
                nd.key nd.priority nd.value .leaf tr' =
                Tree.node k q v .leaf tr' := by rw [hk, hp, hv]
            rw [← he]
            simpa using this
      · -- left child kept
        rcases hcr : Tree.checkT p r with _ | tr'
        · -- right child dropped
          have hg1r : Gathers d1.index nd.right r rs :=
            hgr.frame fun j hj => hfr1 j (fun hm => hdisj hm hj)
          obtain ⟨d3, fr3, kr, hrun3, hlen3, hreuse3, hfr3, hfree3, hperm3,
            hmatch3⟩ := ihr hg1r hrs hfrh
          rw [hcr] at hrun3 hmatch3
          subst hmatch3
          have hd3i : d3.index[i]? = some (some nd) := by
            rw [hfr3 i hi_rs]; exact hd1i
          have hmod2 := DirectVecIndex.modifyNode_eq_ok hd3i
            (fun nd => { nd with right := none })
          refine ⟨⟨d3.reuse, d3.index.set i (some { nd with right := none })⟩,
            fr3 ++ fr1, i :: kl, ?_, ?_, ?_, ?_, ?_, ?_, ?_⟩
          · rw [Treap.checkNode]
            simp only [Option.isNone_some, Bool.false_eq_true, if_false,
              DirectVecIndex.get_eq_ok ha, ofExcept_ok, Res.bind_eq,
              Res.bind_ok]
            rw [if_neg hq, hrun1]
            simp only [Res.bind_eq, Res.bind_ok, Option.isNone_some,
              Bool.false_eq_true, if_false, Res.pure_eq]
            rw [hrun3]
            simp only [Res.bind_eq, Res.bind_ok, Option.isNone_none, if_true,
              hmod2, ofExcept_ok, Res.pure_eq, Tree.checkT, if_neg hq']
            rfl
          · simp only [DirectVecIndex.index_mk, List.length_set]
            rw [hlen3, hlen1]
          · simp only [DirectVecIndex.reuse_mk]
            rw [hreuse3, hreuse1, List.append_assoc]
          · intro j hj
            have hji : j ≠ i := fun h => hj (by rw [h]; simp)
            have hjls : j ∉ ls := fun h =>
              hj (List.mem_cons_of_mem _ (List.mem_append_left _ h))
            have hjrs : j ∉ rs := fun h =>
              hj (List.mem_cons_of_mem _ (List.mem_append_right _ h))
            simp only [DirectVecIndex.index_mk]
            rw [List.getElem?_set_ne (fun h => hji h.symm), hfr3 j hjrs]
            exact hfr1 j hjls
          · intro j hj
            have hji : j ≠ i := by
              intro hji
              subst hji
              rcases List.mem_append.mp hj with hm | hm
              · exact hi_rs (hperm3.mem_iff.mp (List.mem_append_left _ hm))
              · exact hi_ls (hperm1.mem_iff.mp (List.mem_append_left _ hm))
            simp only [DirectVecIndex.index_mk]
            rw [List.getElem?_set_ne (fun h => hji h.symm)]
            rcases List.mem_append.mp hj with hm | hm
            · exact hfree3 j hm
            · have hjls : j ∈ ls :=
                hperm1.mem_iff.mp (List.mem_append_left _ hm)
              rw [hfr3 j (fun h2 => hdisj hjls h2)]
              exact hfree1 j hm
          · rw [List.perm_iff_count]
            intro x
            have hc1 := hperm1.count_eq x
            have hc3 := hperm3.count_eq x
            simp only [List.count_append, List.count_cons, List.count_nil,
              List.count_singleton] at hc1 hc3 ⊢
            omega
          · simp only [Tree.checkT, if_neg hq', hcl, hcr, Option.getD_none,
              Option.getD_some]
            have hgl' : Gathers (d3.index.set i
                (some { nd with right := none })) nd.left tl' kl := by
              have h0 : Gathers d3.index nd.left tl' kl := by
                refine hmatch1.frame fun j hj => hfr3 j (fun hm => ?_)
                exact hdisj (hperm1.mem_iff.mp (List.mem_append_right _ hj)) hm
              refine h0.frame fun j hj => List.getElem?_set_ne fun hji => ?_
              exact hi_ls (by
                rw [hji]
                exact hperm1.mem_iff.mp (List.mem_append_right _ hj))
            have hgr' : Gathers (d3.index.set i
                (some { nd with right := none })) (none : Option Nat)
                Tree.leaf [] := Gathers_none
            have hd4i : (d3.index.set i
                (some { nd with right := none }))[i]? =
                some (some { nd with right := none }) :=
              List.getElem?_set_self (by rw [hlen3, hlen1]; simpa using hilen)
            have := Gathers.node'
              hd4i hgl' hgr'
            have he : Tree.node
                nd.key nd.priority nd.value tl' .leaf =
                Tree.node k q v tl' .leaf := by rw [hk, hp, hv]
            rw [← he]
            simpa using this
        · -- both children kept
          have hg1r : Gathers d1.index nd.right r rs :=
            hgr.frame fun j hj => hfr1 j (fun hm => hdisj hm hj)
          obtain ⟨d3, fr3, kr, hrun3, hlen3, hreuse3, hfr3, hfree3, hperm3,
            hmatch3⟩ := ihr hg1r hrs hfrh
          rw [hcr] at hrun3 hmatch3
          have hd3i : d3.index[i]? = some (some nd) := by
            rw [hfr3 i hi_rs]; exact hd1i
          refine ⟨d3, fr3 ++ fr1, i :: (kl ++ kr), ?_, ?_, ?_, ?_, ?_, ?_, ?_⟩
          · rw [Treap.checkNode]
            simp only [Option.isNone_some, Bool.false_eq_true, if_false,
              DirectVecIndex.get_eq_ok ha, ofExcept_ok, Res.bind_eq,
              Res.bind_ok]
            rw [if_neg hq, hrun1]
            simp only [Res.bind_eq, Res.bind_ok, Option.isNone_some,
              Bool.false_eq_true, if_false, Res.pure_eq]
            rw [hrun3]
            simp only [Res.bind_eq, Res.bind_ok, Option.isNone_some,
              Bool.false_eq_true, if_false, Res.pure_eq, Tree.checkT,
              if_neg hq']
          · rw [hlen3, hlen1]
          · rw [hreuse3, hreuse1, List.append_assoc]
          · intro j hj
            have hjls : j ∉ ls := fun h =>
              hj (List.mem_cons_of_mem _ (List.mem_append_left _ h))
            have hjrs : j ∉ rs := fun h =>
              hj (List.mem_cons_of_mem _ (List.mem_append_right _ h))
            rw [hfr3 j hjrs]
            exact hfr1 j hjls
          · intro j hj
            rcases List.mem_append.mp hj with hm | hm
            · exact hfree3 j hm
            · have hjls : j ∈ ls :=
                hperm1.mem_iff.mp (List.mem_append_left _ hm)
              rw [hfr3 j (fun h2 => hdisj hjls h2)]
              exact hfree1 j hm
          · rw [List.perm_iff_count]
            intro x
            have hc1 := hperm1.count_eq x
            have hc3 := hperm3.count_eq x
            simp only [List.count_append, List.count_cons, List.count_nil,
              List.count_singleton] at hc1 hc3 ⊢
            omega
          · simp only [Tree.checkT, if_neg hq', hcl, hcr, Option.getD_some]
            have hgl' : Gathers d3.index nd.left tl' kl := by
              refine hmatch1.frame fun j hj => hfr3 j (fun hm => ?_)
              exact hdisj (hperm1.mem_iff.mp (List.mem_append_right _ hj)) hm
            have := Gathers.node' hd3i hgl' hmatch3
            have he : Tree.node
                nd.key nd.priority nd.value tl' tr' =
                Tree.node k q v tl' tr' := by rw [hk, hp, hv]
            rw [← he]
            exact this

/-- Packaged simulation of `Treap::cut` on a well-formed treap: the run
succeeds and the surviving configuration is well formed with abstract tree
`Tree.cutT p tr`. -/
theorem cut_spec {t : Treap K P V} {tr : Tree K P V} {ids : List Nat}
    (h : WFc t tr ids) (p : P) :
    ∃ t' kids, t.cut p = (t', some (.ok ())) ∧
      WFc t' (Tree.cutT p tr) kids := by
  have hg := h.gathers
  have hnd : ids.Nodup := h.2.1
  have hheight : tr.height < t.index.index.length + 1 := by
    have h1 := Tree.height_le_size tr
    have h2 := hg.ids_length
    have h3 := nodup_length_le hnd hg.bounded
    omega
  obtain ⟨d', fr, kids, hrun, hlen', hreuse', hfr', hfree', hperm', hmatch⟩ :=
    checkNode_sim hg hnd hheight
  have hfrsub : ∀ j ∈ fr, j ∈ ids := fun j hj =>
    hperm'.mem_iff.mp (List.mem_append_left _ hj)
  have hkidsub : ∀ j ∈ kids, j ∈ ids := fun j hj =>
    hperm'.mem_iff.mp (List.mem_append_right _ hj)
  have hfknd : (fr ++ kids).Nodup := hperm'.symm.nodup hnd
  have hrnd' : (fr ++ t.index.reuse).Nodup := by
    rw [List.nodup_append]
    exact ⟨(List.nodup_append.mp hfknd).1, h.2.2.1,
      fun j hj => h.ids_not_reuse j (hfrsub j hj)⟩
  have hfreeAll : ∀ i ∈ fr ++ t.index.reuse, d'.index[i]? = some none := by
    intro i hi
    rcases List.mem_append.mp hi with hi | hi
    · exact hfree' i hi
    · rw [hfr' i (fun hmem => h.ids_not_reuse i hmem hi)]
      exact h.2.2.2.1 i hi
  rcases hct : Tree.checkT p tr with _ | tr'
  · rw [hct] at hrun hmatch
    simp only [Option.isNone_none] at hrun
    subst hmatch
    have hfrperm : List.Perm fr ids := by simpa using hperm'
    refine ⟨⟨none, d'⟩, [], ?_, ?_⟩
    · rw [Treap.cut, hrun]
    · have hcut : Tree.cutT p tr = .leaf := by rw [Tree.cutT, hct]; rfl
      rw [hcut]
      refine WFc.mk' Gathers_none List.nodup_nil ?_ ?_ ?_ ?_
      · show d'.reuse.Nodup
        rw [hreuse']; exact hrnd'
      · show ∀ i ∈ d'.reuse, d'.index[i]? = some none
        rw [hreuse']; exact hfreeAll
      · intro i hlt hnone
        show i ∈ d'.reuse
        rw [hreuse']
        by_cases hin : i ∈ ids
        · exact List.mem_append_left _ (hfrperm.symm.mem_iff.mp hin)
        · refine List.mem_append_right _ ?_
          refine h.2.2.2.2.1 i ?_ ?_
          · rw [← hlen']; exact hlt
          · rw [← hfr' i hin]; exact hnone
      · intro i hlt hne
        exfalso
        by_cases hin : i ∈ ids
        · exact hne (hfree' i (hfrperm.symm.mem_iff.mp hin))
        · refine hin (h.2.2.2.2.2 i ?_ ?_)
          · rw [← hlen']; exact hlt
          · rw [← hfr' i hin]; exact hne
  · rw [hct] at hrun hmatch
    simp only [Option.isNone_some] at hrun
    refine ⟨⟨t.root, d'⟩, kids, ?_, ?_⟩
    · rw [Treap.cut, hrun]
    · have hcut : Tree.cutT p tr = tr' := by rw [Tree.cutT, hct]; rfl
      rw [hcut]
      refine WFc.mk' hmatch (List.nodup_append.mp hfknd).2.1 ?_ ?_ ?_ ?_
      · show d'.reuse.Nodup
        rw [hreuse']; exact hrnd'
      · show ∀ i ∈ d'.reuse, d'.index[i]? = some none
        rw [hreuse']; exact hfreeAll
      · intro i hlt hnone
        show i ∈ d'.reuse
        rw [hreuse']
        by_cases hin : i ∈ ids
        · refine List.mem_append_left _ ?_
          rcases List.mem_append.mp (hperm'.symm.mem_iff.mp hin) with hf | hk
          · exact hf
          · obtain ⟨nd, hnd'⟩ := hmatch.live i hk
            rw [hnone] at hnd'
            exact absurd hnd' (by simp)
        · refine List.mem_append_right _ ?_
          refine h.2.2.2.2.1 i ?_ ?_
          · rw [← hlen']; exact hlt
          · rw [← hfr' i hin]; exact hnone
      · intro i hlt hne
        have hin : i ∈ ids := by
          by_contra hin
          refine hne ?_
          exfalso
          refine hin (h.2.2.2.2.2 i ?_ ?_)
          · rw [← hlen']; exact hlt
          · rw [← hfr' i hin]; exact hne
        rcases List.mem_append.mp (hperm'.symm.mem_iff.mp hin) with hf | hk
        · exact absurd (hfree' i hf) hne
        · exact hk

end CutSim

section Invariants

variable {K P V : Type} [LinearOrder K] [LinearOrder P]

/-- The empty treap is well formed with the empty abstract tree. -/
theorem WFc_new : WFc (Treap.new : Treap K P V) .leaf [] := by
  refine ⟨?_, List.nodup_nil, List.nodup_nil, ?_, ?_, ?_⟩ <;>
    simp [gatherRoot, Treap.new, DirectVecIndex.new, gatherT_none]

/-- The tree produced by a successful `insert` (split, fresh single node,
two merges) keeps both treap invariants. -/
theorem insertT_bst_heap {tr : Tree K P V} (hb : tr.BSTInv) (hh : tr.HeapInv)
    (key : K) (p : P) (v : V) :
    (((tr.splitT key).1.mergeT (.node key p v .leaf .leaf)).mergeT
      (tr.splitT key).2.2).BSTInv ∧
    (((tr.splitT key).1.mergeT (.node key p v .leaf .leaf)).mergeT
      (tr.splitT key).2.2).HeapInv := by
  obtain ⟨hlt, hgt, hbl, hbr⟩ := Tree.splitT_bst tr key hb
  obtain ⟨hhl, hhr, -, -⟩ := Tree.splitT_heap tr key hh
  constructor
  · refine Tree.mergeT_bst (Tree.mergeT_bst hbl (by simp [Tree.BSTInv]) ?_)
      hbr ?_
    · intro x hx y hy
      simp only [Tree.keys_node, Tree.keys_leaf, List.nil_append,
        List.mem_cons, List.not_mem_nil, or_false] at hy
      subst hy
      exact hlt x hx
    · intro x hx y hy
      rw [Tree.mergeT_keys] at hx
      rcases List.mem_append.mp hx with hx | hx
      · exact lt_trans (hlt x hx) (hgt y hy)
      · simp only [Tree.keys_node, Tree.keys_leaf, List.nil_append,
          List.mem_cons, List.not_mem_nil, or_false] at hx
        subst hx
        exact hgt y hy
  · exact Tree.mergeT_heap (Tree.mergeT_heap hhl (by simp [Tree.HeapInv]))
      hhr

/-- The tree produced by a successful `remove` (split, drop the matched
entry, one merge) keeps both treap invariants. -/
theorem removeT_bst_heap {tr : Tree K P V} (hb : tr.BSTInv) (hh : tr.HeapInv)
    (key : K) :
    ((tr.splitT key).1.mergeT (tr.splitT key).2.2).BSTInv ∧
    ((tr.splitT key).1.mergeT (tr.splitT key).2.2).HeapInv := by
  obtain ⟨hlt, hgt, hbl, hbr⟩ := Tree.splitT_bst tr key hb
  obtain ⟨hhl, hhr, -, -⟩ := Tree.splitT_heap tr key hh
  exact ⟨Tree.mergeT_bst hbl hbr
    (fun x hx y hy => lt_trans (hlt x hx) (hgt y hy)),
    Tree.mergeT_heap hhl hhr⟩

/-- Dropping a root node and merging its children keeps both treap
invariants. -/
theorem popT_bst_heap {k : K} {pr : P} {v : V} {lt rt : Tree K P V}
    (hb : (Tree.node k pr v lt rt).BSTInv)
    (hh : (Tree.node k pr v lt rt).HeapInv) :
    (lt.mergeT rt).BSTInv ∧ (lt.mergeT rt).HeapInv := by
  obtain ⟨hl, hr, hbl, hbr⟩ := hb
  obtain ⟨-, -, hhl, hhr⟩ := hh
  exact ⟨Tree.mergeT_bst hbl hbr
    (fun x hx y hy => lt_trans (hl x hx) (hr y hy)),
    Tree.mergeT_heap hhl hhr⟩

/-- Master invariant: every reachable treap is well formed and its abstract
tree satisfies the binary-search-tree and max-heap invariants. -/
theorem Reachable.wf {t : Treap K P V} (h : Reachable t) :
    ∃ tr ids, WFc t tr ids ∧ tr.BSTInv ∧ tr.HeapInv := by
  induction h with
  | new => exact ⟨.leaf, [], WFc_new, trivial, trivial⟩
  | @insert t0 t1 k p v r hre hstep ih =>
    obtain ⟨tr, ids, hwf, hb, hh⟩ := ih
    obtain ⟨tr', ids', hwf', htr', hres⟩ := insert_spec hwf k p v
    have ht1 : (t0.insert k p v).1 = t1 := by rw [hstep]
    rw [ht1] at hwf'
    subst htr'
    exact ⟨_, ids', hwf', (insertT_bst_heap hb hh k p v).1,
      (insertT_bst_heap hb hh k p v).2⟩
  | @remove t0 t1 k r hre hstep ih =>
    obtain ⟨tr, ids, hwf, hb, hh⟩ := ih
    obtain ⟨tr', ids', hwf', htr', hres⟩ := remove_spec hwf k
    have ht1 : (t0.remove k).1 = t1 := by rw [hstep]
    rw [ht1] at hwf'
    subst htr'
    exact ⟨_, ids', hwf', (removeT_bst_heap hb hh k).1,
      (removeT_bst_heap hb hh k).2⟩
  | @prioritize t0 t1 k p r hre hstep ih =>
    obtain ⟨tr, ids, hwf, hb, hh⟩ := ih
    obtain ⟨tr', ids', hwf', htr', hres⟩ := prioritize_spec hwf k p
    have ht1 : (t0.prioritize k p).1 = t1 := by rw [hstep]
    rw [ht1] at hwf'
    rcases he : (tr.splitT k).2.1 with _ | e
    · simp only [he] at htr'
      subst htr'
      exact ⟨_, ids', hwf', (removeT_bst_heap hb hh k).1,
        (removeT_bst_heap hb hh k).2⟩
    · simp only [he] at htr'
      have hek : e.1 = k := Tree.splitT_entry_key tr k e (by simp [he])
      rw [hek] at htr'
      subst htr'
      exact ⟨_, ids', hwf', (insertT_bst_heap hb hh k p e.2.2).1,
        (insertT_bst_heap hb hh k p e.2.2).2⟩
  | @pop t0 t1 r hre hstep ih =>
    obtain ⟨tr, ids, hwf, hb, hh⟩ := ih
    obtain ⟨hleaf, hnode⟩ := pop_spec hwf
    cases tr with
    | leaf =>
      have heq := hleaf rfl
      rw [heq] at hstep
      injection hstep with h1 h2
      subst h1
      exact ⟨.leaf, ids, hwf, trivial, trivial⟩
    | node k pr v lt rt =>
      obtain ⟨tr', ids', hwf', htr', hres⟩ := hnode k pr v lt rt rfl
      have ht1 : (t0.pop).1 = t1 := by rw [hstep]
      rw [ht1] at hwf'
      subst htr'
      exact ⟨_, ids', hwf', (popT_bst_heap hb hh).1, (popT_bst_heap hb hh).2⟩
  | @cut t0 t1 p hre hstep ih =>
    obtain ⟨tr, ids, hwf, hb, hh⟩ := ih
    obtain ⟨t', kids, heq, hwf'⟩ := cut_spec hwf p
    rw [hstep] at heq
    injection heq with h1 h2
    subst h1
    exact ⟨_, kids, hwf', Tree.cutT_bst p hb, Tree.cutT_heap p hh⟩

/-- Draining a well-formed heap-ordered treap by repeated `pop` yields every
entry exactly once, in non-increasing priority order, and ends on an empty
well-formed treap. -/
theorem popSeq_spec :
    ∀ (n : Nat) {t : Treap K P V} {tr : Tree K P V} {ids : List Nat},
      tr.size ≤ n → WFc t tr ids → tr.HeapInv →
      List.Perm (popSeq n t).1 tr.entries ∧
      List.Pairwise (fun a b => b.2.1 ≤ a.2.1) (popSeq n t).1 ∧
      ∃ ids', WFc (popSeq n t).2 .leaf ids' := by
  intro n
  induction n with
  | zero =>
    intro t tr ids hsz hwf hh
    cases tr with
    | node k pr v lt rt => simp at hsz
    | leaf => exact ⟨by simp [popSeq], by simp [popSeq], ids, hwf⟩
  | succ f ih =>
    intro t tr ids hsz hwf hh
    obtain ⟨hleaf, hnode⟩ := pop_spec hwf
    cases tr with
    | leaf =>
      have heq := hleaf rfl
      refine ⟨?_, ?_, ids, ?_⟩ <;> simp [popSeq, heq]
      exact hwf
    | node k pr v lt rt =>
      obtain ⟨tr', ids', hwf', htr', hres⟩ := hnode k pr v lt rt rfl
      rcases hpop : t.pop with ⟨t1, res⟩
      rw [hpop] at hres hwf'
      simp only at hres hwf'
      subst hres
      subst htr'
      have hmerged : (lt.mergeT rt).HeapInv := by
        obtain ⟨-, -, hhl, hhr⟩ := hh
        exact Tree.mergeT_heap hhl hhr
      have hsz' : (lt.mergeT rt).size ≤ f := by
        rw [Tree.mergeT_size]
        simp only [Tree.size_node] at hsz
        omega
      obtain ⟨hperm, hpair, ids'', hfin⟩ := ih hsz' hwf' hmerged
      have hred : popSeq (f + 1) t =
          ((k, pr, v) :: (popSeq f t1).1, (popSeq f t1).2) := by
        simp only [popSeq, hpop]
      rw [hred]
      refine ⟨?_, ?_, ids'', hfin⟩
      · have h1 : List.Perm ((k, pr, v) :: (popSeq f t1).1)
            ((k, pr, v) :: (lt.mergeT rt).entries) := hperm.cons _
        rw [Tree.mergeT_entries] at h1
        simp only [Tree.entries_node]
        exact h1.trans List.perm_middle.symm
      · refine List.pairwise_cons.mpr ⟨?_, hpair⟩
        intro e he
        have he' : e ∈ (lt.mergeT rt).entries := hperm.mem_iff.mp he
        have hq := Tree.mem_priorities_of_mem_entries he'
        rw [Tree.mergeT_priorities] at hq
        have hq' : e.2.1 ∈ (Tree.node k pr v lt rt).priorities := by
          simp only [Tree.priorities_node]
          rcases List.mem_append.mp hq with h | h
          · exact List.mem_append_left _ h
          · exact List.mem_append_right _ (List.mem_cons_of_mem _ h)
        exact hh.priorities_le _ hq' pr (by simp [Tree.rootPriority])

end Invariants

section NthPriority

variable {K P V : Type} [LinearOrder K] [LinearOrder P]

/-- Inserting a fresh priority at its binary-search position keeps the
buffer strictly descending. -/
theorem pairwise_insertIdx_countP {p0 : P} :
    ∀ {pri : List P}, List.Pairwise (fun a b => b < a) pri → p0 ∉ pri →
      List.Pairwise (fun a b => b < a)
        (pri.insertIdx (pri.countP fun x => p0 < x) p0) := by
  intro pri
  induction pri with
  | nil => intro _ _; simp
  | cons y ys ih =>
    intro hs hnm
    obtain ⟨hy_all, hs'⟩ := List.pairwise_cons.mp hs
    have hnm' : p0 ∉ ys := fun h => hnm (List.mem_cons_of_mem _ h)
    have hne : p0 ≠ y := fun h => hnm (h ▸ List.mem_cons_self _ _)
    by_cases hy : p0 < y
    · have hc : ((y :: ys).countP fun x => p0 < x) =
          (ys.countP fun x => p0 < x) + 1 := by
        rw [List.countP_cons]; simp [hy]
      rw [hc, List.insertIdx_succ_cons]
      refine List.pairwise_cons.mpr ⟨?_, ih hs' hnm'⟩
      intro x hx
      have hcle : (ys.countP fun x => p0 < x) ≤ ys.length :=
        List.countP_le_length _
      have hx' := (List.perm_insertIdx p0 ys hcle).mem_iff.mp hx
      rcases List.mem_cons.mp hx' with rfl | hx'
      · exact hy
      · exact hy_all x hx'
    · have hylt : y < p0 := lt_of_le_of_ne (not_lt.mp hy) hne.symm
      have h0 : (ys.countP fun x => p0 < x) = 0 :=
        List.countP_eq_zero.mpr (fun a ha => by
          simp only [decide_eq_true_eq, not_lt]
          exact le_of_lt (lt_trans (hy_all a ha) hylt))
      have hc : ((y :: ys).countP fun x => p0 < x) = 0 := by
        rw [List.countP_cons, h0]; simp [hy]
      rw [hc, List.insertIdx_zero]
      refine List.pairwise_cons.mpr ⟨?_, hs⟩
      intro x hx
      rcases List.mem_cons.mp hx with rfl | hx
      · exact hylt
      · exact lt_trans (hy_all x hx) hylt

/-- Two strictly descending lists agree on their first `m` positions when
one is contained in the other and the other's first `m` entries all occur
in the first. -/
theorem sorted_prefix_eq :
    ∀ (m : Nat) (A S : List P),
      List.Pairwise (fun a b => b < a) A →
      List.Pairwise (fun a b => b < a) S →
      (∀ x ∈ A, x ∈ S) →
      (∀ j, j < m → ∀ x ∈ S[j]?, x ∈ A) →
      m ≤ S.length →
      A.take m = S.take m := by
  intro m
  induction m with
  | zero => intro A S _ _ _ _ _; simp
  | succ mm ih =>
    intro A S hA hS hsub htop hm
    cases S with
    | nil => simp at hm
    | cons s0 S' =>
      obtain ⟨hs0_all, hS'⟩ := List.pairwise_cons.mp hS
      have hs0A : s0 ∈ A := htop 0 (Nat.succ_pos _) s0 (by simp)
      cases A with
      | nil => simp at hs0A
      | cons a0 A' =>
        obtain ⟨ha0_all, hA'⟩ := List.pairwise_cons.mp hA
        have ha0 : a0 = s0 := by
          rcases List.mem_cons.mp (hsub a0 (List.mem_cons_self _ _)) with
            h | h
          · exact h
          · rcases List.mem_cons.mp hs0A with h' | h'
            · exact absurd (h' ▸ hs0_all a0 h) (lt_irrefl _)
            · exact absurd (lt_trans (hs0_all a0 h) (ha0_all s0 h'))
                (lt_irrefl _)
        subst ha0
        have hsub' : ∀ x ∈ A', x ∈ S' := by
          intro x hx
          rcases List.mem_cons.mp (hsub x (List.mem_cons_of_mem _ hx)) with
            h | h
          · exact absurd (h ▸ ha0_all x hx) (lt_irrefl _)
          · exact h
        have htop' : ∀ j, j < mm → ∀ x ∈ S'[j]?, x ∈ A' := by
          intro j hj x hx
          have hx0 : x ∈ (a0 :: S')[j + 1]? := by simpa using hx
          have hxA := htop (j + 1) (by omega) x hx0
          rcases List.mem_cons.mp hxA with h | h
          · subst h
            have hxS' : x ∈ S' := by
              obtain ⟨hlt, hEq⟩ :=
                List.getElem?_eq_some_iff.mp (Option.mem_def.mp hx)
              exact hEq ▸ List.getElem_mem hlt
            exact absurd (hs0_all x hxS') (lt_irrefl _)
          · exact h
        have hm' : mm ≤ S'.length := by simpa using hm
        have := ih A' S' hA' hS' hsub' htop' hm'
        simp only [List.take_succ_cons, this]

theorem mem_insertDesc {x q : P} : ∀ {l : List P},
    (q ∈ insertDesc x l ↔ q = x ∨ q ∈ l) := by
  intro l
  induction l with
  | nil => simp [insertDesc]
  | cons y ys ih =>
    by_cases h : y < x
    · simp [insertDesc, h]
    · simp [insertDesc, h, ih, or_left_comm]

theorem pairwise_insertDesc {x : P} : ∀ {l : List P},
    List.Pairwise (fun a b => b < a) l → x ∉ l →
    List.Pairwise (fun a b => b < a) (insertDesc x l) := by
  intro l
  induction l with
  | nil => intro _ _; simp [insertDesc]
  | cons y ys ih =>
    intro hs hnm
    obtain ⟨hy_all, hs'⟩ := List.pairwise_cons.mp hs
    by_cases h : y < x
    · simp only [insertDesc, if_pos h]
      refine List.pairwise_cons.mpr ⟨?_, hs⟩
      intro z hz
      rcases List.mem_cons.mp hz with rfl | hz
      · exact h
      · exact lt_trans (hy_all z hz) h
    · simp only [insertDesc, if_neg h]
      have hxy : x < y := lt_of_le_of_ne (not_lt.mp h)
        (fun he => hnm (by rw [he]; exact List.mem_cons_self _ _))
      refine List.pairwise_cons.mpr
        ⟨?_, ih hs' (fun hm => hnm (List.mem_cons_of_mem _ hm))⟩
      intro z hz
      rcases mem_insertDesc.mp hz with rfl | hz
      · exact hxy
      · exact hy_all z hz

theorem sortDesc_spec : ∀ {l : List P}, l.Nodup →
    List.Pairwise (fun a b => b < a) (sortDesc l) ∧
      (∀ q, q ∈ sortDesc l ↔ q ∈ l) := by
  intro l
  induction l with
  | nil => intro _; simp [sortDesc]
  | cons x xs ih =>
    intro hnd
    obtain ⟨hx, hnd'⟩ := List.nodup_cons.mp hnd
    obtain ⟨hp, hmem⟩ := ih hnd'
    refine ⟨pairwise_insertDesc hp (fun hm => hx ((hmem x).mp hm)), ?_⟩
    intro q
    simp only [sortDesc, mem_insertDesc, hmem q, List.mem_cons]

theorem pairwise_distinctDesc (l : List P) :
    List.Pairwise (fun a b => b < a) (distinctDesc l) :=
  (sortDesc_spec l.nodup_dedup).1

theorem mem_distinctDesc {l : List P} {q : P} :
    q ∈ distinctDesc l ↔ q ∈ l :=
  ((sortDesc_spec l.nodup_dedup).2 q).trans (List.mem_dedup)

/-- In a strictly descending list, exactly `j` entries exceed the entry at
position `j`. -/
theorem countP_gt_getElem :
    ∀ {S : List P}, List.Pairwise (fun a b => b < a) S →
      ∀ {j : Nat} {x : P}, S[j]? = some x →
        (S.countP fun y => x < y) = j := by
  intro S
  induction S with
  | nil => intro _ j x hx; simp at hx
  | cons s0 S' ih =>
    intro hS j x hx
    obtain ⟨h_all, hS'⟩ := List.pairwise_cons.mp hS
    cases j with
    | zero =>
      have hx0 : s0 = x := by simpa using hx
      subst hx0
      rw [List.countP_cons]
      have h0 : (S'.countP fun y => s0 < y) = 0 :=
        List.countP_eq_zero.mpr (fun a ha => by
          simp only [decide_eq_true_eq, not_lt]
          exact le_of_lt (h_all a ha))
      simp [h0]
    | succ jj =>
      have hx' : S'[jj]? = some x := by simpa using hx
      have hxS' : x ∈ S' := by
        obtain ⟨hlt, hEq⟩ := List.getElem?_eq_some_iff.mp hx'
        exact hEq ▸ List.getElem_mem hlt
      rw [List.countP_cons]
      rw [ih hS' hx']
      simp [h_all x hxS']

/-- A duplicate-free list contained in a duplicate-free list is no
longer. -/
theorem nodup_subset_length_le {α : Type} [DecidableEq α] {l1 l2 : List α}
    (h1 : l1.Nodup) (h2 : l2.Nodup) (hsub : ∀ x ∈ l1, x ∈ l2) :
    l1.length ≤ l2.length := by
  have hfs : l1.toFinset ⊆ l2.toFinset := by
    intro x hx
    exact List.mem_toFinset.mpr (hsub x (List.mem_toFinset.mp hx))
  calc l1.length = l1.toFinset.card := (List.toFinset_card_of_nodup h1).symm
    _ ≤ l2.toFinset.card := Finset.card_le_card hfs
    _ = l2.length := List.toFinset_card_of_nodup h2

/-- A strictly descending list contained in a strictly descending list
counts at most `j` entries above the second list's entry at position `j`. -/
theorem countP_le_of_subset {A S : List P}
    (hA : List.Pairwise (fun a b => b < a) A)
    (hS : List.Pairwise (fun a b => b < a) S)
    (hsub : ∀ x ∈ A, x ∈ S) {j : Nat} {x : P} (hx : S[j]? = some x) :
    (A.countP fun y => x < y) ≤ j := by
  have hAnd : A.Nodup := hA.imp (fun h => (ne_of_gt h))
  have hSnd : S.Nodup := hS.imp (fun h => (ne_of_gt h))
  rw [List.countP_eq_length_filter]
  have := nodup_subset_length_le (hAnd.filter _)
    (hSnd.filter (fun y => decide (x < y))) (fun z hz => by
      rw [List.mem_filter] at hz ⊢
      exact ⟨hsub z hz.1, hz.2⟩)
  refine le_trans this ?_
  rw [← List.countP_eq_length_filter]
  exact le_of_eq (countP_gt_getElem hS hx)

/-- Closed form of one `nth_priority_node` call on a live handle. -/
theorem nthPriorityNode_some_eq {d : DirectVecIndex K P V} {j : Nat}
    {nd : Node K P V} (hget : d.get (some j) = .ok nd) (n : Nat)
    (queue : List (Option Nat)) (pri : List P) :
    Treap.nthPriorityNode d (some j) n queue pri =
      (if (pri.countP fun x => nd.priority < x) < n then
        .ok ((queue ++ (if nd.left.isSome then [nd.left] else []))
            ++ (if nd.right.isSome then [nd.right] else []),
          if nd.priority ∈ pri then pri
          else pri.insertIdx (pri.countP fun x => nd.priority < x)
            nd.priority)
      else .ok (queue, pri)) := by
  simp only [Treap.nthPriorityNode, hget, Option.isNone_some,
    Bool.false_eq_true, if_false]
  by_cases hin : (pri.countP fun x => nd.priority < x) < n
  · simp only [if_pos hin]
    by_cases hf : nd.priority ∈ pri
    · simp only [if_pos hf]
      simp
    · simp only [if_neg hf]
      simp
  · simp only [if_neg hin]
    simp

/-- Packages a child handle for the traversal queue: the pushed segment (one
pointer when the child exists, nothing otherwise) gathers the child tree. -/
theorem child_block {d : DirectVecIndex K P V} {pc : Option Nat}
    {tc : Tree K P V} {sc : List Nat}
    (hg : Gathers d.index pc tc sc) (hnd : sc.Nodup) :
    List.Forall₂ (fun pt t2 => ∃ s2, Gathers d.index pt t2 s2 ∧ s2.Nodup)
      (if pc.isSome then [pc] else []) (if pc.isSome then [tc] else []) ∧
    (((if pc.isSome then ([tc] : List (Tree K P V)) else []).map
      Tree.size).sum = tc.size) ∧
    ((if pc.isSome then ([pc] : List (Option Nat)) else []).length ≤ 1) ∧
    (∀ t2 ∈ (if pc.isSome then ([tc] : List (Tree K P V)) else []),
      t2 = tc) ∧
    (∀ q ∈ tc.priorities,
      tc ∈ (if pc.isSome then ([tc] : List (Tree K P V)) else [])) := by
  cases pc with
  | none =>
    obtain ⟨rfl, rfl⟩ := hg.none_iff_leaf
    simp
  | some jc =>
    simp only [Option.isSome_some, if_true]
    exact ⟨List.Forall₂.cons ⟨sc, hg, hnd⟩ List.Forall₂.nil, by simp,
      by simp, by simp, fun q hq => by simp⟩

/-- Main loop invariant of `nth_priority`: with the queue segments gathering
pairwise-ignorant subtrees and enough fuel, the loop terminates and returns
a strictly descending buffer that covers every queued priority either by
membership or by already holding `n` larger entries. -/
theorem nthLoop_spec {d : DirectVecIndex K P V} {n : Nat} {P0 : List P} :
    ∀ (fuel : Nat) (queue : List (Option Nat)) (ts : List (Tree K P V))
      (pri : List P),
      List.Forall₂ (fun pt t2 => ∃ s2, Gathers d.index pt t2 s2 ∧ s2.Nodup)
        queue ts →
      queue.length + 2 * (ts.map Tree.size).sum < fuel →
      (∀ t2 ∈ ts, t2.HeapInv) →
      (∀ t2 ∈ ts, ∀ q ∈ t2.priorities, q ∈ P0) →
      List.Pairwise (fun a b => b < a) pri →
      (∀ q ∈ pri, q ∈ P0) →
      ∃ pri',
        Treap.nthLoop fuel d n queue pri = .ok pri' ∧
        List.Pairwise (fun a b => b < a) pri' ∧
        (∀ q ∈ pri', q ∈ P0) ∧
        (∀ q ∈ pri, q ∈ pri') ∧
        (∀ q : P, (pri.countP fun x => q < x) ≤
          (pri'.countP fun x => q < x)) ∧
        (∀ t2 ∈ ts, ∀ q ∈ t2.priorities,
          q ∈ pri' ∨ n ≤ (pri'.countP fun x => q < x)) := by
  intro fuel
  induction fuel with
  | zero => intro queue ts pri _ hf _ _ _ _; omega
  | succ f ih =>
    intro queue ts pri hf2 hfuel hheap hsub hsort hpriP
    cases hf2 with
    | nil =>
      refine ⟨pri, ?_, hsort, hpriP, fun q hq => hq, fun q => le_rfl,
        by simp⟩
      simp [Treap.nthLoop]
    | @cons ptr st queue0 ts0 hpt hrest =>
      obtain ⟨sids, hg, hnd⟩ := hpt
      have hmeasure : queue0.length + 1 + 2 * ((ts0.map Tree.size).sum +
          st.size) < f + 1 := by
        simp only [List.map_cons, List.sum_cons, List.length_cons] at hfuel
        omega
      cases st with
      | leaf =>
        obtain ⟨rfl, rfl⟩ := Gathers_leaf_inv hg
        have hred : Treap.nthLoop (f + 1) d n (none :: queue0) pri =
            Treap.nthLoop f d n queue0 pri := by
          simp [Treap.nthLoop, Treap.nthPriorityNode]
        rw [hred]
        obtain ⟨pri', hrun, hs', hP', hmono, hcnt, hcov⟩ :=
          ih queue0 ts0 pri hrest
            (by simp only [Tree.size_leaf] at hmeasure; omega)
            (fun t2 ht2 => hheap t2 (List.mem_cons_of_mem _ ht2))
            (fun t2 ht2 => hsub t2 (List.mem_cons_of_mem _ ht2))
            hsort hpriP
        refine ⟨pri', hrun, hs', hP', hmono, hcnt, ?_⟩
        intro t2 ht2
        rcases List.mem_cons.mp ht2 with rfl | ht2
        · simp
        · exact hcov t2 ht2
      | node k0 p0 v0 l r =>
        obtain ⟨j, nd, ls, rs, rfl, ha, hk, hp, hv, hgl, hgr, rfl⟩ :=
          Gathers_node_inv hg
        have hget := DirectVecIndex.get_eq_ok ha
        have hndls : ls.Nodup :=
          (List.nodup_append.mp (List.nodup_cons.mp hnd).2).1
        have hndrs : rs.Nodup :=
          (List.nodup_append.mp (List.nodup_cons.mp hnd).2).2.1
        obtain ⟨hF2l, hszl, hlenl, hml, hcovl⟩ := child_block hgl hndls
        obtain ⟨hF2r, hszr, hlenr, hmr, hcovr⟩ := child_block hgr hndrs
        have hhst := hheap _ (List.mem_cons_self _ _)
        have hsubst := hsub _ (List.mem_cons_self _ _)
        have hstep := nthPriorityNode_some_eq hget n queue0 pri
        rw [hp] at hstep
        by_cases hin : (pri.countP fun x => p0 < x) < n
        · -- the node is explored: children are queued
          rw [if_pos hin] at hstep
          set X := if nd.left.isSome then [nd.left] else [] with hX
          set Y := if nd.right.isSome then [nd.right] else [] with hY
          set Tl := if nd.left.isSome then ([l] : List (Tree K P V))
            else [] with hTl
          set Tr := if nd.right.isSome then ([r] : List (Tree K P V))
            else [] with hTr
          have hrun1 : ∀ pri1,
              Treap.nthPriorityNode d (some j) n queue0 pri =
                .ok ((queue0 ++ X) ++ Y, pri1) →
              Treap.nthLoop (f + 1) d n (some j :: queue0) pri =
                Treap.nthLoop f d n ((queue0 ++ X) ++ Y) pri1 := by
            intro pri1 h1
            simp only [Treap.nthLoop, h1]
          have hF2' : List.Forall₂
              (fun pt t2 => ∃ s2, Gathers d.index pt t2 s2 ∧ s2.Nodup)
              ((queue0 ++ X) ++ Y) ((ts0 ++ Tl) ++ Tr) :=
            List.rel_append (List.rel_append hrest hF2l) hF2r
          have hfuel' : ((queue0 ++ X) ++ Y).length +
              2 * ((((ts0 ++ Tl) ++ Tr).map Tree.size).sum) < f := by
            simp only [List.length_append, List.map_append, List.sum_append,
              hszl, hszr]
            simp only [Tree.size_node] at hmeasure
            omega
          have hheap' : ∀ t2 ∈ (ts0 ++ Tl) ++ Tr, t2.HeapInv := by
            intro t2 ht2
            rcases List.mem_append.mp ht2 with ht2 | ht2
            · rcases List.mem_append.mp ht2 with ht2 | ht2
              · exact hheap t2 (List.mem_cons_of_mem _ ht2)
              · rw [hml t2 ht2]
                exact hhst.2.2.1
            · rw [hmr t2 ht2]
              exact hhst.2.2.2
          have hsub' : ∀ t2 ∈ (ts0 ++ Tl) ++ Tr, ∀ q ∈ t2.priorities,
              q ∈ P0 := by
            intro t2 ht2 q hq
            rcases List.mem_append.mp ht2 with ht2 | ht2
            · rcases List.mem_append.mp ht2 with ht2 | ht2
              · exact hsub t2 (List.mem_cons_of_mem _ ht2) q hq
              · refine hsubst q ?_
                rw [hml t2 ht2] at hq
                simp only [Tree.priorities_node]
                exact List.mem_append_left _ hq
            · refine hsubst q ?_
              rw [hmr t2 ht2] at hq
              simp only [Tree.priorities_node]
              exact List.mem_append_right _ (List.mem_cons_of_mem _ hq)
          by_cases hfound : p0 ∈ pri
          · rw [if_pos hfound] at hstep
            rw [hrun1 pri hstep]
            obtain ⟨pri', hrun, hs', hP', hmono, hcnt, hcov⟩ :=
              ih _ _ pri hF2' hfuel' hheap' hsub' hsort hpriP
            refine ⟨pri', hrun, hs', hP', hmono, hcnt, ?_⟩
            intro t2 ht2
            rcases List.mem_cons.mp ht2 with rfl | ht2
            · intro q hq
              simp only [Tree.priorities_node] at hq
              rcases List.mem_append.mp hq with hq | hq
              · exact hcov l (List.mem_append_left _
                  (List.mem_append_right _ (hcovl q hq))) q hq
              · rcases List.mem_cons.mp hq with rfl | hq
                · exact Or.inl (hmono q hfound)
                · exact hcov r (List.mem_append_right _ (hcovr q hq)) q hq
            · exact hcov t2 (List.mem_append_left _
                (List.mem_append_left _ ht2))
          · rw [if_neg hfound] at hstep
            rw [hrun1 _ hstep]
            have hperm1 : List.Perm
                (pri.insertIdx (pri.countP fun x => p0 < x) p0) (p0 :: pri) :=
              List.perm_insertIdx p0 pri (List.countP_le_length _)
            have hsort1 : List.Pairwise (fun a b => b < a)
                (pri.insertIdx (pri.countP fun x => p0 < x) p0) :=
              pairwise_insertIdx_countP hsort hfound
            have hp0P : p0 ∈ P0 := hsubst p0 (by
              simp only [Tree.priorities_node]
              exact List.mem_append_right _ (List.mem_cons_self _ _))
            have hpriP1 : ∀ q ∈
                pri.insertIdx (pri.countP fun x => p0 < x) p0, q ∈ P0 := by
              intro q hq
              rcases List.mem_cons.mp (hperm1.mem_iff.mp hq) with rfl | hq
              · exact hp0P
              · exact hpriP q hq
            obtain ⟨pri', hrun, hs', hP', hmono, hcnt, hcov⟩ :=
              ih _ _ _ hF2' hfuel' hheap' hsub' hsort1 hpriP1
            have hmono0 : ∀ q ∈ pri, q ∈ pri' := fun q hq =>
              hmono q (hperm1.mem_iff.mpr (List.mem_cons_of_mem _ hq))
            have hcnt0 : ∀ q : P, (pri.countP fun x => q < x) ≤
                (pri'.countP fun x => q < x) := by
              intro q
              refine le_trans ?_ (hcnt q)
              rw [hperm1.countP_eq, List.countP_cons]
              omega
            refine ⟨pri', hrun, hs', hP', hmono0, hcnt0, ?_⟩
            intro t2 ht2
            rcases List.mem_cons.mp ht2 with rfl | ht2
            · intro q hq
              simp only [Tree.priorities_node] at hq
              rcases List.mem_append.mp hq with hq | hq
              · exact hcov l (List.mem_append_left _
                  (List.mem_append_right _ (hcovl q hq))) q hq
              · rcases List.mem_cons.mp hq with rfl | hq
                · exact Or.inl (hmono q
                    (hperm1.mem_iff.mpr (List.mem_cons_self _ _)))
                · exact hcov r (List.mem_append_right _ (hcovr q hq)) q hq
            · exact hcov t2 (List.mem_append_left _
                (List.mem_append_left _ ht2))
        · -- the node ranks at or beyond `n`: the subtree is pruned
          rw [if_neg hin] at hstep
          have hred : Treap.nthLoop (f + 1) d n (some j :: queue0) pri =
              Treap.nthLoop f d n queue0 pri := by
            simp only [Treap.nthLoop, hstep]
          rw [hred]
          obtain ⟨pri', hrun, hs', hP', hmono, hcnt, hcov⟩ :=
            ih queue0 ts0 pri hrest
              (by simp only [Tree.size_node] at hmeasure; omega)
              (fun t2 ht2 => hheap t2 (List.mem_cons_of_mem _ ht2))
              (fun t2 ht2 => hsub t2 (List.mem_cons_of_mem _ ht2))
              hsort hpriP
          refine ⟨pri', hrun, hs', hP', hmono, hcnt, ?_⟩
          intro t2 ht2
          rcases List.mem_cons.mp ht2 with rfl | ht2
          · intro q hq
            refine Or.inr ?_
            have hqle : q ≤ p0 := hhst.priorities_le q hq p0
              (by simp [Tree.rootPriority])
            have h1 : (pri.countP fun x => p0 < x) ≤
                (pri.countP fun x => q < x) :=
              List.countP_mono_left (fun x _ hx => by
                simp only [decide_eq_true_eq] at hx ⊢
                exact lt_of_le_of_lt hqle hx)
            exact le_trans (le_trans (not_lt.mp hin) h1) (hcnt q)
          · exact hcov t2 ht2

/-- Full characterization of `nth_priority` on a well-formed heap-ordered
treap and `n ≥ 1`: the call returns `Ok` of entry `n - 1` of a strictly
descending buffer that contains the top distinct priorities. -/
theorem nthPriority_spec {t : Treap K P V} {tr : Tree K P V} {ids : List Nat}
    (h : WFc t tr ids) (hh : tr.HeapInv) {n : Nat} (hn : 1 ≤ n) :
    ∃ pri',
      List.Pairwise (fun a b => b < a) pri' ∧
      (∀ q ∈ pri', q ∈ tr.priorities) ∧
      (∀ q ∈ tr.priorities, q ∈ pri' ∨ n ≤ (pri'.countP fun x => q < x)) ∧
      t.nthPriority n = some (.ok pri'[n - 1]?) := by
  have hg := h.gathers
  have hnd : ids.Nodup := h.2.1
  cases tr with
  | leaf =>
    obtain ⟨hroot, -⟩ := Gathers_leaf_inv hg
    have hstep : Treap.nthPriorityNode t.index t.root n [] [] =
        .ok ([], []) := by rw [hroot]; rfl
    have hloop : Treap.nthLoop (2 * t.index.index.length + 1) t.index n
        [] [] = .ok ([] : List P) := rfl
    refine ⟨[], by simp, by simp, by simp, ?_⟩
    simp only [Treap.nthPriority, hstep, hloop]
    rw [if_neg (by simp; omega)]
    simp
  | node k0 p0 v0 l r =>
    obtain ⟨j, nd, ls, rs, hroot, ha, hk, hp, hv, hgl, hgr, hids⟩ :=
      Gathers_node_inv hg
    have hget := DirectVecIndex.get_eq_ok ha
    have hndls : ls.Nodup := by
      rw [hids] at hnd
      exact (List.nodup_append.mp (List.nodup_cons.mp hnd).2).1
    have hndrs : rs.Nodup := by
      rw [hids] at hnd
      exact (List.nodup_append.mp (List.nodup_cons.mp hnd).2).2.1
    obtain ⟨hF2l, hszl, hlenl, hml, hcovl⟩ := child_block hgl hndls
    obtain ⟨hF2r, hszr, hlenr, hmr, hmcovr⟩ := child_block hgr hndrs
    have hc0 : (([] : List P).countP fun x => nd.priority < x) = 0 := rfl
    have hstep := nthPriorityNode_some_eq hget n [] ([] : List P)
    rw [hc0, if_pos (show 0 < n by omega)] at hstep
    rw [if_neg (List.not_mem_nil nd.priority)] at hstep
    have hins : ([] : List P).insertIdx 0 nd.priority = [nd.priority] := rfl
    rw [hins, List.nil_append] at hstep
    set X := if nd.left.isSome then [nd.left] else [] with hX
    set Y := if nd.right.isSome then [nd.right] else [] with hY
    set Tl := if nd.left.isSome then ([l] : List (Tree K P V))
      else [] with hTl
    set Tr := if nd.right.isSome then ([r] : List (Tree K P V))
      else [] with hTr
    have hF2 : List.Forall₂
        (fun pt t2 => ∃ s2, Gathers t.index.index pt t2 s2 ∧ s2.Nodup)
        (X ++ Y) (Tl ++ Tr) :=
      List.rel_append hF2l hF2r
    have hsize : l.size + r.size + 1 ≤ t.index.index.length := by
      have h1 := hg.ids_length
      have h2 := nodup_length_le hnd hg.bounded
      simp only [Tree.size_node] at h1
      omega
    have hfuel : (X ++ Y).length + 2 * (((Tl ++ Tr).map Tree.size).sum) <
        2 * t.index.index.length + 1 := by
      simp only [List.length_append, List.map_append, List.sum_append,
        hszl, hszr]
      omega
    have hheap' : ∀ t2 ∈ Tl ++ Tr, t2.HeapInv := by
      intro t2 ht2
      rcases List.mem_append.mp ht2 with ht2 | ht2
      · rw [hml t2 ht2]
        exact hh.2.2.1
      · rw [hmr t2 ht2]
        exact hh.2.2.2
    have hsub' : ∀ t2 ∈ Tl ++ Tr, ∀ q ∈ t2.priorities,
        q ∈ (Tree.node k0 p0 v0 l r).priorities := by
      intro t2 ht2 q hq
      simp only [Tree.priorities_node]
      rcases List.mem_append.mp ht2 with ht2 | ht2
      · rw [hml t2 ht2] at hq
        exact List.mem_append_left _ hq
      · rw [hmr t2 ht2] at hq
        exact List.mem_append_right _ (List.mem_cons_of_mem _ hq)
    have hp0mem : p0 ∈ (Tree.node k0 p0 v0 l r).priorities := by
      simp only [Tree.priorities_node]
      exact List.mem_append_right _ (List.mem_cons_self _ _)
    have hsort1 : List.Pairwise (fun a b => b < a) [nd.priority] := by simp
    have hsub1 : ∀ q ∈ [nd.priority],
        q ∈ (Tree.node k0 p0 v0 l r).priorities := by
      intro q hq
      rw [List.mem_singleton.mp hq, hp]
      exact hp0mem
    obtain ⟨pri', hrun, hs', hP', hmono, hcnt, hcov⟩ :=
      nthLoop_spec
        (2 * t.index.index.length + 1) (X ++ Y) (Tl ++ Tr)
        [nd.priority] hF2 hfuel hheap' hsub' hsort1 hsub1
    have hp0pri : p0 ∈ pri' := by
      refine hmono p0 ?_
      rw [← hp]
      exact List.mem_singleton.mpr rfl
    refine ⟨pri', hs', hP', ?_, ?_⟩
    · intro q hq
      simp only [Tree.priorities_node] at hq
      rcases List.mem_append.mp hq with hq | hq
      · exact hcov l (List.mem_append_left _ (hcovl q hq)) q hq
      · rcases List.mem_cons.mp hq with rfl | hq
        · exact Or.inl hp0pri
        · exact hcov r (List.mem_append_right _ (hmcovr q hq)) q hq
    · have hstep' : Treap.nthPriorityNode t.index t.root n [] [] =
          .ok (X ++ Y, [nd.priority]) := by rw [hroot]; exact hstep
      simp only [Treap.nthPriority, hstep', hrun]
      by_cases hlen : n ≤ pri'.length
      · rw [if_pos (by omega)]
        rw [if_neg (by omega)]
        obtain ⟨q, hq⟩ : ∃ q, pri'[n - 1]? = some q := by
          have hlt : n - 1 < pri'.length := by omega
          exact ⟨pri'.get ⟨n - 1, hlt⟩, List.getElem?_eq_some_iff.mpr
            ⟨hlt, rfl⟩⟩
        rw [hq]
      · rw [if_neg (by omega)]
        have hnone : pri'[n - 1]? = none := List.getElem?_eq_none (by omega)
        rw [hnone]

/-- `nth_priority` computes entry `n - 1` of the distinct priorities in
descending order. -/
theorem nthPriority_eq_distinctDesc {t : Treap K P V} {tr : Tree K P V}
    {ids : List Nat} (h : WFc t tr ids) (hh : tr.HeapInv) {n : Nat}
    (hn : 1 ≤ n) :
    t.nthPriority n = some (.ok (distinctDesc tr.priorities)[n - 1]?) := by
  obtain ⟨pri', hsort, hsub, hcov, hres⟩ := nthPriority_spec h hh hn
  rw [hres]
  have hS : List.Pairwise (fun a b => b < a) (distinctDesc tr.priorities) :=
    pairwise_distinctDesc _
  have hsubS : ∀ x ∈ pri', x ∈ distinctDesc tr.priorities := fun x hx =>
    mem_distinctDesc.mpr (hsub x hx)
  have htop : ∀ j, j < n →
      ∀ x ∈ (distinctDesc tr.priorities)[j]?, x ∈ pri' := by
    intro j hj x hx
    have hxP : x ∈ tr.priorities := by
      obtain ⟨hlt, hEq⟩ := List.getElem?_eq_some_iff.mp (Option.mem_def.mp hx)
      exact mem_distinctDesc.mp (hEq ▸ List.getElem_mem hlt)
    rcases hcov x hxP with hmem | hcnt
    · exact hmem
    · have := countP_le_of_subset hsort hS hsubS (Option.mem_def.mp hx)
      omega
  have heq : pri'[n - 1]? = (distinctDesc tr.priorities)[n - 1]? := by
    by_cases hlen : n ≤ (distinctDesc tr.priorities).length
    · have htake := sorted_prefix_eq n pri' (distinctDesc tr.priorities)
        hsort hS hsubS htop hlen
      have h1 : pri'[n - 1]? = (pri'.take n)[n - 1]? :=
        (List.getElem?_take_of_lt (by omega)).symm
      rw [h1, htake, List.getElem?_take_of_lt (by omega)]
    · have hprnd : pri'.Nodup := hsort.imp (fun h => (ne_of_gt h))
      have hSnd : (distinctDesc tr.priorities).Nodup :=
        hS.imp (fun h => (ne_of_gt h))
      have hle := nodup_subset_length_le hprnd hSnd hsubS
      rw [List.getElem?_eq_none (by omega),
        List.getElem?_eq_none (by omega)]
  rw [heq]

end NthPriority

section ClaimSupport

variable {K P V : Type} [LinearOrder K] [LinearOrder P]

/-- Under the search invariant the split either misses the key or detaches
exactly the entry carrying it. -/
theorem splitT_entry_eq {tr : Tree K P V} (hb : tr.BSTInv) (key : K) :
    ((tr.splitT key).2.1 = none ∧ key ∉ tr.keys) ∨
    (∃ p0 v0, (tr.splitT key).2.1 = some (key, p0, v0) ∧
      (key, p0, v0) ∈ tr.entries) := by
  have he := Tree.splitT_entries tr key
  obtain ⟨hlt, hgt, -, -⟩ := Tree.splitT_bst tr key hb
  rcases hopt : (tr.splitT key).2.1 with _ | e0
  · left
    refine ⟨rfl, ?_⟩
    intro hk
    rw [Tree.keys_eq_map] at hk
    obtain ⟨e, he1, he2⟩ := List.mem_map.mp hk
    rw [← he] at he1
    rcases List.mem_append.mp he1 with h1 | h1
    · have := hlt e.1 (Tree.mem_keys_of_mem_entries h1)
      rw [he2] at this
      exact absurd this (lt_irrefl _)
    · rcases List.mem_append.mp h1 with h1 | h1
      · rw [hopt] at h1
        simp at h1
      · have := hgt e.1 (Tree.mem_keys_of_mem_entries h1)
        rw [he2] at this
        exact absurd this (lt_irrefl _)
  · right
    have hek : e0.1 = key := Tree.splitT_entry_key tr key e0 (by simp [hopt])
    refine ⟨e0.2.1, e0.2.2, ?_, ?_⟩
    · rw [← hek]
    · rw [← he]
      refine List.mem_append_right _ (List.mem_append_left _ ?_)
      rw [hopt, ← hek]
      exact List.mem_singleton.mpr rfl

/-- Under a duplicate-free key list an entry is determined by its key. -/
theorem entries_key_unique {tr : Tree K P V} (hnd : tr.keys.Nodup)
    {e e' : K × P × V} (he : e ∈ tr.entries) (he' : e' ∈ tr.entries)
    (hk : e.1 = e'.1) : e = e' := by
  rw [Tree.keys_eq_map] at hnd
  exact List.inj_on_of_nodup_map hnd he he' hk

/-- The two search routines walk the same path and resolve the same
entry. -/
theorem searchNodeMut_eq_searchNode :
    ∀ (fuel : Nat) (d : DirectVecIndex K P V) (node : Option Nat) (key : K),
      Treap.searchNodeMut fuel d node key =
        Treap.searchNode fuel d node key := by
  intro fuel
  induction fuel with
  | zero => intro d node key; rfl
  | succ f ih =>
    intro d node key
    rw [Treap.searchNodeMut, Treap.searchNode]
    by_cases hnone : node.isNone
    · rw [if_pos hnone, if_pos hnone]
    · rw [if_neg hnone, if_neg hnone, DirectVecIndex.getMut_eq_get]
      rcases hget : d.get node with e | entry
      · simp [hget]
      · simp only [ofExcept_ok, Res.bind_eq, Res.bind_ok]
        by_cases hk : entry.key = key
        · simp only [if_pos hk]
          rw [DirectVecIndex.getMut_eq_get, hget]
          rfl
        · simp only [if_neg hk]
          by_cases hgt : entry.key > key
          · simp only [if_pos hgt]
            exact ih d entry.left key
          · simp only [if_neg hgt]
            exact ih d entry.right key

theorem ReachableIR.toReachable {t : Treap K P V} (h : ReachableIR t) :
    Reachable t := by
  induction h with
  | new => exact Reachable.new
  | insert hre hstep ih => exact Reachable.insert ih hstep
  | remove hre hstep ih => exact Reachable.remove ih hstep

end ClaimSupport

theorem exampleTreap_wf : WFc exampleTreap exampleTree exampleIds := by
  refine ⟨by decide, by decide, by decide, by decide, by decide, by decide⟩

section Claims

variable {K P V : Type} [LinearOrder K] [LinearOrder P]

/-- Publishing an internal failure leaves the freshly swapped-in empty treap
in the receiver. -/
theorem publish_error {α : Type} (x : Res (Treap K P V × α)) (e : Error)
    (h : (Treap.publish x).2 = some (.error e)) :
    (Treap.publish x).1 = Treap.new := by
  rcases x with _ | e' | ⟨t2, a⟩
  · rfl
  · rfl
  · exact absurd h (by simp [Treap.publish])

/-- C1: every treap built from `new` by a sequence of successful public
operations (insert, remove, prioritize, pop, cut) is arena-well-formed, and
the tree reachable from its root satisfies the binary-search-tree invariant
(left keys below, right keys above, no duplicate live keys) and the max-heap
invariant (each node's priority at least each direct child's). -/
theorem claim_C1 {t : Treap K P V} (h : Reachable t) :
    ∃ tr ids, WFc t tr ids ∧ tr.BSTInv ∧ tr.keys.Nodup ∧ tr.HeapInv := by
  obtain ⟨tr, ids, hwf, hb, hh⟩ := Reachable.wf h
  exact ⟨tr, ids, hwf, hb, hb.keys_nodup, hh⟩

theorem claim_C1_witness :
    ∃ tr ids, WFc ((Treap.new : Treap Nat Nat Nat).insert 1 10 0).1 tr ids ∧
      tr.BSTInv ∧ tr.keys.Nodup ∧ tr.HeapInv :=
  claim_C1 (Reachable.insert Reachable.new rfl)

/-- C2: the spec promises that every public operation returns a `Result`
and never panics under ordinary use, `nth_priority` with any `n` included;
but on every well-formed treap — the empty one included — `nth_priority(0)`
reaches the final `pri[n-1]` indexing with `n = 0`, whose `usize`
subtraction underflows and panics, so no `Result` is returned (modelled as
`none`). -/
theorem claim_C2 {t : Treap K P V} {tr : Tree K P V} {ids : List Nat}
    (h : WFc t tr ids) : t.nthPriority 0 = none := by
  have hg := h.gathers
  cases tr with
  | leaf =>
    obtain ⟨hroot, -⟩ := Gathers_leaf_inv hg
    have hstep : Treap.nthPriorityNode t.index t.root 0 [] [] =
        .ok ([], []) := by rw [hroot]; rfl
    simp only [Treap.nthPriority, hstep]
    rfl
  | node k0 p0 v0 l r =>
    obtain ⟨j, nd, ls, rs, hroot, ha, -, -, -, -, -, -⟩ :=
      Gathers_node_inv hg
    have hget := DirectVecIndex.get_eq_ok ha
    have hstep := nthPriorityNode_some_eq hget 0 [] ([] : List P)
    rw [if_neg (Nat.not_lt_zero _)] at hstep
    have hstep' : Treap.nthPriorityNode t.index t.root 0 [] [] =
        .ok ([], []) := by rw [hroot]; exact hstep
    simp only [Treap.nthPriority, hstep']
    rfl

theorem claim_C2_witness :
    (Treap.new : Treap Nat Nat Nat).nthPriority 0 = none :=
  claim_C2 WFc_new

/-- C3: the spec says a mutating operation that fails with an
arena-consistency error leaves the prior configuration in place; in the
code `insert`, `remove` and `prioritize` first swap the receiver with a
fresh empty treap and the early error return skips the store-back, so after
such a failure the caller observes the EMPTY treap, not the prior one. -/
theorem claim_C3 (t : Treap K P V) (key : K) (p : P) (v : V) (e : Error) :
    ((t.insert key p v).2 = some (.error e) →
      (t.insert key p v).1 = Treap.new) ∧
    ((t.remove key).2 = some (.error e) → (t.remove key).1 = Treap.new) ∧
    ((t.prioritize key p).2 = some (.error e) →
      (t.prioritize key p).1 = Treap.new) :=
  ⟨fun h => publish_error _ e h, fun h => publish_error _ e h,
    fun h => publish_error _ e h⟩

theorem claim_C3_witness :
    ((⟨some 0, ⟨[], []⟩⟩ : Treap Nat Nat Nat).insert 1 1 1).1 = Treap.new :=
  (claim_C3 (⟨some 0, ⟨[], []⟩⟩ : Treap Nat Nat Nat) 1 1 1
    (.index (.outOfBounds 0))).1 rfl

theorem claim_C3_counterexample :
    ∃ e : Error,
      ((⟨some 0, ⟨[], []⟩⟩ : Treap Nat Nat Nat).insert 1 1 1).2 =
        some (.error e) ∧
      ((⟨some 0, ⟨[], []⟩⟩ : Treap Nat Nat Nat).insert 1 1 1).1 ≠
        (⟨some 0, ⟨[], []⟩⟩ : Treap Nat Nat Nat) :=
  ⟨.index (.outOfBounds 0), rfl, by decide⟩

/-- C10: `get_mut` finds an entry exactly when `get` does, both expose the
same priority and value, and neither changes the container: resolving a key
mutably is observationally the pair of the unchanged treap and the read-only
lookup. -/
theorem claim_C10 (t : Treap K P V) (key : K) :
    t.getMut key = (t, t.get key) := by
  simp only [Treap.getMut, Treap.get, searchNodeMut_eq_searchNode]
  rcases Treap.searchNode (t.index.index.length + 1) t.index t.root key with
    _ | e | r <;> rfl

/-- C4: a successful `insert key p v` returns the prior `(priority, value)`
when the key was present and `none` otherwise, and afterwards the container
holds exactly one entry for that key, carrying the new priority and value,
while every other key's entry is untouched. -/
theorem claim_C4 {t : Treap K P V} {tr : Tree K P V} {ids : List Nat}
    (h : WFc t tr ids) (hb : tr.BSTInv) (hh : tr.HeapInv)
    (key : K) (p : P) (v : V) :
    ∃ tr' ids' prior,
      WFc (t.insert key p v).1 tr' ids' ∧
      (t.insert key p v).2 = some (.ok prior) ∧
      (key, p, v) ∈ tr'.entries ∧
      tr'.keys.Nodup ∧
      (∀ e ∈ tr'.entries, e.1 ≠ key → e ∈ tr.entries) ∧
      (∀ e ∈ tr.entries, e.1 ≠ key → e ∈ tr'.entries) ∧
      ((∃ p0 v0, prior = some (p0, v0) ∧ (key, p0, v0) ∈ tr.entries) ∨
        (prior = none ∧ key ∉ tr.keys)) := by
  obtain ⟨tr', ids', hwf, htr', hres⟩ := insert_spec h key p v
  have hse := Tree.splitT_entries tr key
  have hent : tr'.entries = (tr.splitT key).1.entries ++
      (key, p, v) :: (tr.splitT key).2.2.entries := by
    rw [htr', Tree.mergeT_entries, Tree.mergeT_entries]
    simp
  refine ⟨tr', ids', _, hwf, hres, ?_, ?_, ?_, ?_, ?_⟩
  · rw [hent]
    exact List.mem_append_right _ (List.mem_cons_self _ _)
  · rw [htr']
    exact ((insertT_bst_heap hb hh key p v).1).keys_nodup
  · intro e he hne
    rw [hent] at he
    rcases List.mem_append.mp he with he | he
    · rw [← hse]
      exact List.mem_append_left _ he
    · rcases List.mem_cons.mp he with rfl | he
      · exact absurd rfl hne
      · rw [← hse]
        exact List.mem_append_right _ (List.mem_append_right _ he)
  · intro e he hne
    rw [← hse] at he
    rcases List.mem_append.mp he with he | he
    · rw [hent]
      exact List.mem_append_left _ he
    · rcases List.mem_append.mp he with he | he
      · have := Tree.splitT_entry_key tr key e (Option.mem_toList.mp he)
        exact absurd this hne
      · rw [hent]
        exact List.mem_append_right _ (List.mem_cons_of_mem _ he)
  · rcases splitT_entry_eq hb key with ⟨hnone, hnk⟩ | ⟨p0, v0, hsome, hmem⟩
    · right
      rw [hnone]
      exact ⟨rfl, hnk⟩
    · left
      refine ⟨p0, v0, ?_, hmem⟩
      rw [hsome]
      rfl

theorem claim_C4_witness :
    ∃ tr' ids' prior,
      WFc ((Treap.new : Treap Nat Nat Nat).insert 1 2 3).1 tr' ids' ∧
      ((Treap.new : Treap Nat Nat Nat).insert 1 2 3).2 = some (.ok prior) ∧
      (1, 2, 3) ∈ tr'.entries ∧
      tr'.keys.Nodup ∧
      (∀ e ∈ tr'.entries, e.1 ≠ 1 → e ∈ (Tree.leaf : Tree Nat Nat Nat).entries) ∧
      (∀ e ∈ (Tree.leaf : Tree Nat Nat Nat).entries, e.1 ≠ 1 →
        e ∈ tr'.entries) ∧
      ((∃ p0 v0, prior = some (p0, v0) ∧
        (1, p0, v0) ∈ (Tree.leaf : Tree Nat Nat Nat).entries) ∨
        (prior = none ∧ (1 : Nat) ∉ (Tree.leaf : Tree Nat Nat Nat).keys)) :=
  claim_C4 WFc_new trivial trivial 1 2 3

/-- C5: on a non-empty invariant-satisfying treap, `pop` removes and
returns the root entry as `(key, priority, value)` whose priority bounds
every stored priority, replaces the root by the merge of its children, and
returns `none` on the empty treap; draining by repeated `pop` yields every
entry exactly once in non-increasing priority order and then `none`. -/
theorem claim_C5 {t : Treap K P V} {tr : Tree K P V} {ids : List Nat}
    (h : WFc t tr ids) (hb : tr.BSTInv) (hh : tr.HeapInv) :
    (tr = .leaf → t.pop = (t, some (.ok none))) ∧
    (∀ k pr v lt rt, tr = .node k pr v lt rt →
      (∀ q ∈ tr.priorities, q ≤ pr) ∧
      ∃ tr' ids', WFc (t.pop).1 tr' ids' ∧ tr' = lt.mergeT rt ∧
        (t.pop).2 = some (.ok (some (k, pr, v)))) ∧
    List.Perm (popSeq tr.size t).1 tr.entries ∧
    List.Pairwise (fun a b => b.2.1 ≤ a.2.1) (popSeq tr.size t).1 ∧
    (popSeq tr.size t).2.pop = ((popSeq tr.size t).2, some (.ok none)) := by
  obtain ⟨h1, h2⟩ := pop_spec h
  obtain ⟨hperm, hpair, ids'', hfin⟩ := popSeq_spec tr.size le_rfl h hh
  refine ⟨h1, ?_, hperm, hpair, (pop_spec hfin).1 rfl⟩
  intro k pr v lt rt heq
  refine ⟨?_, h2 k pr v lt rt heq⟩
  intro q hq
  subst heq
  exact hh.priorities_le q hq pr (by simp [Tree.rootPriority])

theorem claim_C5_witness :
    ((Tree.leaf : Tree Nat Nat Nat) = .leaf →
      (Treap.new : Treap Nat Nat Nat).pop = (Treap.new, some (.ok none))) ∧
    (∀ k pr v lt rt, (Tree.leaf : Tree Nat Nat Nat) = .node k pr v lt rt →
      (∀ q ∈ (Tree.leaf : Tree Nat Nat Nat).priorities, q ≤ pr) ∧
      ∃ tr' ids', WFc ((Treap.new : Treap Nat Nat Nat).pop).1 tr' ids' ∧
        tr' = lt.mergeT rt ∧
        ((Treap.new : Treap Nat Nat Nat).pop).2 =
          some (.ok (some (k, pr, v)))) ∧
    List.Perm (popSeq (Tree.leaf : Tree Nat Nat Nat).size (Treap.new : Treap Nat Nat Nat)).1
      (Tree.leaf : Tree Nat Nat Nat).entries ∧
    List.Pairwise (fun a b => b.2.1 ≤ a.2.1)
      (popSeq (Tree.leaf : Tree Nat Nat Nat).size (Treap.new : Treap Nat Nat Nat)).1 ∧
    (popSeq (Tree.leaf : Tree Nat Nat Nat).size (Treap.new : Treap Nat Nat Nat)).2.pop =
      ((popSeq (Tree.leaf : Tree Nat Nat Nat).size (Treap.new : Treap Nat Nat Nat)).2,
        some (.ok none)) :=
  claim_C5 WFc_new trivial trivial

/-- C6: on a heap-ordered treap `cut p` succeeds, afterwards no remaining
entry has priority below `p`, and every entry whose priority was at least
`p` survives with unchanged key, priority and value. -/
theorem claim_C6 {t : Treap K P V} {tr : Tree K P V} {ids : List Nat}
    (h : WFc t tr ids) (hh : tr.HeapInv) (p : P) :
    ∃ t' tr' kids, t.cut p = (t', some (.ok ())) ∧ WFc t' tr' kids ∧
      (∀ e ∈ tr'.entries, ¬ e.2.1 < p) ∧
      (∀ e ∈ tr.entries, ¬ e.2.1 < p → e ∈ tr'.entries) := by
  obtain ⟨t', kids, hrun, hwf⟩ := cut_spec h p
  refine ⟨t', _, kids, hrun, hwf, ?_, ?_⟩
  · intro e he
    rw [Tree.cutT_entries p hh] at he
    have := (List.mem_filter.mp he).2
    simpa using this
  · intro e he hp
    rw [Tree.cutT_entries p hh]
    exact List.mem_filter.mpr ⟨he, by simpa using hp⟩

theorem claim_C6_witness :
    ∃ t' tr' kids, (Treap.new : Treap Nat Nat Nat).cut 5 =
      (t', some (.ok ())) ∧ WFc t' tr' kids ∧
      (∀ e ∈ tr'.entries, ¬ e.2.1 < 5) ∧
      (∀ e ∈ (Tree.leaf : Tree Nat Nat Nat).entries, ¬ e.2.1 < 5 →
        e ∈ tr'.entries) :=
  claim_C6 WFc_new trivial 5

/-- C7: on a heap-ordered well-formed treap over a totally ordered priority
type and any `n ≥ 1`, `nth_priority n` returns `Ok` of the n-th largest
distinct priority (1-indexed) when at least `n` distinct priorities exist
and `Ok none` otherwise — entry `n - 1` of the distinct priorities sorted
descending; in particular, for the container holding priorities
`{10,6,8,4,2,7,4,3,3,1,3}`, `nth_priority 1 = 10`, `nth_priority 3 = 7`,
and `nth_priority m = none` for `m` beyond the 8 distinct priorities. -/
theorem claim_C7 {t : Treap K P V} {tr : Tree K P V} {ids : List Nat}
    (h : WFc t tr ids) (hh : tr.HeapInv) {n : Nat} (hn : 1 ≤ n) :
    t.nthPriority n = some (.ok (distinctDesc tr.priorities)[n - 1]?) ∧
    exampleTreap.nthPriority 1 = some (.ok (some 10)) ∧
    exampleTreap.nthPriority 3 = some (.ok (some 7)) ∧
    distinctDesc exampleTree.priorities = [10, 8, 7, 6, 4, 3, 2, 1] ∧
    (∀ m : Nat, 8 < m → exampleTreap.nthPriority m = some (.ok none)) := by
  refine ⟨nthPriority_eq_distinctDesc h hh hn, rfl, rfl, by decide, ?_⟩
  intro m hm
  have hd : distinctDesc exampleTree.priorities =
      [10, 8, 7, 6, 4, 3, 2, 1] := by decide
  have := nthPriority_eq_distinctDesc exampleTreap_wf (by decide)
    (show 1 ≤ m by omega)
  rw [this, hd, List.getElem?_eq_none (by simp; omega)]

theorem claim_C7_witness :
    (exampleTreap.nthPriority 1 =
      some (.ok (distinctDesc exampleTree.priorities)[0]?) ∧
    exampleTreap.nthPriority 1 = some (.ok (some 10)) ∧
    exampleTreap.nthPriority 3 = some (.ok (some 7)) ∧
    distinctDesc exampleTree.priorities = [10, 8, 7, 6, 4, 3, 2, 1] ∧
    (∀ m : Nat, 8 < m → exampleTreap.nthPriority m = some (.ok none))) :=
  claim_C7 exampleTreap_wf (by decide) (le_refl 1)

/-- C8: the spec's round trip `insert(k,p,v)` then `remove(k)` does return
`(p,v)`, but the key set is restored only when `k` was absent beforehand:
when `k` was present the old entry is destroyed by the insert, so the final
key set lacks `k` and differs from the pre-insert one.  Corrected statement:
under `k ∉ keys`, the round trip returns `(p,v)` and leaves the key set
unchanged. -/
theorem claim_C8 {t : Treap K P V} {tr : Tree K P V} {ids : List Nat}
    (h : WFc t tr ids) (hb : tr.BSTInv) (hh : tr.HeapInv)
    {key : K} (hk : key ∉ tr.keys) (p : P) (v : V) :
    ∃ tr' ids',
      WFc ((t.insert key p v).1.remove key).1 tr' ids' ∧
      ((t.insert key p v).1.remove key).2 = some (.ok (some (p, v))) ∧
      List.Perm tr'.keys tr.keys := by
  obtain ⟨tr1, ids1, hwf1, htr1, hres1⟩ := insert_spec h key p v
  obtain ⟨hb1, hh1⟩ : tr1.BSTInv ∧ tr1.HeapInv := by
    rw [htr1]
    exact insertT_bst_heap hb hh key p v
  obtain ⟨tr2, ids2, hwf2, htr2, hres2⟩ := remove_spec hwf1 key
  have hent1 : tr1.entries = (tr.splitT key).1.entries ++
      (key, p, v) :: (tr.splitT key).2.2.entries := by
    rw [htr1, Tree.mergeT_entries, Tree.mergeT_entries]
    simp
  have hkpv : (key, p, v) ∈ tr1.entries := by
    rw [hent1]
    exact List.mem_append_right _ (List.mem_cons_self _ _)
  have hopt1 : (tr1.splitT key).2.1 = some (key, p, v) := by
    rcases splitT_entry_eq hb1 key with ⟨hnone, hnk⟩ | ⟨p0, v0, hsome, hm⟩
    · exact absurd (Tree.mem_keys_of_mem_entries hkpv) hnk
    · have := entries_key_unique hb1.keys_nodup hm hkpv rfl
      rw [hsome, this]
  have hopt0 : (tr.splitT key).2.1 = none := by
    rcases splitT_entry_eq hb key with ⟨hnone, -⟩ | ⟨p0, v0, hsome, hm⟩
    · exact hnone
    · exact absurd (Tree.mem_keys_of_mem_entries hm) hk
  have hse1 := Tree.splitT_entries tr1 key
  have hse0 := Tree.splitT_entries tr key
  rw [hopt1] at hse1
  rw [hopt0] at hse0
  simp only [Option.toList_some, Option.toList_none, List.nil_append,
    List.singleton_append] at hse1 hse0
  have hent2 : tr2.entries = (tr1.splitT key).1.entries ++
      (tr1.splitT key).2.2.entries := by
    rw [htr2, Tree.mergeT_entries]
  have hpermE : List.Perm tr2.entries tr.entries := by
    have h1 : (tr1.splitT key).1.entries ++
        (key, p, v) :: (tr1.splitT key).2.2.entries =
        (tr.splitT key).1.entries ++
        (key, p, v) :: (tr.splitT key).2.2.entries :=
      hse1.trans hent1
    have h2 : List.Perm
        ((key, p, v) :: ((tr1.splitT key).1.entries ++
          (tr1.splitT key).2.2.entries))
        ((key, p, v) :: ((tr.splitT key).1.entries ++
          (tr.splitT key).2.2.entries)) := by
      refine (List.perm_middle.symm.trans ?_).trans List.perm_middle
      rw [h1]
    rw [hent2, ← hse0]
    exact h2.cons_inv
  refine ⟨tr2, ids2, hwf2, ?_, ?_⟩
  · rw [hres2, hopt1]
    rfl
  · rw [Tree.keys_eq_map, Tree.keys_eq_map]
    exact hpermE.map _

theorem claim_C8_witness :
    ∃ tr' ids',
      WFc (((Treap.new : Treap Nat Nat Nat).insert 5 1 2).1.remove 5).1
        tr' ids' ∧
      (((Treap.new : Treap Nat Nat Nat).insert 5 1 2).1.remove 5).2 =
        some (.ok (some (1, 2))) ∧
      List.Perm tr'.keys (Tree.leaf : Tree Nat Nat Nat).keys :=
  claim_C8 WFc_new trivial trivial (by simp) 1 2

theorem claim_C8_counterexample :
    ((((Treap.new : Treap Nat Nat Nat).insert 0 1 0).1.insert 0 2 5).1.remove
      0).2 = some (.ok (some (2, 5))) ∧
    ((((Treap.new : Treap Nat Nat Nat).insert 0 1 0).1.insert 0 2 5).1.remove
      0).1.len = 0 ∧
    ((Treap.new : Treap Nat Nat Nat).insert 0 1 0).1.len = 1 :=
  ⟨rfl, by decide, by decide⟩

/-- C9: after any sequence of successful inserts and removes from the empty
treap, `len()` equals the number of distinct keys present, and the arena's
`size()` is exactly its allocated-slot count minus its pending-reuse count
with no clamping needed (the difference is never negative). -/
theorem claim_C9 {t : Treap K P V} (h : ReachableIR t) :
    ∃ tr ids, WFc t tr ids ∧ t.len = tr.keys.dedup.length ∧
      t.index.size = t.index.index.length - t.index.reuse.length ∧
      (t.index.size : Int) =
        (t.index.index.length : Int) - (t.index.reuse.length : Int) := by
  obtain ⟨tr, ids, hwf, hb, hh⟩ := Reachable.wf h.toReachable
  have hlen := hwf.len_eq
  have hsz := hwf.length_eq
  refine ⟨tr, ids, hwf, ?_, rfl, ?_⟩
  · rw [List.dedup_eq_self.mpr hb.keys_nodup, hlen,
      ← Tree.entries_length, Tree.keys_eq_map, List.length_map]
  · simp only [DirectVecIndex.size]
    have hle : t.index.reuse.length ≤ t.index.index.length := by omega
    push_cast [hle]
    ring

theorem claim_C9_witness :
    ∃ tr ids, WFc (Treap.new : Treap Nat Nat Nat) tr ids ∧
      (Treap.new : Treap Nat Nat Nat).len = tr.keys.dedup.length ∧
      (Treap.new : Treap Nat Nat Nat).index.size =
        (Treap.new : Treap Nat Nat Nat).index.index.length -
        (Treap.new : Treap Nat Nat Nat).index.reuse.length ∧
      ((Treap.new : Treap Nat Nat Nat).index.size : Int) =
        ((Treap.new : Treap Nat Nat Nat).index.index.length : Int) -
        ((Treap.new : Treap Nat Nat Nat).index.reuse.length : Int) :=
  claim_C9 ReachableIR.new

end Claims

end Treaplib
